import Mathlib

/-!
# lua-resty-threadpool: codec and task life cycle

A shallow embedding of `src/serialize.c` (the value codec) and of
`src/ngx_http_resty_threadpool_module.c` (the task state machine), followed by
theorems about them.

Conventions of the embedding.

* A byte is a natural number below 256; a buffer is a list of bytes.
* A Lua stack is a list of values whose head is the top of the stack
  (index `-1`); the last element is index `1`.  Stacks are unbounded: the
  limit that `lua_checkstack` guards is not part of the embedding.
* Sizes are those of a 64-bit platform: a `size_t` holds any length, a
  `uint32_t` holds a length modulo `2^32`, and offsets do not wrap around.
* A Lua error raised with `luaL_error` is the constructor `raise`; it unwinds
  the C function that raised it.
* The Lua C API is not part of the repository.  Its calls are embedded by what
  the Lua 5.1 reference manual says they do.  `luaL_loadbuffer` and the run of
  a coroutine (`lua_resume`) are parameters of the embedding.
-/

namespace ThreadPool

/-! ## Lua values -/

/-- Type tags of `lua.h` (Lua 5.1). -/
def LUA_TNIL : Nat := 0
def LUA_TBOOLEAN : Nat := 1
def LUA_TLIGHTUSERDATA : Nat := 2
def LUA_TNUMBER : Nat := 3
def LUA_TSTRING : Nat := 4
def LUA_TTABLE : Nat := 5
def LUA_TFUNCTION : Nat := 6
def LUA_TUSERDATA : Nat := 7
def LUA_TTHREAD : Nat := 8

/-- Largest value of a `uint32_t`. -/
def UINT32_MAX : Nat := 2 ^ 32 - 1

/-- Size in bytes of a `lua_Number` (a C `double`). -/
def sizeof_lua_Number : Nat := 8

/-- Size in bytes of a `uint32_t`. -/
def sizeof_uint32_t : Nat := 4

mutual
/-- Lua values as the codec sees them.  A number is the 64-bit pattern of its
`double`; a string is its bytes; a table is whether it has a metatable and its
entries in the order `lua_next` enumerates them; a Lua closure is its number of
upvalues and the bytes `lua_dump` writes for it. -/
inductive LuaValue : Type
  | nil : LuaValue
  | boolean (b : Bool) : LuaValue
  | lightuserdata (p : Nat) : LuaValue
  | number (bits : Nat) : LuaValue
  | string (s : List Nat) : LuaValue
  | table (metatable : Bool) (entries : Entries) : LuaValue
  | cfunction (p : Nat) : LuaValue
  | lfunction (nups : Nat) (dump : List Nat) : LuaValue
  | userdata (p : Nat) : LuaValue
  | thread (p : Nat) : LuaValue
  deriving DecidableEq
/-- Entries of a table, first enumerated first. -/
inductive Entries : Type
  | none : Entries
  | more (key : LuaValue) (value : LuaValue) (rest : Entries) : Entries
  deriving DecidableEq
end

/-- Result of a C function that may raise a Lua error.  `fuel` is the
embedding running out of recursion budget; it is not a behaviour of the
code. -/
inductive Outcome (α : Type) : Type
  | ok (a : α) : Outcome α
  | raise (msg : String) : Outcome α
  | fuel : Outcome α
  deriving DecidableEq

/-- Value of `lua_type`. -/
def lua_type : LuaValue → Nat
  | .nil => LUA_TNIL
  | .boolean _ => LUA_TBOOLEAN
  | .lightuserdata _ => LUA_TLIGHTUSERDATA
  | .number _ => LUA_TNUMBER
  | .string _ => LUA_TSTRING
  | .table _ _ => LUA_TTABLE
  | .cfunction _ => LUA_TFUNCTION
  | .lfunction _ _ => LUA_TFUNCTION
  | .userdata _ => LUA_TUSERDATA
  | .thread _ => LUA_TTHREAD

/-- Value of `luaL_typename`. -/
def luaL_typename : LuaValue → String
  | .nil => "nil"
  | .boolean _ => "boolean"
  | .lightuserdata _ => "userdata"
  | .number _ => "number"
  | .string _ => "string"
  | .table _ _ => "table"
  | .cfunction _ => "function"
  | .lfunction _ _ => "function"
  | .userdata _ => "userdata"
  | .thread _ => "thread"

/-! ## Native representation of integers -/

/-- The `k` bytes of `n` in memory, least significant first. -/
def leBytes : Nat → Nat → List Nat
  | 0, _ => []
  | k + 1, n => (n % 256) :: leBytes k (n / 256)

/-- The integer whose bytes in memory are `bs`, least significant first. -/
def leVal : List Nat → Nat
  | [] => 0
  | b :: bs => b + 256 * leVal bs

/-! ## Encoder (`encodevalue`, `luaser_encode`) -/

/-- A Lua error raised by the encoder, with the content of the `luaL_Buffer`
at the time it was raised. -/
structure EncodeError where
  msg : String
  buf : List Nat
  deriving DecidableEq

mutual
/-- Embedding of `encodevalue`: appends the encoding of the value to `buf`. -/
def encodevalue : LuaValue → List Nat → Except EncodeError (List Nat)
  | .nil, buf => .ok (buf ++ [LUA_TNIL])
  | .boolean b, buf => .ok (buf ++ [LUA_TBOOLEAN] ++ [if b then 1 else 0])
  | .number n, buf => .ok (buf ++ [LUA_TNUMBER] ++ leBytes sizeof_lua_Number n)
  | .string s, buf =>
    if s.length > UINT32_MAX then .error ⟨"string too long", buf⟩
    else
      .ok (buf ++ [LUA_TSTRING] ++ leBytes sizeof_uint32_t (s.length % 2 ^ 32) ++ s)
  | .table metatable entries, buf =>
    if metatable then .error ⟨"cannot serialize table with metatable", buf⟩
    else
      match encodeentries entries (buf ++ [LUA_TTABLE]) with
      | .error e => .error e
      | .ok buf1 => .ok (buf1 ++ [LUA_TNIL])
  | .cfunction _, buf => .error ⟨"cannot serialize C function", buf⟩
  | .lfunction nups dump, buf =>
    if nups > 0 then .error ⟨"cannot serialize function with upvalues", buf⟩
    else
      .ok (buf ++ [LUA_TFUNCTION] ++ leBytes sizeof_uint32_t (dump.length % 2 ^ 32) ++ dump)
  | .lightuserdata _, buf => .error ⟨"cannot serialize userdata", buf⟩
  | .userdata _, buf => .error ⟨"cannot serialize userdata", buf⟩
  | .thread _, buf => .error ⟨"cannot serialize thread", buf⟩
/-- The `while (lua_next(L, idx) != 0)` loop of `encodevalue`. -/
def encodeentries : Entries → List Nat → Except EncodeError (List Nat)
  | .none, buf => .ok buf
  | .more key value rest, buf =>
    match encodevalue key buf with
    | .error e => .error e
    | .ok buf1 =>
      match encodevalue value buf1 with
      | .error e => .error e
      | .ok buf2 => encodeentries rest buf2
end

/-- The value at the absolute index `idx` (1 is the bottom) of a stack, if
the index is valid. -/
def stackAt (L : List LuaValue) (idx : Nat) : Option LuaValue :=
  if idx = 0 then none else L.reverse.get? (idx - 1)

/-- Embedding of `luaser_encode`: serializes the value at index `idx` of the
stack into a buffer that starts empty and pushes the resulting string.  At an
index that holds no value `lua_type` is `LUA_TNONE` and the `default` branch
of `encodevalue` raises. -/
def luaser_encode (L : List LuaValue) (idx : Nat) : Except EncodeError (List LuaValue) :=
  match stackAt L idx with
  | none => .error ⟨"cannot serialize no value", []⟩
  | some v =>
    match encodevalue v [] with
    | .error e => .error e
    | .ok buf => .ok (LuaValue.string buf :: L)

/-! ## Tables under `lua_settable` -/

/-- Whether the `double` with this bit pattern is a NaN (IEEE 754 binary64:
exponent all ones, mantissa not zero). -/
def isNaN (bits : Nat) : Bool :=
  (bits / 2 ^ 52) % 2 ^ 11 == 2047 && bits % 2 ^ 52 != 0

/-- C equality `a == b` of two `double`s given by their bit patterns: false as
soon as one is a NaN, true on equal patterns and on two zeroes of either
sign. -/
def luai_numeq (a b : Nat) : Bool :=
  !isNaN a && !isNaN b && (a == b || (a % 2 ^ 63 == 0 && b % 2 ^ 63 == 0))

/-- Raw equality of a key already in a table (`old`) with a key about to be
stored (`new`).  Booleans, numbers, strings and light userdata are compared by
value.  Tables, functions, userdata and threads are compared by identity: the
key being stored is an object the decoder has just created, so it is never
a key already in the table. -/
def lua_rawequal (old new : LuaValue) : Bool :=
  match old, new with
  | .nil, .nil => true
  | .boolean a, .boolean b => a == b
  | .lightuserdata a, .lightuserdata b => a == b
  | .number a, .number b => luai_numeq a b
  | .string a, .string b => a == b
  | _, _ => false

/-- Removes the entry whose key is raw-equal to `key`, when there is one. -/
def Entries.erase : Entries → LuaValue → Entries
  | .none, _ => .none
  | .more k v rest, key =>
    if lua_rawequal k key then rest else .more k v (Entries.erase rest key)

/-- Stores `value` under `key`: replaces the value of the entry whose key is
raw-equal to `key`, or adds a new entry after the others. -/
def Entries.store : Entries → LuaValue → LuaValue → Entries
  | .none, key, value => .more key value .none
  | .more k v rest, key, value =>
    if lua_rawequal k key then .more k value rest
    else .more k v (Entries.store rest key value)

/-- Raw assignment `t[key] = value`: assigning nil removes the entry. -/
def lua_rawset (t : Entries) (key value : LuaValue) : Entries :=
  match value with
  | .nil => Entries.erase t key
  | _ => Entries.store t key value

/-- Embedding of `lua_settable(L, -3)` on a table without metatable: pops the
value and the key and assigns in the table just below them.  A nil or NaN key
raises a Lua error. -/
def lua_settable : List LuaValue → Outcome (List LuaValue)
  | value :: key :: .table metatable entries :: L =>
    match key with
    | .nil => .raise "table index is nil"
    | .number bits =>
      if isNaN bits then .raise "table index is NaN"
      else .ok (.table metatable (lua_rawset entries key value) :: L)
    | _ => .ok (.table metatable (lua_rawset entries key value) :: L)
  | _ => .raise "attempt to index a non-table value"

/-! ## Decoder (`decodevalue`, `luaser_decode`) -/

/-- The `n` bytes of memory starting at offset `buf`. -/
def readBytes (mem : List Nat) (buf n : Nat) : List Nat :=
  (mem.drop buf).take n

/-- The byte of memory at offset `buf` (`*buf`). -/
def readByte (mem : List Nat) (buf : Nat) : Nat :=
  mem.getD buf 0

/-- The test of the `checkbuffer` macro: true when it raises "wrong code". -/
def checkbuffer (cur endp n : Nat) : Bool :=
  decide (cur + n > endp)

mutual
/-- Embedding of `decodevalue`.  `mem` is the memory the pointers point into,
`buf` and `endp` are offsets in it, `L` is the destination stack.  On success
the result is the cursor after the value and the stack with the value pushed.
`luaL_loadbuffer` maps a chunk to the dump of the closure it loads, or to
nothing when the chunk does not load. -/
def decodevalue (luaL_loadbuffer : List Nat → Option (List Nat)) (mem : List Nat) :
    Nat → Nat → Nat → List LuaValue → Outcome (Nat × List LuaValue)
  | 0, _, _, _ => .fuel
  | fuel + 1, buf, endp, L =>
    if checkbuffer buf endp 1 then .raise "wrong code"
    else
      let tag := readByte mem buf
      let buf := buf + 1
      if tag = LUA_TNIL then .ok (buf, .nil :: L)
      else if tag = LUA_TBOOLEAN then
        if checkbuffer buf endp 1 then .raise "wrong code"
        else .ok (buf + 1, .boolean (readByte mem buf != 0) :: L)
      else if tag = LUA_TNUMBER then
        if checkbuffer buf endp sizeof_lua_Number then .raise "wrong code"
        else
          .ok (buf + sizeof_lua_Number,
            .number (leVal (readBytes mem buf sizeof_lua_Number)) :: L)
      else if tag = LUA_TSTRING then
        if checkbuffer buf endp sizeof_uint32_t then .raise "wrong code"
        else
          let serlen := leVal (readBytes mem buf sizeof_uint32_t)
          let buf := buf + sizeof_uint32_t
          if checkbuffer buf endp serlen then .raise "wrong code"
          else .ok (buf + serlen, .string (readBytes mem buf serlen) :: L)
      else if tag = LUA_TTABLE then
        if checkbuffer buf endp 1 then .raise "wrong code"
        else decodeentries luaL_loadbuffer mem fuel buf endp (.table false .none :: L)
      else if tag = LUA_TFUNCTION then
        if checkbuffer buf endp sizeof_uint32_t then .raise "wrong code"
        else
          let dumplen := leVal (readBytes mem buf sizeof_uint32_t)
          let buf := buf + sizeof_uint32_t
          if checkbuffer buf endp dumplen then .raise "wrong code"
          else
            match luaL_loadbuffer (readBytes mem buf dumplen) with
            | .none => .raise "failed to load function"
            | .some dump => .ok (buf + dumplen, .lfunction 0 dump :: L)
      else .raise "wrong type identifier"
/-- The `while (*buf != LUA_TNIL)` loop of `decodevalue`, entered with the
new table on top of the stack. -/
def decodeentries (luaL_loadbuffer : List Nat → Option (List Nat)) (mem : List Nat) :
    Nat → Nat → Nat → List LuaValue → Outcome (Nat × List LuaValue)
  | 0, _, _, _ => .fuel
  | fuel + 1, buf, endp, L =>
    if readByte mem buf ≠ LUA_TNIL then
      match decodevalue luaL_loadbuffer mem fuel buf endp L with
      | .fuel => .fuel
      | .raise msg => .raise msg
      | .ok (buf1, L1) =>
        if checkbuffer buf1 endp 1 then .raise "wrong code"
        else
          match decodevalue luaL_loadbuffer mem fuel buf1 endp L1 with
          | .fuel => .fuel
          | .raise msg => .raise msg
          | .ok (buf2, L2) =>
            if checkbuffer buf2 endp 1 then .raise "wrong code"
            else
              match lua_settable L2 with
              | .fuel => .fuel
              | .raise msg => .raise msg
              | .ok L3 => decodeentries luaL_loadbuffer mem fuel buf2 endp L3
    else .ok (buf + 1, L)
end

/-- Embedding of `luaser_decode`: decodes the value at the start of the `len`
bytes of `mem` and pushes it on `L`.  The recursion budget `2 * len + 1` is
never exhausted (see `luaser_decode_fuel`). -/
def luaser_decode (luaL_loadbuffer : List Nat → Option (List Nat)) (L : List LuaValue)
    (mem : List Nat) (len : Nat) : Outcome (List LuaValue) :=
  match decodevalue luaL_loadbuffer mem (2 * len + 1) 0 len L with
  | .fuel => .fuel
  | .raise msg => .raise msg
  | .ok (_, L1) => .ok L1

/-! ## The task (`ngx_http_resty_threadpool_module.c`)

In this part `Outcome.raise` is every way a C function stops without
returning: a Lua error (caught by the Lua caller of an API function; fatal in
the two event handlers, which run outside any protected call), a violated
`ngx_http_lua_assert`, or the use of a `NULL` `lua_State`. -/

/-- The enumeration `ngx_http_resty_threadpool_thread_status_t`. -/
inductive Status : Type
  | CREATED : Status
  | YIELDED : Status
  | RUNNING : Status
  | SUCCESS : Status
  | FAILED : Status
  | DESTROYED : Status
  deriving DecidableEq

/-- A worker `lua_State` (`ud->L`): the stack of its main thread and the stack
of the coroutine `co` that runs the work. -/
structure LuaState where
  stack : List LuaValue
  co : List LuaValue
  deriving DecidableEq

/-- The handle `ngx_http_resty_threadpool_state_t`: the pool (`NULL` is
`none`), the worker state (`NULL` is `none`) and the status. -/
structure ThreadState where
  tp : Option String
  L : Option LuaState
  status : Status
  deriving DecidableEq

/-- What `lua_resume(co, 0)` does on one run of the work: it returns 0 with
the returned values on the stack of `co`, or `LUA_YIELD` with the values passed
to the yield, or an error code with the error value on top. -/
inductive CoroutineRun : Type
  | finished (values : List LuaValue) : CoroutineRun
  | yielded (values : List LuaValue) : CoroutineRun
  | failed (err : LuaValue) : CoroutineRun
  deriving DecidableEq

/-- The part of `ngx_http_resty_threadpool_task_handler` before `lua_resume`:
on a new task the code string at index 1 is decoded into a new coroutine, on
a suspended task the coroutine at index 1 is taken again; the status becomes
`RUNNING`. -/
def ngx_http_resty_threadpool_task_handler_pickup
    (luaL_loadbuffer : List Nat → Option (List Nat)) (thread : ThreadState) :
    Outcome ThreadState :=
  match thread.L with
  | none => .raise "NULL lua_State"
  | some L =>
    if thread.status = Status.CREATED then
      match stackAt L.stack 1 with
      | some (.string code) =>
        let stack1 := LuaValue.thread 0 :: L.stack
        match luaser_decode luaL_loadbuffer [] code code.length with
        | .fuel => .fuel
        | .raise msg => .raise msg
        | .ok co =>
          let stack2 := stack1.dropLast
          if stack2.length = 1 then
            .ok { thread with L := some ⟨stack2, co⟩, status := Status.RUNNING }
          else .raise "assertion failed: lua_gettop(L) == 1"
      | _ => .raise "assertion failed: lua_type(L, 1) == LUA_TSTRING"
    else if thread.status ≠ Status.YIELDED then
      .raise "assertion failed: status == LUA_THREADPOOL_TASK_YIELDED"
    else if L.stack.length ≠ 1 then .raise "assertion failed: lua_gettop(L) == 1"
    else
      match stackAt L.stack 1 with
      | some (.thread _) =>
        if L.co.length = 0 then .ok { thread with status := Status.RUNNING }
        else .raise "assertion failed: lua_gettop(co) == 0"
      | _ => .raise "assertion failed: co != NULL"

/-- The loop `for (i = 1; i <= nres; i++) luaser_encode(co, i)`, entered with
`n` iterations left. -/
def encodeloop : Nat → Nat → List LuaValue → Except EncodeError (List LuaValue)
  | 0, _, co => .ok co
  | n + 1, i, co =>
    match luaser_encode co i with
    | .error e => .error e
    | .ok co1 => encodeloop n (i + 1) co1

/-- The part of `ngx_http_resty_threadpool_task_handler` from `lua_resume` on:
the status is set from the way the run ended, the values left on the coroutine
are encoded and moved to the main stack, and the result count is recorded.
The result is the handle and `ctx->nres`. -/
def ngx_http_resty_threadpool_task_handler_run (run : CoroutineRun)
    (thread : ThreadState) : Outcome (ThreadState × Nat) :=
  match thread.L with
  | none => .raise "NULL lua_State"
  | some L =>
    match run with
    | .failed err =>
      .ok ({ thread with L := some ⟨L.stack, err :: L.co⟩, status := Status.FAILED }, 0)
    | .finished values | .yielded values =>
      let status := match run with
        | .yielded _ => Status.YIELDED
        | _ => Status.SUCCESS
      let co := values.reverse
      let nres := co.length
      match encodeloop nres 1 co with
      | .error e => .raise e.msg
      | .ok co1 =>
        let stack1 := co1.take nres ++ L.stack
        let co2 := (co1.drop nres).drop nres
        if co2.length ≠ 0 then .raise "assertion failed: lua_gettop(co) == 0"
        else if stack1.length ≠ 1 + nres then
          .raise "assertion failed: lua_gettop(L) == 1 + nres"
        else
          match stackAt stack1 1 with
          | some (.thread _) =>
            .ok ({ thread with L := some ⟨stack1, co2⟩, status := status }, nres)
          | _ => .raise "assertion failed: lua_type(L, 1) == LUA_TTHREAD"

/-- Embedding of `ngx_http_resty_threadpool_task_handler`, run in a worker
thread. -/
def ngx_http_resty_threadpool_task_handler
    (luaL_loadbuffer : List Nat → Option (List Nat)) (run : CoroutineRun)
    (thread : ThreadState) : Outcome (ThreadState × Nat) :=
  match ngx_http_resty_threadpool_task_handler_pickup luaL_loadbuffer thread with
  | .fuel => .fuel
  | .raise msg => .raise msg
  | .ok thread1 => ngx_http_resty_threadpool_task_handler_run run thread1

/-- The loop `for (i = 1; i <= ctx->nres; i++)` of the completion handler,
entered with `n` iterations left: the string at index `1 + i` of the worker
stack is decoded onto the caller's coroutine. -/
def decodeloop (luaL_loadbuffer : List Nat → Option (List Nat)) :
    Nat → Nat → List LuaValue → List LuaValue → Outcome (List LuaValue)
  | 0, _, _, co => .ok co
  | n + 1, i, stack, co =>
    match stackAt stack (1 + i) with
    | some (.string res) =>
      match luaser_decode luaL_loadbuffer co res res.length with
      | .fuel => .fuel
      | .raise msg => .raise msg
      | .ok co1 => decodeloop luaL_loadbuffer n (i + 1) stack co1
    | _ => .raise "assertion failed: lua_type(L, 1+i) == LUA_TSTRING"

/-- What the completion handler leaves: the handle, the stack of the caller's
coroutine, and with how many results the caller's coroutine is run again
(`none` when it is not run). -/
structure EventResult where
  thread : ThreadState
  co : List LuaValue
  resumed : Option Nat
  deriving DecidableEq

/-- Embedding of `ngx_http_resty_threadpool_thread_event_handler`, run in the
event loop once the worker handler has returned.  `luactx` is whether the
request still has its Lua context, `nres` is `ctx->nres`, `co` is the stack of
the caller's coroutine `coctx->co`. -/
def ngx_http_resty_threadpool_thread_event_handler
    (luaL_loadbuffer : List Nat → Option (List Nat)) (luactx : Bool)
    (thread : ThreadState) (nres : Nat) (co : List LuaValue) : Outcome EventResult :=
  match thread.L with
  | none => .raise "NULL lua_State"
  | some L =>
    if !luactx then
      .ok ⟨{ thread with L := none, status := Status.DESTROYED }, co, none⟩
    else
      match decodeloop luaL_loadbuffer nres 1 L.stack co with
      | .fuel => .fuel
      | .raise msg => .raise msg
      | .ok co1 =>
        let stack1 := L.stack.drop nres
        match stack1 with
        | [.thread _] =>
          if thread.status = Status.SUCCESS ∨ thread.status = Status.FAILED then
            .ok ⟨{ thread with L := none, status := Status.DESTROYED }, co1, some nres⟩
          else .ok ⟨{ thread with L := some ⟨stack1, L.co⟩ }, co1, some nres⟩
        | _ =>
          .raise "assertion failed: lua_gettop(L) == 1 && lua_type(L, 1) == LUA_TTHREAD"

/-- What `create` finds: the names of the configured thread pools and whether
`luaL_newstate` can allocate a state. -/
structure CreateEnv where
  pools : List String
  newstate : Bool

/-- What `create` leaves: the userdata it allocated (`none` when it raised
before `lua_newuserdata`) and whether it returned the handle or raised. -/
structure CreateResult where
  ud : Option ThreadState
  result : Outcome Unit
  deriving DecidableEq

/-- Embedding of `ngx_http_resty_threadpool_thread_create` on a pool name and
the value passed as work.  The caller's stack is the pool name, the work and
the new userdata; the worker state starts with an empty stack and receives the
encoded work. -/
def ngx_http_resty_threadpool_thread_create (env : CreateEnv) (pool : String)
    (func : LuaValue) : CreateResult :=
  if lua_type func ≠ LUA_TFUNCTION then
    ⟨none, .raise ("bad argument #2 to 'create' (function expected, got "
      ++ luaL_typename func ++ ")")⟩
  else
    let ud : ThreadState := ⟨none, none, Status.CREATED⟩
    if ¬ pool ∈ env.pools then ⟨some ud, .raise ("no pool '" ++ pool ++ "' found")⟩
    else
      let ud1 : ThreadState := { ud with tp := some pool }
      if !env.newstate then ⟨some ud1, .raise "failed to create task state"⟩
      else
        let ud2 : ThreadState := { ud1 with L := some ⟨[], []⟩ }
        match luaser_encode [.userdata 0, func, .string (pool.toList.map Char.toNat)] 2 with
        | .error e => ⟨some ud2, .raise e.msg⟩
        | .ok (.string code :: _) =>
          ⟨some { ud2 with L := some ⟨[.string code], []⟩ }, .ok ()⟩
        | .ok _ => ⟨some ud2, .raise "lua_tolstring: not a string"⟩

/-- What `resume` finds: whether there is a request, whether it has a Lua
context, whether that context has a current coroutine, whether the task can be
allocated, and whether the pool accepts it. -/
structure ResumeEnv where
  r : Bool
  luactx : Bool
  coctx : Bool
  task : Bool
  post : Bool

/-- What `resume` leaves: whether it yielded or raised, the handle, and
whether a task was posted to the pool. -/
structure ResumeResult where
  result : Outcome Unit
  ud : ThreadState
  posted : Bool
  deriving DecidableEq

/-- Embedding of `ngx_http_resty_threadpool_thread_resume` on a handle. -/
def ngx_http_resty_threadpool_thread_resume (env : ResumeEnv) (ud : ThreadState) :
    ResumeResult :=
  if ud.status ≠ Status.CREATED ∧ ud.status ≠ Status.YIELDED then
    ⟨.raise "thread not in good state", ud, false⟩
  else if !env.r then ⟨.raise "no request found", ud, false⟩
  else if !env.luactx then ⟨.raise "no request ctx found", ud, false⟩
  else if !env.coctx then ⟨.raise "no co ctx found", ud, false⟩
  else if !env.task then ⟨.raise "failed to allocate task", ud, false⟩
  else if !env.post then ⟨.raise "failed to post task to queue", ud, false⟩
  else ⟨.ok (), ud, true⟩

/-- Embedding of `ngx_http_resty_threadpool_thread_close` on a handle: the
handle it leaves and whether `lua_close` was called. -/
def ngx_http_resty_threadpool_thread_close (ud : ThreadState) : ThreadState × Bool :=
  ({ ud with L := none, status := Status.DESTROYED }, ud.L.isSome)

/-! ## The life of one task

The handle of one task, together with the postings of it that the pool has
accepted and whose completion event has not been processed yet.  The worker
thread and the event loop interleave at the calls embedded above; the worker
handler is cut at `lua_resume`, where the work runs. -/

/-- How far a posting is: waiting in the queue of the pool, picked up by a
worker that is running the work, or finished with its completion event
pending. -/
inductive Stage : Type
  | queued : Stage
  | running : Stage
  | completed : Stage
  deriving DecidableEq

/-- A posting (`ngx_thread_lua_task_ctx_t`): its stage, `ctx->nres`, and the
stack of the coroutine that called `resume`. -/
structure Posting where
  stage : Stage
  nres : Nat
  co : List LuaValue
  deriving DecidableEq

/-- The handle of the task and its outstanding postings. -/
structure System where
  ud : ThreadState
  postings : List Posting
  deriving DecidableEq

/-- One call of `resume`, of a half of the worker handler, of the completion
handler or of `close`, when the call returns. -/
inductive Step (luaL_loadbuffer : List Nat → Option (List Nat)) : System → System → Prop
  | resume (s : System) (env : ResumeEnv) (co : List LuaValue) :
      Step luaL_loadbuffer s
        ⟨(ngx_http_resty_threadpool_thread_resume env s.ud).ud,
          if (ngx_http_resty_threadpool_thread_resume env s.ud).posted then
            s.postings ++ [⟨Stage.queued, 0, co⟩]
          else s.postings⟩
  | pickup (s : System) (pre post : List Posting) (p : Posting) (ud1 : ThreadState) :
      s.postings = pre ++ p :: post → p.stage = Stage.queued →
      ngx_http_resty_threadpool_task_handler_pickup luaL_loadbuffer s.ud = .ok ud1 →
      Step luaL_loadbuffer s ⟨ud1, pre ++ { p with stage := Stage.running } :: post⟩
  | run (s : System) (pre post : List Posting) (p : Posting) (r : CoroutineRun)
      (ud1 : ThreadState) (nres : Nat) :
      s.postings = pre ++ p :: post → p.stage = Stage.running →
      ngx_http_resty_threadpool_task_handler_run r s.ud = .ok (ud1, nres) →
      Step luaL_loadbuffer s
        ⟨ud1, pre ++ { p with stage := Stage.completed, nres := nres } :: post⟩
  | event (s : System) (pre post : List Posting) (p : Posting) (luactx : Bool)
      (res : EventResult) :
      s.postings = pre ++ p :: post → p.stage = Stage.completed →
      ngx_http_resty_threadpool_thread_event_handler luaL_loadbuffer luactx s.ud p.nres p.co
        = .ok res →
      Step luaL_loadbuffer s ⟨res.thread, pre ++ post⟩
  | close (s : System) :
      Step luaL_loadbuffer s ⟨(ngx_http_resty_threadpool_thread_close s.ud).1, s.postings⟩

/-- The states a task goes through: `create` returns its handle, with no
posting, and the calls above follow.  A handle that `create` allocated before
raising is seen by the collector only, which calls `close` on it. -/
inductive Reachable (luaL_loadbuffer : List Nat → Option (List Nat)) : System → Prop
  | create (env : CreateEnv) (pool : String) (func : LuaValue) (ud : ThreadState) :
      ngx_http_resty_threadpool_thread_create env pool func = ⟨some ud, .ok ()⟩ →
      Reachable luaL_loadbuffer ⟨ud, []⟩
  | collected (env : CreateEnv) (pool : String) (func : LuaValue) (ud : ThreadState)
      (msg : String) :
      ngx_http_resty_threadpool_thread_create env pool func = ⟨some ud, .raise msg⟩ →
      Reachable luaL_loadbuffer ⟨(ngx_http_resty_threadpool_thread_close ud).1, []⟩
  | step (s t : System) :
      Reachable luaL_loadbuffer s → Step luaL_loadbuffer s t → Reachable luaL_loadbuffer t

/-! ## Values the codec is specified on -/

/-- The keys of the entries, first enumerated first. -/
def Entries.keys : Entries → List LuaValue
  | .none => []
  | .more k _ rest => k :: Entries.keys rest

/-- Whether a key that is raw-equal to `key` is among the keys of the
entries. -/
def Entries.hasKey : Entries → LuaValue → Bool
  | .none, _ => false
  | .more k _ rest, key => lua_rawequal key k || Entries.hasKey rest key

/-- Concatenation of two lists of entries. -/
def Entries.append : Entries → Entries → Entries
  | .none, es => es
  | .more k v rest, es => .more k v (Entries.append rest es)

mutual
/-- The invariants of a Lua value: a number is a 64-bit pattern, string and
dump bytes are below 256, and in a table no key is nil or NaN, no value is nil
and no two keys are raw-equal. -/
def wellformed : LuaValue → Bool
  | .number bits => decide (bits < 2 ^ 64)
  | .string s => s.all (fun b => decide (b < 256))
  | .lfunction _ dump => dump.all (fun b => decide (b < 256))
  | .table _ entries => wellformedEntries entries
  | _ => true
/-- The invariants of the entries of a Lua table. -/
def wellformedEntries : Entries → Bool
  | .none => true
  | .more key value rest =>
    wellformed key && wellformed value
      && key != LuaValue.nil && value != LuaValue.nil
      && (match key with
          | .number bits => !isNaN bits
          | _ => true)
      && !Entries.hasKey rest key
      && wellformedEntries rest
end

mutual
/-- The supported values: nil, booleans, numbers, strings of at most
`2^32 - 1` bytes, Lua closures without upvalues, and tables without metatable
whose keys and values are supported. -/
def supported : LuaValue → Bool
  | .nil => true
  | .boolean _ => true
  | .number _ => true
  | .string s => decide (s.length ≤ UINT32_MAX)
  | .lfunction nups _ => decide (nups = 0)
  | .table metatable entries => !metatable && supportedEntries entries
  | _ => false
/-- All keys and values of the entries are supported. -/
def supportedEntries : Entries → Bool
  | .none => true
  | .more key value rest => supported key && supported value && supportedEntries rest
end

mutual
/-- Every closure in the value, at any depth, has a dump of at most
`2^32 - 1` bytes. -/
def dumpsFit : LuaValue → Bool
  | .lfunction _ dump => decide (dump.length ≤ UINT32_MAX)
  | .table _ entries => dumpsFitEntries entries
  | _ => true
/-- Every closure in the entries has a dump of at most `2^32 - 1` bytes. -/
def dumpsFitEntries : Entries → Bool
  | .none => true
  | .more key value rest => dumpsFit key && dumpsFit value && dumpsFitEntries rest
end

mutual
/-- The loader inverts `lua_dump` on every closure in the value: loading the
dump of the closure gives a closure with that same dump. -/
def loadsBack (luaL_loadbuffer : List Nat → Option (List Nat)) : LuaValue → Prop
  | .lfunction _ dump => luaL_loadbuffer dump = some dump
  | .table _ entries => loadsBackEntries luaL_loadbuffer entries
  | _ => True
/-- The loader inverts `lua_dump` on every closure in the entries. -/
def loadsBackEntries (luaL_loadbuffer : List Nat → Option (List Nat)) : Entries → Prop
  | .none => True
  | .more key value rest =>
    loadsBack luaL_loadbuffer key ∧ loadsBack luaL_loadbuffer value
      ∧ loadsBackEntries luaL_loadbuffer rest
end

mutual
/-- The tagged layout of a value: what the encoder appends for it when it
succeeds. -/
def encoded : LuaValue → List Nat
  | .nil => [LUA_TNIL]
  | .boolean b => [LUA_TBOOLEAN, if b then 1 else 0]
  | .number n => LUA_TNUMBER :: leBytes sizeof_lua_Number n
  | .string s => LUA_TSTRING :: (leBytes sizeof_uint32_t (s.length % 2 ^ 32) ++ s)
  | .table _ entries => LUA_TTABLE :: (encodedEntries entries ++ [LUA_TNIL])
  | .lfunction _ dump =>
    LUA_TFUNCTION :: (leBytes sizeof_uint32_t (dump.length % 2 ^ 32) ++ dump)
  | _ => []
/-- The layout of the entries of a table: each key followed by its value. -/
def encodedEntries : Entries → List Nat
  | .none => []
  | .more key value rest => encoded key ++ (encoded value ++ encodedEntries rest)
end

/-! ## Inputs of the theorems -/

/-- A Lua closure without upvalues whose dump is `2^32` bytes long. -/
def hugeClosure : LuaValue := .lfunction 0 (List.replicate (2 ^ 32) 0)

/-- The bytes the encoder writes for `hugeClosure`: the length field is 0. -/
def hugeClosureBytes : List Nat :=
  LUA_TFUNCTION :: 0 :: 0 :: 0 :: 0 :: List.replicate (2 ^ 32) 0

/-- A loader that takes every chunk for the dump of the closure it loads. -/
def loadAny : List Nat → Option (List Nat) := fun chunk => some chunk

mutual
/-- The values the encoder is to reject: a table with a metatable, a closure
with an upvalue, a C function, a string longer than `2^32 - 1` bytes, a light
userdata, a userdata, a thread, or a table that has such a value among its
keys and values at any depth. -/
def rejected : LuaValue → Bool
  | .nil => false
  | .boolean _ => false
  | .number _ => false
  | .string s => decide (s.length > UINT32_MAX)
  | .lfunction nups _ => decide (nups ≥ 1)
  | .cfunction _ => true
  | .table metatable entries => metatable || rejectedEntries entries
  | .lightuserdata _ => true
  | .userdata _ => true
  | .thread _ => true
/-- Some key or value of the entries is to be rejected. -/
def rejectedEntries : Entries → Bool
  | .none => false
  | .more key value rest => rejected key || rejected value || rejectedEntries rest
end

/-- The strings the worker handler leaves for the values of a run, last value
on top. -/
def encodedResults (values : List LuaValue) : List LuaValue :=
  (values.map (fun v => LuaValue.string (encoded v))).reverse

/-- A value the codec carries across: well formed, supported, with closures
that fit the length field and that the loader loads back. -/
def portable (luaL_loadbuffer : List Nat → Option (List Nat)) (v : LuaValue) : Prop :=
  wellformed v = true ∧ supported v = true ∧ dumpsFit v = true
    ∧ loadsBack luaL_loadbuffer v

/-- A task as `create` leaves it: status `CREATED`, and on the worker stack
the code string alone, which decodes to one value. -/
def freshTask (luaL_loadbuffer : List Nat → Option (List Nat)) (thread : ThreadState) : Prop :=
  thread.status = Status.CREATED
    ∧ ∃ code work, thread.L = some ⟨[.string code], []⟩
        ∧ luaser_decode luaL_loadbuffer [] code code.length = .ok [work]

/-- A task as a suspended run leaves it once its completion event is
processed: status `YIELDED`, the coroutine alone on the worker stack, and the
stack of the coroutine empty. -/
def suspendedTask (thread : ThreadState) : Prop :=
  thread.status = Status.YIELDED ∧ ∃ t, thread.L = some ⟨[.thread t], []⟩

/-- A task the worker handler can pick up. -/
def readyTask (luaL_loadbuffer : List Nat → Option (List Nat)) (thread : ThreadState) : Prop :=
  freshTask luaL_loadbuffer thread ∨ suspendedTask thread

/-- The status the worker handler is to leave after a run. -/
def statusAfter : CoroutineRun → Status
  | .finished _ => Status.SUCCESS
  | .yielded _ => Status.YIELDED
  | .failed _ => Status.FAILED

/-- The values a run leaves on the stack of the coroutine for the handler to
serialize. -/
def valuesOf : CoroutineRun → List LuaValue
  | .finished values => values
  | .yielded values => values
  | .failed _ => []

/-- The handle after the given `resume` attempts, in order. -/
def afterResumes (envs : List ResumeEnv) (ud : ThreadState) : ThreadState :=
  envs.foldl (fun u env => (ngx_http_resty_threadpool_thread_resume env u).ud) ud

/-- A Lua closure without upvalues, given by a four-byte dump. -/
def workClosure : LuaValue := .lfunction 0 [27, 76, 117, 97]

/-- The handle `create` returns for `workClosure` on the pool "default". -/
def freshHandle : ThreadState :=
  ⟨some "default", some ⟨[.string (encoded workClosure)], []⟩, Status.CREATED⟩

/-- The handle `freshHandle` once a worker has picked it up. -/
def pickedHandle : ThreadState :=
  ⟨some "default", some ⟨[.thread 0], [workClosure]⟩, Status.RUNNING⟩

/-- The bytes of the error value "boom". -/
def boom : List Nat := [98, 111, 111, 109]

/-- The handle a worker leaves when the work of `freshHandle` returns
`hugeClosure`. -/
def hugeResultHandle : ThreadState :=
  ⟨some "default", some ⟨[.string hugeClosureBytes, .thread 0], []⟩, Status.SUCCESS⟩

/-- The handle `freshHandle` once its work has suspended without passing a
value. -/
def suspendedHandle : ThreadState :=
  ⟨some "default", some ⟨[.thread 0], []⟩, Status.YIELDED⟩

/-- The handle `suspendedHandle` once a worker has picked it up again. -/
def resumedHandle : ThreadState :=
  ⟨some "default", some ⟨[.thread 0], []⟩, Status.RUNNING⟩

/-- A posting that waits in the queue of the pool, made by a caller whose
coroutine stack is empty. -/
def queuedPosting : Posting := ⟨Stage.queued, 0, []⟩

/-- Every call of `resume` finds a request, its context and its coroutine,
and the pool accepts the task. -/
def resumeAllowed : ResumeEnv := ⟨true, true, true, true, true⟩

mutual
/-- The reference layout of a value, from the description of the format: nil
is the nil tag alone; a boolean is its tag and one byte, 0 or 1; a number is
its tag and the bytes of its native representation; a string is its tag, its
length in four bytes in native order and its bytes; a table is its tag, each
key followed by its value, and a nil tag; a closure is its tag, the length of
its dump in four bytes and its dump.  A value has no layout when one of these
lengths does not fit in four bytes, or when the format has no tag for it. -/
def layout : LuaValue → Option (List Nat)
  | .nil => some [LUA_TNIL]
  | .boolean true => some [LUA_TBOOLEAN, 1]
  | .boolean false => some [LUA_TBOOLEAN, 0]
  | .number bits => some ([LUA_TNUMBER] ++ leBytes sizeof_lua_Number bits)
  | .string s =>
    if s.length < 2 ^ 32 then
      some ([LUA_TSTRING] ++ leBytes sizeof_uint32_t s.length ++ s)
    else none
  | .table _ entries =>
    match layoutEntries entries with
    | some bytes => some ([LUA_TTABLE] ++ bytes ++ [LUA_TNIL])
    | none => none
  | .lfunction _ dump =>
    if dump.length < 2 ^ 32 then
      some ([LUA_TFUNCTION] ++ leBytes sizeof_uint32_t dump.length ++ dump)
    else none
  | _ => none
/-- The reference layout of the entries of a table. -/
def layoutEntries : Entries → Option (List Nat)
  | .none => some []
  | .more key value rest =>
    match layout key, layout value, layoutEntries rest with
    | some k, some v, some r => some (k ++ v ++ r)
    | _, _, _ => none
end

/-- The number of bytes that the field after the tag at offset `buf` takes
before any nested value: the byte of a boolean, the bytes of a number, the
length and the bytes of a string or of a closure, and for a table the byte
looked at for the terminator. -/
def fieldBytes (mem : List Nat) (buf : Nat) : Nat :=
  if readByte mem buf = LUA_TBOOLEAN then 1
  else if readByte mem buf = LUA_TNUMBER then sizeof_lua_Number
  else if readByte mem buf = LUA_TSTRING ∨ readByte mem buf = LUA_TFUNCTION then
    sizeof_uint32_t + leVal (readBytes mem (buf + 1) sizeof_uint32_t)
  else if readByte mem buf = LUA_TTABLE then 1
  else 0

/-- The handle `freshHandle` once its work has returned without a value. -/
def finishedHandle : ThreadState :=
  ⟨some "default", some ⟨[.thread 0], []⟩, Status.SUCCESS⟩

/-- The handle `finishedHandle` once `close` has been called on it. -/
def closedHandle : ThreadState := ⟨some "default", none, Status.DESTROYED⟩

/-- Whether a byte is one of the six tags of the format: nil, boolean, number,
string, table, function. -/
def isCodecTag (tag : Nat) : Bool :=
  tag == LUA_TNIL || tag == LUA_TBOOLEAN || tag == LUA_TNUMBER || tag == LUA_TSTRING
    || tag == LUA_TTABLE || tag == LUA_TFUNCTION

/-- A value position that holds a tag outside the format, at the top level or
inside tables at any depth.  With the flag `false`: the value that starts at
offset `buf` has such a tag itself, or it is a table with such a position among
its keys and values.  With the flag `true`: the loop of a table, at offset
`buf` with the table on top of the stack, comes to such a position: in the key
at `buf`, in the value after that key, or in a later entry, the entries before
it being decoded and stored. -/
inductive MeetsUnknownTag (luaL_loadbuffer : List Nat → Option (List Nat))
    (mem : List Nat) (endp : Nat) : Bool → Nat → List LuaValue → Prop
  | here (buf : Nat) (L : List LuaValue) :
      buf + 1 ≤ endp → isCodecTag (readByte mem buf) = false →
      MeetsUnknownTag luaL_loadbuffer mem endp false buf L
  | table (buf : Nat) (L : List LuaValue) :
      buf + 1 + 1 ≤ endp → readByte mem buf = LUA_TTABLE →
      MeetsUnknownTag luaL_loadbuffer mem endp true (buf + 1) (.table false .none :: L) →
      MeetsUnknownTag luaL_loadbuffer mem endp false buf L
  | key (buf : Nat) (L : List LuaValue) :
      readByte mem buf ≠ LUA_TNIL →
      MeetsUnknownTag luaL_loadbuffer mem endp false buf L →
      MeetsUnknownTag luaL_loadbuffer mem endp true buf L
  | value (buf : Nat) (L : List LuaValue) (fuel bufk : Nat) (Lk : List LuaValue) :
      readByte mem buf ≠ LUA_TNIL →
      decodevalue luaL_loadbuffer mem fuel buf endp L = .ok (bufk, Lk) →
      MeetsUnknownTag luaL_loadbuffer mem endp false bufk Lk →
      MeetsUnknownTag luaL_loadbuffer mem endp true buf L
  | later (buf : Nat) (L : List LuaValue) (fuel bufk : Nat) (Lk : List LuaValue)
      (bufv : Nat) (Lv Ls : List LuaValue) :
      readByte mem buf ≠ LUA_TNIL →
      decodevalue luaL_loadbuffer mem fuel buf endp L = .ok (bufk, Lk) →
      decodevalue luaL_loadbuffer mem fuel bufk endp Lk = .ok (bufv, Lv) →
      bufv + 1 ≤ endp → lua_settable Lv = .ok Ls →
      MeetsUnknownTag luaL_loadbuffer mem endp true bufv Ls →
      MeetsUnknownTag luaL_loadbuffer mem endp true buf L

/-- The bytes of a table whose key "k" holds a table whose key `true` is
followed, where its value is to start, by the byte 9. -/
def unknownTagBuffer : List Nat := [5, 4, 1, 0, 0, 0, 107, 5, 1, 1, 9]

/-! ## Lemmas on the native representation and on memory reads -/

theorem length_leBytes (k n : Nat) : (leBytes k n).length = k := by
  induction k generalizing n with
  | zero => rfl
  | succ k ih => simp [leBytes, ih]

theorem leVal_leBytes (k n : Nat) (h : n < 256 ^ k) : leVal (leBytes k n) = n := by
  induction k generalizing n with
  | zero => simp at h; simp [leBytes, leVal, h]
  | succ k ih =>
    have h1 : n / 256 < 256 ^ k := by
      rw [Nat.div_lt_iff_lt_mul (by norm_num)]
      rw [pow_succ] at h
      exact h
    simp only [leBytes, leVal, ih _ h1]
    omega

theorem readByte_of_drop (mem : List Nat) (buf b : Nat) (rest : List Nat)
    (h : mem.drop buf = b :: rest) : readByte mem buf = b := by
  have h2 := List.getElem?_drop mem buf 0
  rw [h] at h2
  simp only [List.getElem?_cons_zero, Nat.add_zero] at h2
  simp [readByte, ← h2]

theorem readBytes_of_drop (mem : List Nat) (buf : Nat) (bs rest : List Nat)
    (h : mem.drop buf = bs ++ rest) : readBytes mem buf bs.length = bs := by
  simp [readBytes, h]

theorem drop_add_of_drop (mem : List Nat) (buf : Nat) (bs rest : List Nat)
    (h : mem.drop buf = bs ++ rest) : mem.drop (buf + bs.length) = rest := by
  rw [← List.drop_drop, h]
  simp

/-! ## The encoder on supported values -/

mutual
theorem encodevalue_supported (v : LuaValue) (buf : List Nat) (h : supported v = true) :
    encodevalue v buf = .ok (buf ++ encoded v) := by
  cases v with
  | nil => simp [encodevalue, encoded]
  | boolean b => simp [encodevalue, encoded]
  | number n => simp [encodevalue, encoded]
  | string s =>
    simp only [supported, decide_eq_true_eq] at h
    simp [encodevalue, encoded, Nat.not_lt.mpr h]
  | table metatable entries =>
    simp only [supported, Bool.and_eq_true, Bool.not_eq_true'] at h
    simp [encodevalue, encoded, h.1, encodeentries_supported entries _ h.2]
  | lfunction nups dump =>
    simp only [supported, decide_eq_true_eq] at h
    simp [encodevalue, encoded, h]
  | lightuserdata p => simp [supported] at h
  | cfunction p => simp [supported] at h
  | userdata p => simp [supported] at h
  | thread p => simp [supported] at h
theorem encodeentries_supported (es : Entries) (buf : List Nat)
    (h : supportedEntries es = true) :
    encodeentries es buf = .ok (buf ++ encodedEntries es) := by
  cases es with
  | none => simp [encodeentries, encodedEntries]
  | more key value rest =>
    simp only [supportedEntries, Bool.and_eq_true] at h
    simp [encodeentries, encodedEntries, encodevalue_supported key _ h.1.1,
      encodevalue_supported value _ h.1.2, encodeentries_supported rest _ h.2]
end

/-! ## Tables rebuilt by the decoder -/

theorem hasKey_eq_false : ∀ (es : Entries) (key : LuaValue),
    Entries.hasKey es key = false → ∀ k ∈ Entries.keys es, lua_rawequal key k = false
  | .none, _, _ => by simp [Entries.keys]
  | .more k v rest, key, h => by
    simp only [Entries.hasKey, Bool.or_eq_false_iff] at h
    intro k1 hk1
    simp only [Entries.keys, List.mem_cons] at hk1
    rcases hk1 with rfl | hk1
    · exact h.1
    · exact hasKey_eq_false rest key h.2 k1 hk1

theorem keys_append : ∀ (a b : Entries),
    Entries.keys (Entries.append a b) = Entries.keys a ++ Entries.keys b
  | .none, b => by simp [Entries.append, Entries.keys]
  | .more k v rest, b => by simp [Entries.append, Entries.keys, keys_append rest b]

theorem append_assoc_one : ∀ (a : Entries) (k v : LuaValue) (rest : Entries),
    Entries.append (Entries.append a (.more k v .none)) rest
      = Entries.append a (.more k v rest)
  | .none, k, v, rest => by simp [Entries.append]
  | .more k1 v1 r, k, v, rest => by simp [Entries.append, append_assoc_one r k v rest]

theorem append_none : ∀ (a : Entries), Entries.append a .none = a
  | .none => rfl
  | .more k v rest => by simp [Entries.append, append_none rest]

theorem store_fresh : ∀ (acc : Entries) (k v : LuaValue),
    (∀ a ∈ Entries.keys acc, lua_rawequal a k = false) →
    Entries.store acc k v = Entries.append acc (.more k v .none)
  | .none, k, v, _ => by simp [Entries.store, Entries.append]
  | .more k1 v1 rest, k, v, h => by
    have h1 : lua_rawequal k1 k = false := h k1 (by simp [Entries.keys])
    have h2 : ∀ a ∈ Entries.keys rest, lua_rawequal a k = false :=
      fun a ha => h a (by simp [Entries.keys, ha])
    simp [Entries.store, Entries.append, h1, store_fresh rest k v h2]

theorem lua_rawset_of_ne_nil (es : Entries) (k v : LuaValue) (h : v ≠ .nil) :
    lua_rawset es k v = Entries.store es k v := by
  cases v <;> simp_all [lua_rawset]

theorem lua_settable_ok (v k : LuaValue) (metatable : Bool) (es : Entries)
    (L : List LuaValue) (hk : k ≠ .nil) (hn : ∀ bits, k = .number bits → isNaN bits = false) :
    lua_settable (v :: k :: .table metatable es :: L)
      = .ok (.table metatable (lua_rawset es k v) :: L) := by
  cases k <;> simp_all [lua_settable]

theorem lua_type_eq_nil (v : LuaValue) : lua_type v = LUA_TNIL ↔ v = .nil := by
  cases v <;> simp [lua_type, LUA_TNIL, LUA_TBOOLEAN, LUA_TLIGHTUSERDATA, LUA_TNUMBER,
    LUA_TSTRING, LUA_TTABLE, LUA_TFUNCTION, LUA_TUSERDATA, LUA_TTHREAD]

theorem encoded_head (v : LuaValue) (h : supported v = true) :
    ∃ t, encoded v = lua_type v :: t := by
  cases v <;> simp_all [supported, encoded, lua_type]

theorem encoded_length_pos (v : LuaValue) (h : supported v = true) :
    1 ≤ (encoded v).length := by
  obtain ⟨t, ht⟩ := encoded_head v h
  simp [ht]

theorem drop_succ_of_drop (mem : List Nat) (buf b : Nat) (rest : List Nat)
    (h : mem.drop buf = b :: rest) : mem.drop (buf + 1) = rest :=
  drop_add_of_drop mem buf [b] rest h

/-! ## Decoding what the encoder wrote -/

theorem checkbuffer_eq_false (cur endp n : Nat) (h : cur + n ≤ endp) :
    checkbuffer cur endp n = false := by
  simp [checkbuffer, h]

mutual
theorem decodevalue_encoded (load : List Nat → Option (List Nat)) (mem : List Nat)
    (v : LuaValue) (fuel buf endp : Nat) (L : List LuaValue) (post : List Nat)
    (hw : wellformed v = true) (hs : supported v = true) (hd : dumpsFit v = true)
    (hl : loadsBack load v)
    (hm : mem.drop buf = encoded v ++ post) (he : buf + (encoded v).length ≤ endp)
    (hf : 2 * (encoded v).length + 1 ≤ fuel) :
    decodevalue load mem fuel buf endp L = .ok (buf + (encoded v).length, v :: L) := by
  obtain ⟨f, rfl⟩ : ∃ f, fuel = f + 1 := ⟨fuel - 1, by omega⟩
  cases v with
  | nil =>
    simp only [encoded, List.length_singleton, List.singleton_append] at hm he ⊢
    simp [decodevalue, checkbuffer_eq_false _ _ _ he, readByte_of_drop _ _ _ _ hm]
  | boolean b =>
    simp only [encoded, List.length_cons, List.length_nil, List.cons_append,
      List.nil_append] at hm he ⊢
    have h1 := drop_succ_of_drop _ _ _ _ hm
    have c1 : checkbuffer buf endp 1 = false := checkbuffer_eq_false _ _ _ (by omega)
    have c2 : checkbuffer (buf + 1) endp 1 = false := checkbuffer_eq_false _ _ _ (by omega)
    cases b <;>
      simp [decodevalue, c1, c2, readByte_of_drop _ _ _ _ hm, readByte_of_drop _ _ _ _ h1,
        LUA_TNIL, LUA_TBOOLEAN]
  | number n =>
    simp only [encoded, List.length_cons, length_leBytes, List.cons_append] at hm he ⊢
    simp only [wellformed, decide_eq_true_eq] at hw
    have h1 := drop_succ_of_drop _ _ _ _ hm
    have c1 : checkbuffer buf endp 1 = false := checkbuffer_eq_false _ _ _ (by omega)
    have c2 : checkbuffer (buf + 1) endp sizeof_lua_Number = false :=
      checkbuffer_eq_false _ _ _ (by omega)
    have r := readBytes_of_drop _ _ _ _ h1
    rw [length_leBytes] at r
    have hv : leVal (leBytes sizeof_lua_Number n) = n :=
      leVal_leBytes _ _ (by simpa [sizeof_lua_Number] using hw)
    simp [decodevalue, c1, c2, readByte_of_drop _ _ _ _ hm, r, hv,
      LUA_TNIL, LUA_TBOOLEAN, LUA_TNUMBER]
    omega
  | string s =>
    simp only [encoded, List.length_cons, List.length_append, length_leBytes,
      List.cons_append, List.append_assoc] at hm he ⊢
    simp only [supported, decide_eq_true_eq, UINT32_MAX] at hs
    have hlen : s.length % 2 ^ 32 = s.length := Nat.mod_eq_of_lt (by omega)
    rw [hlen] at hm
    have h1 := drop_succ_of_drop _ _ _ _ hm
    have h2 := drop_add_of_drop _ _ _ _ h1
    rw [length_leBytes] at h2
    have c1 : checkbuffer buf endp 1 = false := checkbuffer_eq_false _ _ _ (by omega)
    have c2 : checkbuffer (buf + 1) endp sizeof_uint32_t = false :=
      checkbuffer_eq_false _ _ _ (by omega)
    have c3 : checkbuffer (buf + 1 + sizeof_uint32_t) endp s.length = false :=
      checkbuffer_eq_false _ _ _ (by omega)
    have r := readBytes_of_drop _ _ _ _ h1
    rw [length_leBytes] at r
    have r2 := readBytes_of_drop _ _ _ _ h2
    have hv : leVal (leBytes sizeof_uint32_t s.length) = s.length :=
      leVal_leBytes _ _ (by simp only [sizeof_uint32_t]; omega)
    simp [decodevalue, c1, c2, c3, readByte_of_drop _ _ _ _ hm, r, r2, hv, hlen,
      LUA_TNIL, LUA_TBOOLEAN, LUA_TNUMBER, LUA_TSTRING]
    omega
  | lfunction nups dump =>
    simp only [encoded, List.length_cons, List.length_append, length_leBytes,
      List.cons_append, List.append_assoc] at hm he ⊢
    simp only [supported, decide_eq_true_eq] at hs
    simp only [dumpsFit, decide_eq_true_eq, UINT32_MAX] at hd
    simp only [loadsBack] at hl
    subst hs
    have hlen : dump.length % 2 ^ 32 = dump.length := Nat.mod_eq_of_lt (by omega)
    rw [hlen] at hm
    have h1 := drop_succ_of_drop _ _ _ _ hm
    have h2 := drop_add_of_drop _ _ _ _ h1
    rw [length_leBytes] at h2
    have c1 : checkbuffer buf endp 1 = false := checkbuffer_eq_false _ _ _ (by omega)
    have c2 : checkbuffer (buf + 1) endp sizeof_uint32_t = false :=
      checkbuffer_eq_false _ _ _ (by omega)
    have c3 : checkbuffer (buf + 1 + sizeof_uint32_t) endp dump.length = false :=
      checkbuffer_eq_false _ _ _ (by omega)
    have r := readBytes_of_drop _ _ _ _ h1
    rw [length_leBytes] at r
    have r2 := readBytes_of_drop _ _ _ _ h2
    have hv : leVal (leBytes sizeof_uint32_t dump.length) = dump.length :=
      leVal_leBytes _ _ (by simp only [sizeof_uint32_t]; omega)
    simp [decodevalue, c1, c2, c3, readByte_of_drop _ _ _ _ hm, r, r2, hv, hlen, hl,
      LUA_TNIL, LUA_TBOOLEAN, LUA_TNUMBER, LUA_TSTRING, LUA_TTABLE, LUA_TFUNCTION]
    omega
  | table metatable entries =>
    simp only [encoded, List.length_cons, List.length_append, List.length_singleton,
      List.cons_append, List.append_assoc, List.singleton_append] at hm he hf ⊢
    simp only [supported, Bool.and_eq_true, Bool.not_eq_true'] at hs
    simp only [wellformed] at hw
    simp only [dumpsFit] at hd
    simp only [loadsBack] at hl
    obtain ⟨hmt, hs⟩ := hs
    subst hmt
    have h1 := drop_succ_of_drop _ _ _ _ hm
    have c1 : checkbuffer buf endp 1 = false := checkbuffer_eq_false _ _ _ (by omega)
    have c2 : checkbuffer (buf + 1) endp 1 = false := checkbuffer_eq_false _ _ _ (by omega)
    have ih := decodeentries_encoded load mem entries f (buf + 1) endp L post .none
      hw hs hd hl (by simp [Entries.keys]) h1 (by omega) (by omega)
    simp only [Entries.append] at ih
    simp [decodevalue, c1, c2, readByte_of_drop _ _ _ _ hm, ih,
      LUA_TNIL, LUA_TBOOLEAN, LUA_TNUMBER, LUA_TSTRING, LUA_TTABLE]
    omega
  | lightuserdata p => simp [supported] at hs
  | cfunction p => simp [supported] at hs
  | userdata p => simp [supported] at hs
  | thread p => simp [supported] at hs
theorem decodeentries_encoded (load : List Nat → Option (List Nat)) (mem : List Nat)
    (es : Entries) (fuel buf endp : Nat) (L : List LuaValue) (post : List Nat)
    (acc : Entries)
    (hw : wellformedEntries es = true) (hs : supportedEntries es = true)
    (hd : dumpsFitEntries es = true) (hl : loadsBackEntries load es)
    (hacc : ∀ a ∈ Entries.keys acc, ∀ k ∈ Entries.keys es, lua_rawequal a k = false)
    (hm : mem.drop buf = encodedEntries es ++ (LUA_TNIL :: post))
    (he : buf + (encodedEntries es).length + 1 ≤ endp)
    (hf : 2 * ((encodedEntries es).length + 1) ≤ fuel) :
    decodeentries load mem fuel buf endp (.table false acc :: L)
      = .ok (buf + (encodedEntries es).length + 1,
          .table false (Entries.append acc es) :: L) := by
  obtain ⟨f, rfl⟩ : ∃ f, fuel = f + 1 := ⟨fuel - 1, by omega⟩
  cases es with
  | none =>
    simp only [encodedEntries, List.nil_append, List.length_nil] at hm he ⊢
    simp [decodeentries, readByte_of_drop _ _ _ _ hm, append_none]
  | more key value rest =>
    simp only [encodedEntries, List.length_append, List.append_assoc] at hm he hf ⊢
    simp only [supportedEntries, Bool.and_eq_true] at hs
    simp only [wellformedEntries, Bool.and_eq_true, bne_iff_ne, ne_eq,
      Bool.not_eq_true'] at hw
    simp only [dumpsFitEntries, Bool.and_eq_true] at hd
    simp only [loadsBackEntries] at hl
    obtain ⟨⟨⟨⟨⟨⟨hwk, hwv⟩, hkn⟩, hvn⟩, hnan⟩, hfresh⟩, hwr⟩ := hw
    obtain ⟨⟨hsk, hsv⟩, hsr⟩ := hs
    obtain ⟨⟨hdk, hdv⟩, hdr⟩ := hd
    obtain ⟨hlk, hlv, hlr⟩ := hl
    have pk := encoded_length_pos key hsk
    have pv := encoded_length_pos value hsv
    obtain ⟨t, ht⟩ := encoded_head key hsk
    have hb : readByte mem buf = lua_type key := by
      rw [ht] at hm
      exact readByte_of_drop _ _ _ _ hm
    have hne : lua_type key ≠ LUA_TNIL := fun h => hkn ((lua_type_eq_nil key).mp h)
    have dk := decodevalue_encoded load mem key f buf endp (.table false acc :: L) _
      hwk hsk hdk hlk hm (by omega) (by omega)
    have hm2 := drop_add_of_drop _ _ _ _ hm
    have dv := decodevalue_encoded load mem value f (buf + (encoded key).length) endp
      (key :: .table false acc :: L) _ hwv hsv hdv hlv hm2 (by omega) (by omega)
    have hm3 := drop_add_of_drop _ _ _ _ hm2
    have c1 : checkbuffer (buf + (encoded key).length) endp 1 = false :=
      checkbuffer_eq_false _ _ _ (by omega)
    have c2 : checkbuffer (buf + (encoded key).length + (encoded value).length) endp 1
        = false := checkbuffer_eq_false _ _ _ (by omega)
    have hnan2 : ∀ bits, key = .number bits → isNaN bits = false := by
      intro bits hk
      subst hk
      simpa using hnan
    have hset := lua_settable_ok value key false acc L hkn hnan2
    have hfr : ∀ a ∈ Entries.keys acc, lua_rawequal a key = false :=
      fun a ha => hacc a ha key (by simp [Entries.keys])
    rw [lua_rawset_of_ne_nil _ _ _ hvn, store_fresh _ _ _ hfr] at hset
    have hacc2 : ∀ a ∈ Entries.keys (Entries.append acc (.more key value .none)),
        ∀ k ∈ Entries.keys rest, lua_rawequal a k = false := by
      intro a ha k hk
      rw [keys_append] at ha
      simp only [Entries.keys, List.mem_append, List.mem_singleton] at ha
      rcases ha with ha | rfl
      · exact hacc a ha k (by simp [Entries.keys, hk])
      · exact hasKey_eq_false rest a hfresh k hk
    have ih := decodeentries_encoded load mem rest f
      (buf + (encoded key).length + (encoded value).length) endp L post
      (Entries.append acc (.more key value .none)) hwr hsr hdr hlr hacc2 hm3
      (by omega) (by omega)
    rw [append_assoc_one] at ih
    simp [decodeentries, hb, hne, dk, c1, dv, c2, hset, ih]
    omega
end

/-- Round trip on one value: the encoder succeeds and the decoder, run on the
bytes it wrote, pushes the value back. -/
theorem luaser_decode_encoded (load : List Nat → Option (List Nat)) (v : LuaValue)
    (L : List LuaValue) (hw : wellformed v = true) (hs : supported v = true)
    (hd : dumpsFit v = true) (hl : loadsBack load v) :
    encodevalue v [] = .ok (encoded v)
      ∧ luaser_decode load L (encoded v) (encoded v).length = .ok (v :: L) := by
  refine ⟨by simpa using encodevalue_supported v [] hs, ?_⟩
  have h := decodevalue_encoded load (encoded v) v (2 * (encoded v).length + 1) 0
    (encoded v).length L [] hw hs hd hl (by simp) (by omega) (by omega)
  simp [luaser_decode, h]

/-! ## A closure whose dump does not fit the length field -/

theorem encodevalue_zero_length_field (dump : List Nat) (h : dump.length % 2 ^ 32 = 0) :
    encodevalue (.lfunction 0 dump) []
      = .ok (LUA_TFUNCTION :: 0 :: 0 :: 0 :: 0 :: dump) := by
  have h2 : leBytes sizeof_uint32_t 0 = [0, 0, 0, 0] := by decide
  simp only [encodevalue, h, h2]
  rfl

theorem length_replicate_mod (n : Nat) : (List.replicate n 0).length % n = 0 := by
  rw [List.length_replicate, Nat.mod_self]

theorem five_le_length (rest : List Nat) :
    5 ≤ (LUA_TFUNCTION :: 0 :: 0 :: 0 :: 0 :: rest).length := by
  simp only [List.length_cons]
  omega

theorem decodevalue_zero_length_function (load : List Nat → Option (List Nat))
    (rest : List Nat) (f endp : Nat) (L : List LuaValue) (he : 5 ≤ endp) :
    decodevalue load (LUA_TFUNCTION :: 0 :: 0 :: 0 :: 0 :: rest) (f + 1) 0 endp L
      = match load [] with
        | none => .raise "failed to load function"
        | some dump => .ok (5, .lfunction 0 dump :: L) := by
  have c1 : checkbuffer 0 endp 1 = false := checkbuffer_eq_false _ _ _ (by omega)
  have c2 : checkbuffer (0 + 1) endp sizeof_uint32_t = false :=
    checkbuffer_eq_false _ _ _ (by simp only [sizeof_uint32_t]; omega)
  have c3 : checkbuffer (0 + 1 + sizeof_uint32_t) endp 0 = false :=
    checkbuffer_eq_false _ _ _ (by simp only [sizeof_uint32_t]; omega)
  have r1 : readByte (LUA_TFUNCTION :: 0 :: 0 :: 0 :: 0 :: rest) 0 = LUA_TFUNCTION := rfl
  have r2 : readBytes (LUA_TFUNCTION :: 0 :: 0 :: 0 :: 0 :: rest) (0 + 1) sizeof_uint32_t
      = [0, 0, 0, 0] := rfl
  have r3 : ∀ n, readBytes (LUA_TFUNCTION :: 0 :: 0 :: 0 :: 0 :: rest) n 0 = [] := by
    intro n
    simp [readBytes]
  have v : leVal [0, 0, 0, 0] = 0 := by decide
  simp only [decodevalue, c1, r1, r2, v, c2, c3, r3]
  simp [LUA_TFUNCTION, LUA_TNIL, LUA_TBOOLEAN, LUA_TNUMBER, LUA_TSTRING, LUA_TTABLE,
    sizeof_uint32_t]

theorem luaser_decode_zero_length_function (load : List Nat → Option (List Nat))
    (rest : List Nat) (len : Nat) (L : List LuaValue) (he : 5 ≤ len) :
    luaser_decode load L (LUA_TFUNCTION :: 0 :: 0 :: 0 :: 0 :: rest) len
      = match load [] with
        | none => .raise "failed to load function"
        | some dump => .ok (.lfunction 0 dump :: L) := by
  unfold luaser_decode
  rw [decodevalue_zero_length_function load rest (2 * len) len L he]
  cases load [] <;> rfl

theorem wellformed_replicate (nups n : Nat) :
    wellformed (.lfunction nups (List.replicate n 0)) = true := by
  simp only [wellformed, List.all_eq_true, decide_eq_true_eq]
  intro b hb
  rw [List.eq_of_mem_replicate hb]
  norm_num

theorem replicate_ne_nil (n : Nat) (h : 0 < n) :
    LuaValue.lfunction 0 [] ≠ .lfunction 0 (List.replicate n 0) := by
  intro he
  injection he with _ hd
  have hl := congrArg List.length hd
  rw [List.length_replicate] at hl
  simp only [List.length_nil] at hl
  omega

/-- C1 (broken by the code on closures whose dump is `2^32` bytes or more):
`hugeClosure` is a well-formed, supported closure without upvalues that the
loader loads back; the encoder succeeds on it and writes a length field of 0,
so that the decoder, run on the bytes the encoder produced, loads the empty
chunk and pushes a closure that is not the one encoded. -/
theorem roundtrip_breaks_on_huge_closure :
    wellformed hugeClosure = true ∧ supported hugeClosure = true
      ∧ loadsBack loadAny hugeClosure
      ∧ encodevalue hugeClosure [] = .ok hugeClosureBytes
      ∧ luaser_decode loadAny [] hugeClosureBytes hugeClosureBytes.length
          = .ok [.lfunction 0 []]
      ∧ LuaValue.lfunction 0 [] ≠ hugeClosure :=
  ⟨wellformed_replicate 0 (2 ^ 32), rfl, rfl,
    encodevalue_zero_length_field _ (length_replicate_mod (2 ^ 32)),
    luaser_decode_zero_length_function loadAny _ _ [] (five_le_length _),
    replicate_ne_nil (2 ^ 32) (Nat.pow_pos (by norm_num))⟩

/-! ## What the encoder rejects -/

mutual
theorem encodevalue_rejected (v : LuaValue) (buf : List Nat) (h : rejected v = true) :
    ∃ e, encodevalue v buf = .error e := by
  cases v with
  | nil => simp [rejected] at h
  | boolean b => simp [rejected] at h
  | number n => simp [rejected] at h
  | string s =>
    simp only [rejected, decide_eq_true_eq] at h
    simp [encodevalue, h]
  | table metatable entries =>
    simp only [rejected, Bool.or_eq_true] at h
    cases metatable with
    | true => simp [encodevalue]
    | false =>
      have h1 : rejectedEntries entries = true := by simpa using h
      obtain ⟨e, he⟩ := encodeentries_rejected entries (buf ++ [LUA_TTABLE]) h1
      simp [encodevalue, he]
  | lfunction nups dump =>
    simp only [rejected, decide_eq_true_eq] at h
    simp [encodevalue, show nups > 0 from h]
  | lightuserdata p => simp [encodevalue]
  | cfunction p => simp [encodevalue]
  | userdata p => simp [encodevalue]
  | thread p => simp [encodevalue]
theorem encodeentries_rejected (es : Entries) (buf : List Nat)
    (h : rejectedEntries es = true) : ∃ e, encodeentries es buf = .error e := by
  cases es with
  | none => simp [rejectedEntries] at h
  | more key value rest =>
    simp only [rejectedEntries, Bool.or_eq_true] at h
    cases hk : encodevalue key buf with
    | error e => simp [encodeentries, hk]
    | ok buf1 =>
      cases hv : encodevalue value buf1 with
      | error e => simp [encodeentries, hk, hv]
      | ok buf2 =>
        rcases h with (h | h) | h
        · obtain ⟨e, he⟩ := encodevalue_rejected key buf h
          rw [he] at hk
          cases hk
        · obtain ⟨e, he⟩ := encodevalue_rejected value buf1 h
          rw [he] at hv
          cases hv
        · obtain ⟨e, he⟩ := encodeentries_rejected rest buf2 h
          simp [encodeentries, hk, hv, he]
end

/-- C10: a value that is, or contains at any depth as a key or a value of a
table, a table with a metatable, a closure with an upvalue, a C function, a
string longer than `2^32 - 1` bytes, a light userdata, a userdata or a thread
makes the encoder raise a Lua error, whatever the buffer holds, and
`luaser_encode` on an index that holds it raises too: no string is pushed. -/
theorem encoder_rejects (v : LuaValue) (h : rejected v = true) :
    (∀ buf, ∃ e, encodevalue v buf = .error e)
      ∧ ∀ L idx, stackAt L idx = some v → ∃ e, luaser_encode L idx = .error e := by
  refine ⟨fun buf => encodevalue_rejected v buf h, ?_⟩
  intro L idx hidx
  obtain ⟨e, he⟩ := encodevalue_rejected v [] h
  exact ⟨e, by simp [luaser_encode, hidx, he]⟩

/-- Witness of `encoder_rejects`: a table whose only value is a table that
holds a C function under a string key. -/
theorem encoder_rejects_witness :
    rejected (.table false (.more (.number 1)
        (.table false (.more (.string [107]) (.cfunction 0) .none)) .none)) = true
      ∧ ((∀ buf, ∃ e, encodevalue (.table false (.more (.number 1)
            (.table false (.more (.string [107]) (.cfunction 0) .none)) .none)) buf
              = .error e)
        ∧ ∀ L idx, stackAt L idx = some (.table false (.more (.number 1)
            (.table false (.more (.string [107]) (.cfunction 0) .none)) .none)) →
            ∃ e, luaser_encode L idx = .error e) :=
  ⟨by decide, encoder_rejects _ (by decide)⟩

/-! ## The worker handler and the completion handler -/

theorem getElem?_length_append (done rest : List LuaValue) (v : LuaValue) :
    (done ++ v :: rest)[done.length]? = some v := by
  rw [List.getElem?_append_right (Nat.le_refl _)]
  simp

theorem stackAt_append_reverse (strs done rest : List LuaValue) (v : LuaValue) :
    stackAt (strs ++ (done ++ v :: rest).reverse) (done.length + 1) = some v := by
  have h := getElem?_length_append done (rest ++ strs.reverse) v
  simp only [stackAt, Nat.add_one_ne_zero, if_false, List.reverse_append, List.reverse_reverse,
    Nat.add_sub_cancel, List.get?_eq_getElem?, List.append_assoc, List.cons_append]
  exact h

theorem stackAt_bottom (top : List LuaValue) (b : LuaValue) :
    stackAt (top ++ [b]) 1 = some b := by
  simp [stackAt]

theorem length_encodedResults (values : List LuaValue) :
    (encodedResults values).length = values.length := by
  simp [encodedResults]

theorem encodedResults_cons (v : LuaValue) (values : List LuaValue) :
    encodedResults (v :: values) = encodedResults values ++ [.string (encoded v)] := by
  simp [encodedResults]

theorem encodeloop_supported (todo : List LuaValue) :
    ∀ (done strs : List LuaValue), (∀ v ∈ todo, supported v = true) →
      encodeloop todo.length (done.length + 1) (strs ++ (done ++ todo).reverse)
        = .ok (encodedResults todo ++ strs ++ (done ++ todo).reverse) := by
  induction todo with
  | nil =>
    intro done strs _
    simp [encodeloop, encodedResults]
  | cons v rest ih =>
    intro done strs h
    have hv : supported v = true := h v (by simp)
    have hr : ∀ w ∈ rest, supported w = true := fun w hw => h w (by simp [hw])
    have e1 : luaser_encode (strs ++ (done ++ v :: rest).reverse) (done.length + 1)
        = .ok (.string (encoded v) :: (strs ++ (done ++ v :: rest).reverse)) := by
      simp only [luaser_encode, stackAt_append_reverse, encodevalue_supported v [] hv,
        List.nil_append]
    have e2 := ih (done ++ [v]) (.string (encoded v) :: strs) hr
    simp only [List.length_append, List.length_singleton, List.append_assoc,
      List.singleton_append, List.cons_append, List.nil_append] at e2
    simp only [List.length_cons, encodeloop, e1, e2, encodedResults_cons,
      List.append_assoc, List.singleton_append, List.cons_append, List.nil_append]

theorem stackAt_encodedResults (done rest : List LuaValue) (v bottom : LuaValue) :
    stackAt (encodedResults (done ++ v :: rest) ++ [bottom]) (1 + (done.length + 1))
      = some (.string (encoded v)) := by
  have h := getElem?_length_append (done.map (fun v => LuaValue.string (encoded v)))
    (rest.map (fun v => LuaValue.string (encoded v))) (.string (encoded v))
  rw [List.length_map] at h
  have h1 : 1 + (done.length + 1) - 1 = done.length + 1 := by omega
  have h2 : 1 + (done.length + 1) ≠ 0 := by omega
  simp only [stackAt, h2, if_false, h1, encodedResults, List.reverse_append,
    List.reverse_reverse, List.reverse_cons, List.reverse_nil, List.nil_append,
    List.singleton_append, List.get?_eq_getElem?, List.getElem?_cons_succ, List.map_append,
    List.map_cons]
  exact h

theorem decodeloop_encoded (load : List Nat → Option (List Nat)) (todo : List LuaValue) :
    ∀ (done : List LuaValue) (bottom : LuaValue) (co : List LuaValue),
      (∀ v ∈ todo, portable load v) →
      decodeloop load todo.length (done.length + 1)
        (encodedResults (done ++ todo) ++ [bottom]) co = .ok (todo.reverse ++ co) := by
  induction todo with
  | nil =>
    intro done bottom co _
    simp [decodeloop]
  | cons v rest ih =>
    intro done bottom co h
    obtain ⟨hw, hs, hd, hl⟩ := h v (by simp)
    have hr : ∀ w ∈ rest, portable load w := fun w hw => h w (by simp [hw])
    have d1 := (luaser_decode_encoded load v co hw hs hd hl).2
    have e2 := ih (done ++ [v]) bottom (v :: co) hr
    simp only [List.length_append, List.length_singleton, List.append_assoc,
      List.singleton_append] at e2
    simp only [List.length_cons, decodeloop, stackAt_encodedResults, d1, e2,
      List.reverse_cons, List.append_assoc, List.singleton_append]

theorem task_handler_pickup_fresh (load : List Nat → Option (List Nat))
    (thread : ThreadState) (code : List Nat) (work : LuaValue)
    (hst : thread.status = Status.CREATED) (hL : thread.L = some ⟨[.string code], []⟩)
    (hd : luaser_decode load [] code code.length = .ok [work]) :
    ngx_http_resty_threadpool_task_handler_pickup load thread
      = .ok { thread with L := some ⟨[.thread 0], [work]⟩, status := Status.RUNNING } := by
  simp [ngx_http_resty_threadpool_task_handler_pickup, hL, hst, stackAt, hd]

theorem task_handler_pickup_suspended (load : List Nat → Option (List Nat))
    (thread : ThreadState) (t : Nat)
    (hst : thread.status = Status.YIELDED) (hL : thread.L = some ⟨[.thread t], []⟩) :
    ngx_http_resty_threadpool_task_handler_pickup load thread = .ok { thread with status := Status.RUNNING } := by
  simp [ngx_http_resty_threadpool_task_handler_pickup, hL, hst, stackAt]

theorem task_handler_pickup_ready (load : List Nat → Option (List Nat))
    (thread : ThreadState) (h : readyTask load thread) :
    ∃ t co, ngx_http_resty_threadpool_task_handler_pickup load thread
      = .ok { thread with L := some ⟨[.thread t], co⟩, status := Status.RUNNING } := by
  rcases h with ⟨hst, code, work, hL, hd⟩ | ⟨hst, t, hL⟩
  · exact ⟨0, [work], task_handler_pickup_fresh load thread code work hst hL hd⟩
  · refine ⟨t, [], ?_⟩
    rw [task_handler_pickup_suspended load thread t hst hL, ← hL]

theorem task_handler_pickup_returns (load : List Nat → Option (List Nat))
    (thread thread1 : ThreadState) (h : ngx_http_resty_threadpool_task_handler_pickup load thread = .ok thread1) :
    (thread.status = Status.CREATED ∨ thread.status = Status.YIELDED)
      ∧ thread1.status = Status.RUNNING ∧ thread1.tp = thread.tp
      ∧ ∃ t co, thread1.L = some ⟨[.thread t], co⟩ := by
  unfold ngx_http_resty_threadpool_task_handler_pickup at h
  cases hL : thread.L with
  | none => simp [hL] at h
  | some L =>
    obtain ⟨stack, co⟩ := L
    simp only [hL] at h
    by_cases hc : thread.status = Status.CREATED
    · simp only [hc, if_true] at h
      cases hat : stackAt stack 1 with
      | none => simp [hat] at h
      | some v =>
        cases v with
        | string code =>
          simp only [hat] at h
          cases hd : luaser_decode load [] code code.length with
          | fuel => simp [hd] at h
          | raise msg => simp [hd] at h
          | ok co1 =>
            simp only [hd] at h
            have hdl : (LuaValue.thread 0 :: stack).dropLast.length = stack.length := by
              rw [List.length_dropLast]
              simp
            rw [hdl] at h
            by_cases hlen : stack.length = 1
            · simp only [hlen, if_true, Outcome.ok.injEq] at h
              subst h
              refine ⟨Or.inl hc, rfl, rfl, ?_⟩
              obtain ⟨x, rfl⟩ := List.length_eq_one.mp hlen
              exact ⟨0, co1, rfl⟩
            · simp [hlen] at h
        | nil => simp [hat] at h
        | boolean _ => simp [hat] at h
        | lightuserdata _ => simp [hat] at h
        | number _ => simp [hat] at h
        | table _ _ => simp [hat] at h
        | cfunction _ => simp [hat] at h
        | lfunction _ _ => simp [hat] at h
        | userdata _ => simp [hat] at h
        | thread _ => simp [hat] at h
    · simp only [hc, if_false] at h
      by_cases hy : thread.status = Status.YIELDED
      · simp only [hy, ne_eq, not_true_eq_false, if_false] at h
        by_cases hlen : stack.length = 1
        · obtain ⟨x, rfl⟩ := List.length_eq_one.mp hlen
          have hat : stackAt [x] 1 = some x := by simp [stackAt]
          simp only [List.length_singleton, not_true_eq_false, if_false, hat] at h
          cases x with
          | thread t =>
            simp only at h
            by_cases hco : co.length = 0
            · simp only [hco, if_true, Outcome.ok.injEq] at h
              subst h
              have hnil : co = [] := List.length_eq_zero.mp hco
              subst hnil
              exact ⟨Or.inr hy, rfl, rfl, t, [], by simp [hL]⟩
            · simp [hco] at h
          | nil => simp at h
          | boolean _ => simp at h
          | lightuserdata _ => simp at h
          | number _ => simp at h
          | string _ => simp at h
          | table _ _ => simp at h
          | cfunction _ => simp at h
          | lfunction _ _ => simp at h
          | userdata _ => simp at h
        · simp [hlen] at h
      · simp [hy] at h

theorem task_handler_run_values (run : CoroutineRun) (thread : ThreadState) (t : Nat)
    (co0 : List LuaValue) (hL : thread.L = some ⟨[.thread t], co0⟩)
    (hrun : ∀ e, run ≠ .failed e) (hs : ∀ v ∈ valuesOf run, supported v = true) :
    ngx_http_resty_threadpool_task_handler_run run thread
      = .ok ({ thread with
                L := some ⟨encodedResults (valuesOf run) ++ [.thread t], []⟩,
                status := statusAfter run }, (valuesOf run).length) := by
  have key : ∀ values : List LuaValue, (∀ v ∈ values, supported v = true) →
      encodeloop values.reverse.length 1 values.reverse
        = .ok (encodedResults values ++ values.reverse) := by
    intro values hv
    have h := encodeloop_supported values [] [] hv
    simp only [List.length_nil, Nat.zero_add, List.nil_append, List.append_nil] at h
    rw [List.length_reverse]
    exact h
  cases run with
  | failed e => exact absurd rfl (hrun e)
  | finished values =>
    simp only [valuesOf] at hs ⊢
    have hd : List.drop values.length values.reverse = [] :=
      List.drop_eq_nil_of_le (by simp)
    simp only [ngx_http_resty_threadpool_task_handler_run, hL, key values hs, statusAfter]
    simp [length_encodedResults, stackAt, hd, Nat.add_comm]
  | yielded values =>
    simp only [valuesOf] at hs ⊢
    have hd : List.drop values.length values.reverse = [] :=
      List.drop_eq_nil_of_le (by simp)
    simp only [ngx_http_resty_threadpool_task_handler_run, hL, key values hs, statusAfter]
    simp [length_encodedResults, stackAt, hd, Nat.add_comm]

theorem task_handler_run_failed (err : LuaValue) (thread : ThreadState) (L : LuaState)
    (hL : thread.L = some L) :
    ngx_http_resty_threadpool_task_handler_run (.failed err) thread
      = .ok ({ thread with L := some ⟨L.stack, err :: L.co⟩, status := Status.FAILED }, 0) := by
  simp [ngx_http_resty_threadpool_task_handler_run, hL]

theorem thread_event_handler_delivers (load : List Nat → Option (List Nat))
    (thread : ThreadState) (values : List LuaValue) (t : Nat) (co0 co : List LuaValue)
    (hL : thread.L = some ⟨encodedResults values ++ [.thread t], co0⟩)
    (hp : ∀ v ∈ values, portable load v) :
    ngx_http_resty_threadpool_thread_event_handler load true thread values.length co
      = .ok ⟨if thread.status = Status.SUCCESS ∨ thread.status = Status.FAILED then
              { thread with L := none, status := Status.DESTROYED }
            else { thread with L := some ⟨[.thread t], co0⟩ },
          values.reverse ++ co, some values.length⟩ := by
  have d := decodeloop_encoded load values [] (.thread t) co hp
  simp only [List.length_nil, List.nil_append, Nat.zero_add] at d
  have hdrop : (encodedResults values ++ [LuaValue.thread t]).drop values.length
      = [.thread t] := by
    rw [← length_encodedResults values, List.drop_left]
  simp only [ngx_http_resty_threadpool_thread_event_handler, hL, Bool.not_true, Bool.false_eq_true, if_false, d, hdrop]
  split <;> rfl

theorem thread_create_workClosure :
    ngx_http_resty_threadpool_thread_create ⟨["default"], true⟩ "default" workClosure = ⟨some freshHandle, .ok ()⟩ := by
  decide

theorem freshTask_freshHandle : freshTask loadAny freshHandle :=
  ⟨rfl, encoded workClosure, workClosure, rfl, by decide⟩

theorem task_handler_pickup_freshHandle :
    ngx_http_resty_threadpool_task_handler_pickup loadAny freshHandle = .ok pickedHandle := by
  decide

theorem task_handler_run_returns (run : CoroutineRun) (thread thread1 : ThreadState)
    (nres : Nat) (h : ngx_http_resty_threadpool_task_handler_run run thread = .ok (thread1, nres)) :
    thread1.status = statusAfter run ∧ nres = (valuesOf run).length
      ∧ thread1.tp = thread.tp := by
  unfold ngx_http_resty_threadpool_task_handler_run at h
  cases hL : thread.L with
  | none => simp [hL] at h
  | some L =>
    simp only [hL] at h
    cases run with
    | failed err =>
      simp only [Outcome.ok.injEq, Prod.mk.injEq] at h
      obtain ⟨h1, h2⟩ := h
      subst h1
      exact ⟨rfl, by simp [valuesOf, ← h2], rfl⟩
    | finished values =>
      simp only at h
      cases he : encodeloop values.reverse.length 1 values.reverse with
      | error e =>
        simp only [he] at h
        cases h
      | ok co1 =>
        simp only [he] at h
        split at h
        · cases h
        · split at h
          · cases h
          · split at h
            · simp only [Outcome.ok.injEq, Prod.mk.injEq] at h
              obtain ⟨h1, h2⟩ := h
              subst h1
              exact ⟨rfl, by simp [valuesOf, ← h2], rfl⟩
            · cases h
    | yielded values =>
      simp only at h
      cases he : encodeloop values.reverse.length 1 values.reverse with
      | error e =>
        simp only [he] at h
        cases h
      | ok co1 =>
        simp only [he] at h
        split at h
        · cases h
        · split at h
          · cases h
          · split at h
            · simp only [Outcome.ok.injEq, Prod.mk.injEq] at h
              obtain ⟨h1, h2⟩ := h
              subst h1
              exact ⟨rfl, by simp [valuesOf, ← h2], rfl⟩
            · cases h

theorem task_handler_returns (load : List Nat → Option (List Nat)) (run : CoroutineRun)
    (thread thread1 : ThreadState) (nres : Nat)
    (h : ngx_http_resty_threadpool_task_handler load run thread = .ok (thread1, nres)) :
    ∃ thread0, ngx_http_resty_threadpool_task_handler_pickup load thread = .ok thread0
      ∧ ngx_http_resty_threadpool_task_handler_run run thread0 = .ok (thread1, nres) := by
  unfold ngx_http_resty_threadpool_task_handler at h
  cases hp : ngx_http_resty_threadpool_task_handler_pickup load thread with
  | fuel => simp [hp] at h
  | raise msg => simp [hp] at h
  | ok thread0 => exact ⟨thread0, rfl, by simpa [hp] using h⟩

theorem task_handler_ready (load : List Nat → Option (List Nat)) (run : CoroutineRun)
    (thread : ThreadState) (hr : readyTask load thread)
    (hs : ∀ v ∈ valuesOf run, supported v = true) :
    ∃ t co, ngx_http_resty_threadpool_task_handler load run thread
      = .ok ({ thread with
                L := some ⟨encodedResults (valuesOf run) ++ [.thread t], co⟩,
                status := statusAfter run }, (valuesOf run).length) := by
  obtain ⟨t, co0, hp⟩ := task_handler_pickup_ready load thread hr
  cases run with
  | failed err =>
    refine ⟨t, err :: co0, ?_⟩
    simp only [ngx_http_resty_threadpool_task_handler, hp]
    rw [task_handler_run_failed err _ ⟨[.thread t], co0⟩ rfl]
    simp [valuesOf, encodedResults, statusAfter]
  | finished values =>
    refine ⟨t, [], ?_⟩
    simp only [ngx_http_resty_threadpool_task_handler, hp]
    rw [task_handler_run_values (.finished values) _ t co0 rfl (fun e => by simp) hs]
  | yielded values =>
    refine ⟨t, [], ?_⟩
    simp only [ngx_http_resty_threadpool_task_handler, hp]
    rw [task_handler_run_values (.yielded values) _ t co0 rfl (fun e => by simp) hs]

/-- For portable results the handlers deliver in order: after the worker
handler on a run that finished with `values` and the completion handler with
the request alive, the result count is the number of values and the caller's
coroutine has received exactly these values, first value pushed first. -/
theorem results_delivered_in_order (load : List Nat → Option (List Nat))
    (thread : ThreadState) (values co : List LuaValue) (hr : readyTask load thread)
    (hp : ∀ v ∈ values, portable load v) :
    ∃ thread1,
      ngx_http_resty_threadpool_task_handler load (.finished values) thread
        = .ok (thread1, values.length)
      ∧ ngx_http_resty_threadpool_thread_event_handler load true thread1 values.length co
          = .ok ⟨{ thread1 with L := none, status := Status.DESTROYED },
              values.reverse ++ co, some values.length⟩ := by
  obtain ⟨t, co0, h⟩ := task_handler_ready load (.finished values) thread hr
    (fun v hv => (hp v hv).2.1)
  simp only [valuesOf, statusAfter] at h
  refine ⟨_, h, ?_⟩
  rw [thread_event_handler_delivers load _ values t co0 co rfl hp]
  simp

theorem encoded_hugeClosure : encoded hugeClosure = hugeClosureBytes := by
  have h1 := encodevalue_supported hugeClosure [] rfl
  have h2 : encodevalue hugeClosure [] = .ok hugeClosureBytes :=
    encodevalue_zero_length_field _ (length_replicate_mod (2 ^ 32))
  rw [h1] at h2
  injection h2

theorem task_handler_hugeClosure :
    ngx_http_resty_threadpool_task_handler loadAny (.finished [hugeClosure]) freshHandle
      = .ok (hugeResultHandle, 1) := by
  have hr := task_handler_run_values (.finished [hugeClosure]) pickedHandle 0 [workClosure]
    rfl (fun e => by simp) (by
      intro v hv
      simp only [valuesOf, List.mem_singleton] at hv
      subst hv
      rfl)
  simp only [valuesOf, encodedResults, List.map_cons, List.map_nil, List.reverse_cons,
    List.reverse_nil, List.nil_append, List.singleton_append, encoded_hugeClosure,
    statusAfter, List.length_singleton] at hr
  simp only [ngx_http_resty_threadpool_task_handler, task_handler_pickup_freshHandle, hr]
  rfl

theorem thread_event_handler_one (load : List Nat → Option (List Nat))
    (thread : ThreadState) (res : List Nat) (t : Nat) (co0 co : List LuaValue)
    (v : LuaValue) (hL : thread.L = some ⟨[.string res, .thread t], co0⟩)
    (hst : thread.status = Status.SUCCESS)
    (hd : luaser_decode load co res res.length = .ok (v :: co)) :
    ngx_http_resty_threadpool_thread_event_handler load true thread 1 co
      = .ok ⟨{ thread with L := none, status := Status.DESTROYED }, v :: co, some 1⟩ := by
  have hat : stackAt [LuaValue.string res, LuaValue.thread t] (1 + 1)
      = some (.string res) := by
    simp [stackAt]
  simp [ngx_http_resty_threadpool_thread_event_handler, hL, hst, decodeloop, hat, hd]

theorem thread_event_handler_hugeClosure (co : List LuaValue) :
    ngx_http_resty_threadpool_thread_event_handler loadAny true hugeResultHandle 1 co
      = .ok ⟨⟨some "default", none, Status.DESTROYED⟩, .lfunction 0 [] :: co, some 1⟩ :=
  thread_event_handler_one loadAny hugeResultHandle hugeClosureBytes 0 [] co
    (.lfunction 0 []) rfl rfl
    (luaser_decode_zero_length_function loadAny _ _ co (five_le_length _))

/-- C2 (broken by the code on a result that is a closure whose dump is `2^32`
bytes or more): the work of `freshHandle` returns the one supported value
`hugeClosure`; the worker handler records one result, and the completion
handler, request alive, pushes one value onto the caller's coroutine, which is
not the value returned: it is the closure loaded from the empty chunk. -/
theorem delivery_breaks_on_huge_closure :
    supported hugeClosure = true
      ∧ ngx_http_resty_threadpool_task_handler loadAny (.finished [hugeClosure]) freshHandle
          = .ok (hugeResultHandle, 1)
      ∧ ngx_http_resty_threadpool_thread_event_handler loadAny true hugeResultHandle 1 []
          = .ok ⟨⟨some "default", none, Status.DESTROYED⟩, [.lfunction 0 []], some 1⟩
      ∧ LuaValue.lfunction 0 [] ≠ hugeClosure :=
  ⟨rfl, task_handler_hugeClosure, thread_event_handler_hugeClosure [],
    replicate_ne_nil (2 ^ 32) (Nat.pow_pos (by norm_num))⟩

/-! ## Transitions of the worker handler -/

/-- C3: whenever the worker handler returns, which it does on tasks in
`CREATED` or `YIELDED` only, the status is `SUCCESS` exactly when the run
finished, `FAILED` exactly when it raised an error and `YIELDED` exactly when
it suspended, and it is none of `RUNNING`, `CREATED`, `DESTROYED`; and the
handler does return on every task that is ready to be picked up when the
values the run leaves are supported. -/
theorem task_handler_transitions (load : List Nat → Option (List Nat))
    (run : CoroutineRun) (thread : ThreadState) :
    (∀ thread1 nres,
        ngx_http_resty_threadpool_task_handler load run thread = .ok (thread1, nres) →
        (thread.status = Status.CREATED ∨ thread.status = Status.YIELDED)
          ∧ (thread1.status = Status.SUCCESS ↔ ∃ values, run = .finished values)
          ∧ (thread1.status = Status.FAILED ↔ ∃ err, run = .failed err)
          ∧ (thread1.status = Status.YIELDED ↔ ∃ values, run = .yielded values)
          ∧ thread1.status ≠ Status.RUNNING ∧ thread1.status ≠ Status.CREATED
          ∧ thread1.status ≠ Status.DESTROYED)
      ∧ (readyTask load thread → (∀ v ∈ valuesOf run, supported v = true) →
          ∃ thread1 nres,
            ngx_http_resty_threadpool_task_handler load run thread = .ok (thread1, nres)) := by
  constructor
  · intro thread1 nres hok
    obtain ⟨thread0, hpick, hrun⟩ := task_handler_returns load run thread thread1 nres hok
    obtain ⟨hst, _, _⟩ := task_handler_run_returns run thread0 thread1 nres hrun
    refine ⟨(task_handler_pickup_returns load thread thread0 hpick).1, ?_⟩
    rw [hst]
    cases run <;> simp [statusAfter]
  · intro hr hs
    obtain ⟨t, co, hok⟩ := task_handler_ready load run thread hr hs
    exact ⟨_, _, hok⟩

/-- Witness of `task_handler_transitions`: the new task `freshHandle`, whose
work returns the number 1 and the string "ok". -/
theorem task_handler_transitions_witness :
    ngx_http_resty_threadpool_task_handler loadAny (.finished [.number 4607182418800017408, .string [111, 107]])
          freshHandle
          = .ok (⟨some "default",
              some ⟨[.string [4, 2, 0, 0, 0, 111, 107],
                .string [3, 0, 0, 0, 0, 0, 0, 240, 63], .thread 0], []⟩,
              Status.SUCCESS⟩, 2)
      ∧ ((⟨some "default",
              some ⟨[.string [4, 2, 0, 0, 0, 111, 107],
                .string [3, 0, 0, 0, 0, 0, 0, 240, 63], .thread 0], []⟩,
              Status.SUCCESS⟩ : ThreadState).status = Status.SUCCESS
          ↔ ∃ values, CoroutineRun.finished [.number 4607182418800017408, .string [111, 107]]
              = .finished values) :=
  ⟨by decide,
    ((task_handler_transitions loadAny
      (.finished [.number 4607182418800017408, .string [111, 107]]) freshHandle).1
      _ 2 (by decide)).2.1⟩

/-! ## The guard of `resume` -/

/-- C4: on a handle whose status is neither `CREATED` nor `YIELDED`, `resume`
raises "thread not in good state", posts nothing and leaves the handle (status
and worker state) as it was; on a handle in `CREATED` or `YIELDED` the state
check passes: `resume` does not raise that error, and it posts the task when
the request, its context and the pool allow it. -/
theorem thread_resume_guard (env : ResumeEnv) (ud : ThreadState) :
    (ud.status ≠ Status.CREATED ∧ ud.status ≠ Status.YIELDED →
        ngx_http_resty_threadpool_thread_resume env ud
          = ⟨.raise "thread not in good state", ud, false⟩)
      ∧ (ud.status = Status.CREATED ∨ ud.status = Status.YIELDED →
          (ngx_http_resty_threadpool_thread_resume env ud).result
              ≠ .raise "thread not in good state"
            ∧ (ngx_http_resty_threadpool_thread_resume env ud).ud = ud
            ∧ (env = ⟨true, true, true, true, true⟩ →
                ngx_http_resty_threadpool_thread_resume env ud = ⟨.ok (), ud, true⟩)) := by
  constructor
  · intro h
    simp [ngx_http_resty_threadpool_thread_resume, h]
  · intro h
    have hn : ¬ (ud.status ≠ Status.CREATED ∧ ud.status ≠ Status.YIELDED) := by
      rcases h with h | h <;> simp [h]
    obtain ⟨r, luactx, coctx, task, post⟩ := env
    refine ⟨?_, ?_, ?_⟩
    · simp only [ngx_http_resty_threadpool_thread_resume, hn, if_false]
      cases r <;> cases luactx <;> cases coctx <;> cases task <;> cases post <;> simp
    · simp only [ngx_http_resty_threadpool_thread_resume, hn, if_false]
      cases r <;> cases luactx <;> cases coctx <;> cases task <;> cases post <;> rfl
    · intro he
      cases he
      simp [ngx_http_resty_threadpool_thread_resume, hn]

/-- Witness of `thread_resume_guard`: a handle in `SUCCESS` is refused, the
handle `freshHandle` is accepted. -/
theorem thread_resume_guard_witness :
    ngx_http_resty_threadpool_thread_resume ⟨true, true, true, true, true⟩ hugeResultHandle
        = ⟨.raise "thread not in good state", hugeResultHandle, false⟩
      ∧ ngx_http_resty_threadpool_thread_resume ⟨true, true, true, true, true⟩ freshHandle
        = ⟨.ok (), freshHandle, true⟩ :=
  ⟨(thread_resume_guard ⟨true, true, true, true, true⟩ hugeResultHandle).1
      ⟨by decide, by decide⟩,
    ((thread_resume_guard ⟨true, true, true, true, true⟩ freshHandle).2
      (Or.inl rfl)).2.2 rfl⟩

/-! ## A run that raises an error -/

/-- C5 (counterexample): the work of `freshHandle` raises the error value
"boom".  The task is captured as `FAILED` with no result, and the completion
handler returns without raising, leaves the stack of the caller's coroutine
empty and runs the caller again with zero results: no error and no "boom"
reach the caller. -/
theorem error_value_not_delivered :
    ngx_http_resty_threadpool_task_handler loadAny (.failed (.string boom)) freshHandle
        = .ok (⟨some "default", some ⟨[.thread 0], [.string boom, workClosure]⟩,
            Status.FAILED⟩, 0)
      ∧ ngx_http_resty_threadpool_thread_event_handler loadAny true
          ⟨some "default", some ⟨[.thread 0], [.string boom, workClosure]⟩, Status.FAILED⟩
          0 []
        = .ok ⟨⟨some "default", none, Status.DESTROYED⟩, [], some 0⟩ :=
  ⟨by decide, by decide⟩

/-- C5 (amended): when the work of a task that is ready to be picked up raises
an error value, the worker handler returns with the task `FAILED` and a result
count of zero; the completion handler, request alive, then returns without
raising, leaves the stack of the caller's coroutine as it was, runs the caller
again with zero results, and leaves the task `DESTROYED` with no worker
state. -/
theorem failed_run_resumes_caller_without_error (load : List Nat → Option (List Nat))
    (thread : ThreadState) (err : LuaValue) (co : List LuaValue)
    (hr : readyTask load thread) :
    ∃ thread1, ngx_http_resty_threadpool_task_handler load (.failed err) thread = .ok (thread1, 0)
      ∧ thread1.status = Status.FAILED
      ∧ ngx_http_resty_threadpool_thread_event_handler load true thread1 0 co
          = .ok ⟨{ thread1 with L := none, status := Status.DESTROYED }, co, some 0⟩ := by
  obtain ⟨t, co0, h⟩ := task_handler_ready load (.failed err) thread hr
    (fun v hv => by simp [valuesOf] at hv)
  simp only [valuesOf, statusAfter, List.length_nil] at h
  refine ⟨_, h, rfl, ?_⟩
  have hd := thread_event_handler_delivers load
    { thread with L := some ⟨encodedResults [] ++ [.thread t], co0⟩, status := Status.FAILED }
    [] t co0 co rfl (fun v hv => by simp at hv)
  simp only [List.length_nil, List.reverse_nil, List.nil_append] at hd
  rw [hd]
  simp

/-- Witness of `failed_run_resumes_caller_without_error`: the task
`freshHandle`, the error value "boom" and a caller whose stack holds one
value. -/
theorem failed_run_resumes_caller_without_error_witness :
    readyTask loadAny freshHandle
      ∧ ∃ thread1, ngx_http_resty_threadpool_task_handler loadAny (.failed (.string boom)) freshHandle
            = .ok (thread1, 0)
          ∧ thread1.status = Status.FAILED
          ∧ ngx_http_resty_threadpool_thread_event_handler loadAny true thread1 0 [.boolean true]
              = .ok ⟨{ thread1 with L := none, status := Status.DESTROYED },
                  [.boolean true], some 0⟩ :=
  ⟨Or.inl freshTask_freshHandle,
    failed_run_resumes_caller_without_error loadAny freshHandle (.string boom)
      [.boolean true] (Or.inl freshTask_freshHandle)⟩

/-! ## A run that suspends -/

/-- C6 (counterexample): the work of `freshHandle` suspends and passes the
number 1 to the yield.  The task ends the run `YIELDED` with a result count of
one, the value is encoded, and the completion handler delivers it to the
caller. -/
theorem yielded_value_is_reported :
    ngx_http_resty_threadpool_task_handler loadAny (.yielded [.number 4607182418800017408]) freshHandle
        = .ok (⟨some "default",
            some ⟨[.string [3, 0, 0, 0, 0, 0, 0, 240, 63], .thread 0], []⟩,
            Status.YIELDED⟩, 1)
      ∧ ngx_http_resty_threadpool_thread_event_handler loadAny true
          ⟨some "default",
            some ⟨[.string [3, 0, 0, 0, 0, 0, 0, 240, 63], .thread 0], []⟩,
            Status.YIELDED⟩ 1 []
        = .ok ⟨⟨some "default", some ⟨[.thread 0], []⟩, Status.YIELDED⟩,
            [.number 4607182418800017408], some 1⟩ :=
  ⟨by decide, by decide⟩

/-- C6 (amended): when the work of a task that is ready to be picked up
suspends and passes portable values to the yield, the task ends the run
`YIELDED` with a result count equal to the number of values passed; the values
are encoded in order on the worker stack, and the completion handler, request
alive, delivers them in order to the caller, runs the caller again with that
many results and leaves the task `YIELDED` with its coroutine alone on the
worker stack.  With no value passed the count is zero and nothing is encoded
or delivered. -/
theorem suspension_reports_yielded_values (load : List Nat → Option (List Nat))
    (thread : ThreadState) (values co : List LuaValue) (hr : readyTask load thread)
    (hp : ∀ v ∈ values, portable load v) :
    ∃ thread1 t,
      ngx_http_resty_threadpool_task_handler load (.yielded values) thread
        = .ok (thread1, values.length)
      ∧ thread1.status = Status.YIELDED
      ∧ thread1.L = some ⟨encodedResults values ++ [.thread t], []⟩
      ∧ ngx_http_resty_threadpool_thread_event_handler load true thread1 values.length co
          = .ok ⟨{ thread1 with L := some ⟨[.thread t], []⟩ },
              values.reverse ++ co, some values.length⟩ := by
  have key : ∀ (t : Nat) (co0 : List LuaValue),
      ngx_http_resty_threadpool_task_handler_pickup load thread
        = .ok { thread with L := some ⟨[.thread t], co0⟩, status := Status.RUNNING } →
      ngx_http_resty_threadpool_task_handler load (.yielded values) thread
        = .ok ({ thread with
                  L := some ⟨encodedResults values ++ [.thread t], []⟩,
                  status := Status.YIELDED }, values.length) := by
    intro t co0 hpick
    simp only [ngx_http_resty_threadpool_task_handler, hpick]
    rw [task_handler_run_values (.yielded values) _ t co0 rfl (fun e => by simp)
      (fun v hv => (hp v hv).2.1)]
    simp [valuesOf, statusAfter]
  obtain ⟨t, co0, hpick⟩ := task_handler_pickup_ready load thread hr
  refine ⟨_, t, key t co0 hpick, rfl, rfl, ?_⟩
  rw [thread_event_handler_delivers load _ values t [] co rfl hp]
  simp

/-- Witness of `suspension_reports_yielded_values`: the task `freshHandle`
suspends and passes the number 1 and the string "ok". -/
theorem suspension_reports_yielded_values_witness :
    readyTask loadAny freshHandle
      ∧ (∀ v ∈ [LuaValue.number 4607182418800017408, LuaValue.string [111, 107]],
          portable loadAny v)
      ∧ ∃ thread1 t,
          ngx_http_resty_threadpool_task_handler loadAny
              (.yielded [.number 4607182418800017408, .string [111, 107]]) freshHandle
            = .ok (thread1,
                [LuaValue.number 4607182418800017408, LuaValue.string [111, 107]].length)
          ∧ thread1.status = Status.YIELDED
          ∧ thread1.L = some ⟨encodedResults
              [.number 4607182418800017408, .string [111, 107]] ++ [.thread t], []⟩
          ∧ ngx_http_resty_threadpool_thread_event_handler loadAny true thread1
              [LuaValue.number 4607182418800017408, LuaValue.string [111, 107]].length []
            = .ok ⟨{ thread1 with L := some ⟨[.thread t], []⟩ },
                [LuaValue.number 4607182418800017408, LuaValue.string [111, 107]].reverse
                  ++ [],
                some [LuaValue.number 4607182418800017408,
                  LuaValue.string [111, 107]].length⟩ :=
  ⟨Or.inl freshTask_freshHandle,
    by
      intro v hv
      simp only [List.mem_cons, List.mem_singleton, List.not_mem_nil, or_false] at hv
      rcases hv with rfl | rfl
      · exact ⟨by decide, by decide, by decide, trivial⟩
      · exact ⟨by decide, by decide, by decide, trivial⟩,
    suspension_reports_yielded_values loadAny freshHandle
      [.number 4607182418800017408, .string [111, 107]] []
      (Or.inl freshTask_freshHandle)
      (by
        intro v hv
        simp only [List.mem_cons, List.mem_singleton, List.not_mem_nil, or_false] at hv
        rcases hv with rfl | rfl
        · exact ⟨by decide, by decide, by decide, trivial⟩
        · exact ⟨by decide, by decide, by decide, trivial⟩)⟩

/-! ## Consuming a terminal outcome -/

theorem thread_resume_ud (env : ResumeEnv) (ud : ThreadState) :
    (ngx_http_resty_threadpool_thread_resume env ud).ud = ud := by
  unfold ngx_http_resty_threadpool_thread_resume
  split_ifs <;> rfl

theorem afterResumes_eq (envs : List ResumeEnv) (ud : ThreadState) :
    afterResumes envs ud = ud := by
  induction envs with
  | nil => rfl
  | cons env rest ih =>
    simp only [afterResumes, List.foldl_cons, thread_resume_ud] at ih ⊢
    exact ih

theorem thread_event_handler_returns (load : List Nat → Option (List Nat))
    (luactx : Bool) (thread : ThreadState) (nres : Nat) (co : List LuaValue)
    (res : EventResult) (h : ngx_http_resty_threadpool_thread_event_handler load luactx thread nres co = .ok res) :
    (∃ L, thread.L = some L)
      ∧ ((res.thread = { thread with L := none, status := Status.DESTROYED }
            ∧ (luactx = false ∨ thread.status = Status.SUCCESS
                ∨ thread.status = Status.FAILED))
          ∨ (luactx = true ∧ thread.status ≠ Status.SUCCESS
              ∧ thread.status ≠ Status.FAILED
              ∧ res.thread.status = thread.status ∧ res.thread.tp = thread.tp
              ∧ ∃ t co0, res.thread.L = some ⟨[.thread t], co0⟩)) := by
  unfold ngx_http_resty_threadpool_thread_event_handler at h
  cases hL : thread.L with
  | none => simp [hL] at h
  | some L =>
    refine ⟨⟨L, rfl⟩, ?_⟩
    simp only [hL] at h
    cases luactx with
    | false =>
      simp only [Bool.not_false, if_true, Outcome.ok.injEq] at h
      subst h
      exact Or.inl ⟨rfl, Or.inl rfl⟩
    | true =>
      simp only [Bool.not_true, Bool.false_eq_true, if_false] at h
      cases hd : decodeloop load nres 1 L.stack co with
      | fuel => simp [hd] at h
      | raise msg => simp [hd] at h
      | ok co1 =>
        simp only [hd] at h
        split at h
        · by_cases hst : thread.status = Status.SUCCESS ∨ thread.status = Status.FAILED
          · simp only [hst, if_true, Outcome.ok.injEq] at h
            subst h
            exact Or.inl ⟨rfl, Or.inr hst⟩
          · simp only [hst, if_false, Outcome.ok.injEq] at h
            subst h
            rename_i t heq
            exact Or.inr ⟨rfl, fun hc => hst (Or.inl hc), fun hc => hst (Or.inr hc),
              rfl, rfl, t, L.co, by simp only [heq]⟩
        · cases h

/-- C7: for a task in `SUCCESS` or `FAILED`, whenever the completion handler
returns, request alive, the task is `DESTROYED` with no worker state, and every
later `resume` on the handle, after any number of earlier attempts, raises
"thread not in good state", posts nothing and leaves the handle as it is; and
the handler does return when the worker stack holds, above the coroutine, the
encodings of portable results and the result count is their number. -/
theorem terminal_outcome_consumed_once (load : List Nat → Option (List Nat))
    (thread : ThreadState)
    (hst : thread.status = Status.SUCCESS ∨ thread.status = Status.FAILED) :
    (∀ nres co res,
        ngx_http_resty_threadpool_thread_event_handler load true thread nres co = .ok res →
        res.thread.status = Status.DESTROYED ∧ res.thread.L = none
          ∧ ∀ envs env, ngx_http_resty_threadpool_thread_resume env (afterResumes envs res.thread)
              = ⟨.raise "thread not in good state", res.thread, false⟩)
      ∧ (∀ values t co0 co, thread.L = some ⟨encodedResults values ++ [.thread t], co0⟩ →
          (∀ v ∈ values, portable load v) →
          ∃ res, ngx_http_resty_threadpool_thread_event_handler load true thread
            values.length co = .ok res) := by
  constructor
  · intro nres co res h
    obtain ⟨_, hres⟩ := thread_event_handler_returns load true thread nres co res h
    rcases hres with ⟨hres, _⟩ | ⟨_, h1, h2, _⟩
    · rw [hres]
      refine ⟨rfl, rfl, ?_⟩
      intro envs env
      rw [afterResumes_eq]
      simp [ngx_http_resty_threadpool_thread_resume]
    · rcases hst with hst | hst
      · exact absurd hst h1
      · exact absurd hst h2
  · intro values t co0 co hL hp
    exact ⟨_, thread_event_handler_delivers load thread values t co0 co hL hp⟩

/-- Witness of `terminal_outcome_consumed_once`: a task in `SUCCESS` whose
worker stack holds the encodings of the number 1 and of the string "ok". -/
theorem terminal_outcome_consumed_once_witness :
    ngx_http_resty_threadpool_thread_event_handler loadAny true
        ⟨some "default",
          some ⟨[.string [4, 2, 0, 0, 0, 111, 107],
            .string [3, 0, 0, 0, 0, 0, 0, 240, 63], .thread 0], []⟩,
          Status.SUCCESS⟩ 2 []
      = .ok ⟨⟨some "default", none, Status.DESTROYED⟩,
          [.string [111, 107], .number 4607182418800017408], some 2⟩
      ∧ ∀ envs env, ngx_http_resty_threadpool_thread_resume env
          (afterResumes envs ⟨some "default", none, Status.DESTROYED⟩)
            = ⟨.raise "thread not in good state",
                ⟨some "default", none, Status.DESTROYED⟩, false⟩ :=
  ⟨by decide,
    ((terminal_outcome_consumed_once loadAny
      ⟨some "default",
        some ⟨[.string [4, 2, 0, 0, 0, 111, 107],
          .string [3, 0, 0, 0, 0, 0, 0, 240, 63], .thread 0], []⟩,
        Status.SUCCESS⟩ (Or.inl rfl)).1 2 []
      ⟨⟨some "default", none, Status.DESTROYED⟩,
          [.string [111, 107], .number 4607182418800017408], some 2⟩
      (by decide)).2.2⟩

/-! ## Reachable states of a task -/

theorem thread_create_returns (env : CreateEnv) (pool : String) (func : LuaValue)
    (ud : ThreadState) (h : ngx_http_resty_threadpool_thread_create env pool func = ⟨some ud, .ok ()⟩) :
    ud.status = Status.CREATED := by
  unfold ngx_http_resty_threadpool_thread_create at h
  split_ifs at h
  all_goals first
    | (simp at h; done)
    | (split at h
       · simp at h
       · simp only [CreateResult.mk.injEq, Option.some.injEq, and_true] at h
         rw [← h]
       · simp at h)

theorem destroyed_has_no_state (load : List Nat → Option (List Nat)) (s : System)
    (h : Reachable load s) : s.ud.status = Status.DESTROYED → s.ud.L = none := by
  induction h with
  | create env pool func ud hc =>
    intro hd
    rw [thread_create_returns env pool func ud hc] at hd
    cases hd
  | collected env pool func ud msg _ =>
    intro _
    rfl
  | step s t _ hstep ih =>
    cases hstep with
    | resume env co =>
      simp only [thread_resume_ud]
      exact ih
    | pickup pre post p ud1 _ _ hp =>
      intro hd
      rw [(task_handler_pickup_returns load s.ud ud1 hp).2.1] at hd
      cases hd
    | run pre post p r ud1 nres _ _ hr =>
      intro hd
      rw [(task_handler_run_returns r s.ud ud1 nres hr).1] at hd
      cases r <;> cases hd
    | event pre post p luactx res _ _ he =>
      intro hd
      obtain ⟨⟨L, hL⟩, hres⟩ :=
        thread_event_handler_returns load luactx s.ud p.nres p.co res he
      rcases hres with ⟨hres, _⟩ | ⟨_, _, _, hst, _, _⟩
      · rw [hres]
      · simp only at hd
        rw [hst] at hd
        rw [ih hd] at hL
        cases hL
    | close =>
      intro _
      rfl

/-- C8: in every state reachable through `create`, `resume`, the worker
handler, the completion handler and `close`, a task whose status is
`DESTROYED` has no worker state, and no call moves a `DESTROYED` task that has
no outstanding posting to another status. -/
theorem destroyed_invariant (load : List Nat → Option (List Nat)) (s : System)
    (h : Reachable load s) :
    (s.ud.status = Status.DESTROYED → s.ud.L = none)
      ∧ ∀ t, s.ud.status = Status.DESTROYED → s.postings = [] → Step load s t →
          t.ud.status = Status.DESTROYED := by
  refine ⟨destroyed_has_no_state load s h, ?_⟩
  intro t hd hp hstep
  cases hstep with
  | resume env co =>
    simp only [thread_resume_ud]
    exact hd
  | pickup pre post p ud1 hpre _ _ =>
    rw [hp] at hpre
    simp at hpre
  | run pre post p r ud1 nres hpre _ _ =>
    rw [hp] at hpre
    simp at hpre
  | event pre post p luactx res hpre _ _ =>
    rw [hp] at hpre
    simp at hpre
  | close => rfl

theorem reachable_freshHandle : Reachable loadAny ⟨freshHandle, []⟩ :=
  Reachable.create ⟨["default"], true⟩ "default" workClosure freshHandle
    thread_create_workClosure

/-- Witness of `destroyed_invariant`: the task `freshHandle` closed right
after `create`; a further `close` leaves it `DESTROYED`. -/
theorem destroyed_invariant_witness :
    Reachable loadAny ⟨⟨some "default", none, Status.DESTROYED⟩, []⟩
      ∧ ((⟨some "default", none, Status.DESTROYED⟩ : ThreadState).status
            = Status.DESTROYED →
          (⟨some "default", none, Status.DESTROYED⟩ : ThreadState).L = none)
      ∧ (ngx_http_resty_threadpool_thread_close ⟨some "default", none, Status.DESTROYED⟩).1.status
          = Status.DESTROYED :=
  ⟨Reachable.step _ _ reachable_freshHandle (Step.close ⟨freshHandle, []⟩),
    (destroyed_invariant loadAny ⟨⟨some "default", none, Status.DESTROYED⟩, []⟩
      (Reachable.step _ _ reachable_freshHandle (Step.close ⟨freshHandle, []⟩))).1,
    (destroyed_invariant loadAny ⟨⟨some "default", none, Status.DESTROYED⟩, []⟩
      (Reachable.step _ _ reachable_freshHandle (Step.close ⟨freshHandle, []⟩))).2
      _ rfl rfl (Step.close ⟨⟨some "default", none, Status.DESTROYED⟩, []⟩)⟩

/-- C9 (broken by the code): `resume` looks at the status only, which posting
leaves unchanged.  After `create`, a second `resume` is accepted while the
first posting still waits in the queue: two postings are outstanding.  A worker
then picks up the first, the work suspends, and a worker picks up the second:
the task is `RUNNING` a second time while the completion event of the first
posting has not been processed.  Had the second worker come while the first
was still running the work, it would have violated the assertion of the
handler that a task picked up is `CREATED` or `YIELDED`. -/
theorem two_postings_outstanding :
    Reachable loadAny ⟨freshHandle, [queuedPosting, queuedPosting]⟩
      ∧ Reachable loadAny
          ⟨resumedHandle, [⟨Stage.completed, 0, []⟩, ⟨Stage.running, 0, []⟩]⟩
      ∧ Reachable loadAny ⟨pickedHandle, [⟨Stage.running, 0, []⟩, queuedPosting]⟩
      ∧ ngx_http_resty_threadpool_task_handler_pickup loadAny pickedHandle
          = .raise "assertion failed: status == LUA_THREADPOOL_TASK_YIELDED" := by
  have s1 : Reachable loadAny ⟨freshHandle, [queuedPosting]⟩ :=
    Reachable.step _ _ reachable_freshHandle
      (Step.resume ⟨freshHandle, []⟩ resumeAllowed [])
  have s2 : Reachable loadAny ⟨freshHandle, [queuedPosting, queuedPosting]⟩ :=
    Reachable.step _ _ s1 (Step.resume ⟨freshHandle, [queuedPosting]⟩ resumeAllowed [])
  have s3 : Reachable loadAny ⟨pickedHandle, [⟨Stage.running, 0, []⟩, queuedPosting]⟩ :=
    Reachable.step _ _ s2
      (Step.pickup ⟨freshHandle, [queuedPosting, queuedPosting]⟩ [] [queuedPosting]
        queuedPosting pickedHandle rfl rfl task_handler_pickup_freshHandle)
  have s4 : Reachable loadAny
      ⟨suspendedHandle, [⟨Stage.completed, 0, []⟩, queuedPosting]⟩ :=
    Reachable.step _ _ s3
      (Step.run ⟨pickedHandle, [⟨Stage.running, 0, []⟩, queuedPosting]⟩ [] [queuedPosting]
        ⟨Stage.running, 0, []⟩ (.yielded []) suspendedHandle 0 rfl rfl (by decide))
  have s5 : Reachable loadAny
      ⟨resumedHandle, [⟨Stage.completed, 0, []⟩, ⟨Stage.running, 0, []⟩]⟩ :=
    Reachable.step _ _ s4
      (Step.pickup ⟨suspendedHandle, [⟨Stage.completed, 0, []⟩, queuedPosting]⟩
        [⟨Stage.completed, 0, []⟩] [] queuedPosting resumedHandle rfl rfl (by decide))
  exact ⟨s2, s5, s3, by decide⟩

/-! ## The recursion budget of the decoder -/

theorem checkbuffer_false_le (cur endp n : Nat) (h : ¬ checkbuffer cur endp n = true) :
    cur + n ≤ endp := by
  simp only [checkbuffer, decide_eq_true_eq] at h
  omega

/-- What a successful call of `decodevalue` did, by the tag it read. -/
theorem decodevalue_ok (load : List Nat → Option (List Nat)) (mem : List Nat)
    (f buf endp : Nat) (L : List LuaValue) (buf1 : Nat) (L1 : List LuaValue)
    (h : decodevalue load mem (f + 1) buf endp L = .ok (buf1, L1)) :
    buf + 1 ≤ endp
      ∧ ((readByte mem buf = LUA_TNIL ∧ buf1 = buf + 1 ∧ L1 = .nil :: L)
        ∨ (readByte mem buf = LUA_TBOOLEAN ∧ buf + 1 + 1 ≤ endp ∧ buf1 = buf + 1 + 1
            ∧ L1 = .boolean (readByte mem (buf + 1) != 0) :: L)
        ∨ (readByte mem buf = LUA_TNUMBER ∧ buf + 1 + sizeof_lua_Number ≤ endp
            ∧ buf1 = buf + 1 + sizeof_lua_Number
            ∧ L1 = .number (leVal (readBytes mem (buf + 1) sizeof_lua_Number)) :: L)
        ∨ (readByte mem buf = LUA_TSTRING ∧ buf + 1 + sizeof_uint32_t ≤ endp
            ∧ ∃ n, n = leVal (readBytes mem (buf + 1) sizeof_uint32_t)
              ∧ buf + 1 + sizeof_uint32_t + n ≤ endp
              ∧ buf1 = buf + 1 + sizeof_uint32_t + n
              ∧ L1 = .string (readBytes mem (buf + 1 + sizeof_uint32_t) n) :: L)
        ∨ (readByte mem buf = LUA_TTABLE ∧ buf + 1 + 1 ≤ endp
            ∧ decodeentries load mem f (buf + 1) endp (.table false .none :: L)
                = .ok (buf1, L1))
        ∨ (readByte mem buf = LUA_TFUNCTION ∧ buf + 1 + sizeof_uint32_t ≤ endp
            ∧ ∃ n dump, n = leVal (readBytes mem (buf + 1) sizeof_uint32_t)
              ∧ buf + 1 + sizeof_uint32_t + n ≤ endp
              ∧ load (readBytes mem (buf + 1 + sizeof_uint32_t) n) = some dump
              ∧ buf1 = buf + 1 + sizeof_uint32_t + n
              ∧ L1 = .lfunction 0 dump :: L)) := by
  simp only [decodevalue] at h
  by_cases c0 : checkbuffer buf endp 1 = true
  · rw [if_pos c0] at h
    cases h
  rw [if_neg c0] at h
  refine ⟨checkbuffer_false_le _ _ _ c0, ?_⟩
  by_cases t0 : readByte mem buf = LUA_TNIL
  · rw [if_pos t0] at h
    simp only [Outcome.ok.injEq, Prod.mk.injEq] at h
    exact Or.inl ⟨t0, h.1.symm, h.2.symm⟩
  rw [if_neg t0] at h
  by_cases t1 : readByte mem buf = LUA_TBOOLEAN
  · rw [if_pos t1] at h
    by_cases c1 : checkbuffer (buf + 1) endp 1 = true
    · rw [if_pos c1] at h
      cases h
    rw [if_neg c1] at h
    simp only [Outcome.ok.injEq, Prod.mk.injEq] at h
    exact Or.inr (Or.inl ⟨t1, checkbuffer_false_le _ _ _ c1, h.1.symm, h.2.symm⟩)
  rw [if_neg t1] at h
  by_cases t3 : readByte mem buf = LUA_TNUMBER
  · rw [if_pos t3] at h
    by_cases c1 : checkbuffer (buf + 1) endp sizeof_lua_Number = true
    · rw [if_pos c1] at h
      cases h
    rw [if_neg c1] at h
    simp only [Outcome.ok.injEq, Prod.mk.injEq] at h
    exact Or.inr (Or.inr (Or.inl ⟨t3, checkbuffer_false_le _ _ _ c1, h.1.symm, h.2.symm⟩))
  rw [if_neg t3] at h
  by_cases t4 : readByte mem buf = LUA_TSTRING
  · rw [if_pos t4] at h
    by_cases c1 : checkbuffer (buf + 1) endp sizeof_uint32_t = true
    · rw [if_pos c1] at h
      cases h
    rw [if_neg c1] at h
    by_cases c2 : checkbuffer (buf + 1 + sizeof_uint32_t) endp
        (leVal (readBytes mem (buf + 1) sizeof_uint32_t)) = true
    · rw [if_pos c2] at h
      cases h
    rw [if_neg c2] at h
    simp only [Outcome.ok.injEq, Prod.mk.injEq] at h
    exact Or.inr (Or.inr (Or.inr (Or.inl ⟨t4, checkbuffer_false_le _ _ _ c1, _, rfl,
      checkbuffer_false_le _ _ _ c2, h.1.symm, h.2.symm⟩)))
  rw [if_neg t4] at h
  by_cases t5 : readByte mem buf = LUA_TTABLE
  · rw [if_pos t5] at h
    by_cases c1 : checkbuffer (buf + 1) endp 1 = true
    · rw [if_pos c1] at h
      cases h
    rw [if_neg c1] at h
    exact Or.inr (Or.inr (Or.inr (Or.inr (Or.inl
      ⟨t5, checkbuffer_false_le _ _ _ c1, h⟩))))
  rw [if_neg t5] at h
  by_cases t6 : readByte mem buf = LUA_TFUNCTION
  · rw [if_pos t6] at h
    by_cases c1 : checkbuffer (buf + 1) endp sizeof_uint32_t = true
    · rw [if_pos c1] at h
      cases h
    rw [if_neg c1] at h
    by_cases c2 : checkbuffer (buf + 1 + sizeof_uint32_t) endp
        (leVal (readBytes mem (buf + 1) sizeof_uint32_t)) = true
    · rw [if_pos c2] at h
      cases h
    rw [if_neg c2] at h
    cases hl : load (readBytes mem (buf + 1 + sizeof_uint32_t)
        (leVal (readBytes mem (buf + 1) sizeof_uint32_t))) with
    | none =>
      rw [hl] at h
      cases h
    | some dump =>
      rw [hl] at h
      simp only [Outcome.ok.injEq, Prod.mk.injEq] at h
      exact Or.inr (Or.inr (Or.inr (Or.inr (Or.inr ⟨t6, checkbuffer_false_le _ _ _ c1,
        _, dump, rfl, checkbuffer_false_le _ _ _ c2, hl, h.1.symm, h.2.symm⟩))))
  rw [if_neg t6] at h
  cases h

/-- What a successful call of the loop of `decodevalue` did: it met the
terminator, or it decoded a key and a value, stored them and went on. -/
theorem decodeentries_ok (load : List Nat → Option (List Nat)) (mem : List Nat)
    (f buf endp : Nat) (L : List LuaValue) (buf1 : Nat) (L1 : List LuaValue)
    (h : decodeentries load mem (f + 1) buf endp L = .ok (buf1, L1)) :
    (readByte mem buf = LUA_TNIL ∧ buf1 = buf + 1 ∧ L1 = L)
      ∨ (readByte mem buf ≠ LUA_TNIL
          ∧ ∃ bufk Lk bufv Lv Ls,
              decodevalue load mem f buf endp L = .ok (bufk, Lk)
                ∧ bufk + 1 ≤ endp
                ∧ decodevalue load mem f bufk endp Lk = .ok (bufv, Lv)
                ∧ bufv + 1 ≤ endp
                ∧ lua_settable Lv = .ok Ls
                ∧ decodeentries load mem f bufv endp Ls = .ok (buf1, L1)) := by
  simp only [decodeentries] at h
  by_cases t0 : readByte mem buf = LUA_TNIL
  · rw [if_neg (not_not.mpr t0)] at h
    simp only [Outcome.ok.injEq, Prod.mk.injEq] at h
    exact Or.inl ⟨t0, h.1.symm, h.2.symm⟩
  rw [if_pos t0] at h
  refine Or.inr ⟨t0, ?_⟩
  cases hk : decodevalue load mem f buf endp L with
  | fuel => rw [hk] at h; cases h
  | raise msg => rw [hk] at h; cases h
  | ok rk =>
    obtain ⟨bufk, Lk⟩ := rk
    rw [hk] at h
    simp only at h
    by_cases ck : checkbuffer bufk endp 1 = true
    · rw [if_pos ck] at h
      cases h
    rw [if_neg ck] at h
    cases hv : decodevalue load mem f bufk endp Lk with
    | fuel => rw [hv] at h; cases h
    | raise msg => rw [hv] at h; cases h
    | ok rv =>
      obtain ⟨bufv, Lv⟩ := rv
      rw [hv] at h
      simp only at h
      by_cases cv : checkbuffer bufv endp 1 = true
      · rw [if_pos cv] at h
        cases h
      rw [if_neg cv] at h
      cases hs : lua_settable Lv with
      | fuel => rw [hs] at h; cases h
      | raise msg => rw [hs] at h; cases h
      | ok Ls =>
        rw [hs] at h
        exact ⟨bufk, Lk, bufv, Lv, Ls, rfl, checkbuffer_false_le _ _ _ ck, hv,
          checkbuffer_false_le _ _ _ cv, hs, h⟩

theorem decode_cursor (load : List Nat → Option (List Nat)) (mem : List Nat) :
    ∀ fuel : Nat,
      (∀ buf endp L buf1 L1, decodevalue load mem fuel buf endp L = .ok (buf1, L1) →
          buf < buf1 ∧ buf1 ≤ endp)
        ∧ (∀ buf endp L buf1 L1, buf + 1 ≤ endp →
            decodeentries load mem fuel buf endp L = .ok (buf1, L1) →
            buf < buf1 ∧ buf1 ≤ endp) := by
  intro fuel
  induction fuel with
  | zero =>
    constructor
    · intro buf endp L buf1 L1 h
      simp [decodevalue] at h
    · intro buf endp L buf1 L1 _ h
      simp [decodeentries] at h
  | succ f ih =>
    obtain ⟨ihv, ihe⟩ := ih
    constructor
    · intro buf endp L buf1 L1 h
      obtain ⟨b0, hc⟩ := decodevalue_ok load mem f buf endp L buf1 L1 h
      rcases hc with ⟨_, h1, _⟩ | ⟨_, h0, h1, _⟩ | ⟨_, h0, h1, _⟩
        | ⟨_, _, n, _, h0, h1, _⟩ | ⟨_, h0, he⟩ | ⟨_, _, n, d, _, h0, _, h1, _⟩
      · omega
      · omega
      · omega
      · omega
      · have r := ihe _ _ _ _ _ h0 he
        omega
      · omega
    · intro buf endp L buf1 L1 hb h
      rcases decodeentries_ok load mem f buf endp L buf1 L1 h with
        ⟨_, h1, _⟩ | ⟨_, bufk, Lk, bufv, Lv, Ls, hk, bk, hv, bv, _, hr⟩
      · omega
      · have pk := ihv _ _ _ _ _ hk
        have pv := ihv _ _ _ _ _ hv
        have pr := ihe _ _ _ _ _ bv hr
        omega

theorem lua_settable_ne_fuel (L : List LuaValue) : lua_settable L ≠ .fuel := by
  unfold lua_settable
  split
  · split
    · intro hs; cases hs
    · split_ifs <;> intro hs <;> cases hs
    · intro hs; cases hs
  · intro hs; cases hs

theorem decodevalue_fuel_inv (load : List Nat → Option (List Nat)) (mem : List Nat)
    (f buf endp : Nat) (L : List LuaValue)
    (h : decodevalue load mem (f + 1) buf endp L = .fuel) :
    buf + 1 + 1 ≤ endp
      ∧ decodeentries load mem f (buf + 1) endp (.table false .none :: L) = .fuel := by
  simp only [decodevalue] at h
  by_cases c0 : checkbuffer buf endp 1 = true
  · rw [if_pos c0] at h
    cases h
  rw [if_neg c0] at h
  by_cases t0 : readByte mem buf = LUA_TNIL
  · rw [if_pos t0] at h
    cases h
  rw [if_neg t0] at h
  by_cases t1 : readByte mem buf = LUA_TBOOLEAN
  · rw [if_pos t1] at h
    split_ifs at h
  rw [if_neg t1] at h
  by_cases t3 : readByte mem buf = LUA_TNUMBER
  · rw [if_pos t3] at h
    split_ifs at h
  rw [if_neg t3] at h
  by_cases t4 : readByte mem buf = LUA_TSTRING
  · rw [if_pos t4] at h
    split_ifs at h
  rw [if_neg t4] at h
  by_cases t5 : readByte mem buf = LUA_TTABLE
  · rw [if_pos t5] at h
    by_cases c1 : checkbuffer (buf + 1) endp 1 = true
    · rw [if_pos c1] at h
      cases h
    rw [if_neg c1] at h
    exact ⟨checkbuffer_false_le _ _ _ c1, h⟩
  rw [if_neg t5] at h
  by_cases t6 : readByte mem buf = LUA_TFUNCTION
  · rw [if_pos t6] at h
    split_ifs at h
    split at h <;> cases h
  rw [if_neg t6] at h
  cases h

theorem decodeentries_fuel_inv (load : List Nat → Option (List Nat)) (mem : List Nat)
    (f buf endp : Nat) (L : List LuaValue)
    (h : decodeentries load mem (f + 1) buf endp L = .fuel) :
    decodevalue load mem f buf endp L = .fuel
      ∨ (∃ bufk Lk, decodevalue load mem f buf endp L = .ok (bufk, Lk)
          ∧ bufk + 1 ≤ endp
          ∧ (decodevalue load mem f bufk endp Lk = .fuel
            ∨ ∃ bufv Lv Ls, decodevalue load mem f bufk endp Lk = .ok (bufv, Lv)
                ∧ bufv + 1 ≤ endp
                ∧ decodeentries load mem f bufv endp Ls = .fuel)) := by
  simp only [decodeentries] at h
  by_cases t0 : readByte mem buf = LUA_TNIL
  · rw [if_neg (not_not.mpr t0)] at h
    cases h
  rw [if_pos t0] at h
  cases hk : decodevalue load mem f buf endp L with
  | fuel => exact Or.inl rfl
  | raise msg => rw [hk] at h; cases h
  | ok rk =>
    obtain ⟨bufk, Lk⟩ := rk
    rw [hk] at h
    simp only at h
    by_cases ck : checkbuffer bufk endp 1 = true
    · rw [if_pos ck] at h
      cases h
    rw [if_neg ck] at h
    refine Or.inr ⟨bufk, Lk, rfl, checkbuffer_false_le _ _ _ ck, ?_⟩
    cases hv : decodevalue load mem f bufk endp Lk with
    | fuel => exact Or.inl rfl
    | raise msg => rw [hv] at h; cases h
    | ok rv =>
      obtain ⟨bufv, Lv⟩ := rv
      rw [hv] at h
      simp only at h
      by_cases cv : checkbuffer bufv endp 1 = true
      · rw [if_pos cv] at h
        cases h
      rw [if_neg cv] at h
      cases hs : lua_settable Lv with
      | fuel => exact absurd hs (lua_settable_ne_fuel Lv)
      | raise msg => rw [hs] at h; cases h
      | ok Ls =>
        rw [hs] at h
        exact Or.inr ⟨bufv, Lv, Ls, rfl, checkbuffer_false_le _ _ _ cv, h⟩

theorem decode_fuel (load : List Nat → Option (List Nat)) (mem : List Nat) :
    ∀ fuel : Nat,
      (∀ buf endp L, 2 * (endp - buf) + 1 ≤ fuel →
          decodevalue load mem fuel buf endp L ≠ .fuel)
        ∧ (∀ buf endp L, buf + 1 ≤ endp → 2 * (endp - buf) + 2 ≤ fuel →
            decodeentries load mem fuel buf endp L ≠ .fuel) := by
  intro fuel
  induction fuel with
  | zero =>
    constructor
    · intro buf endp L hf
      omega
    · intro buf endp L _ hf
      omega
  | succ f ih =>
    obtain ⟨ihv, ihe⟩ := ih
    constructor
    · intro buf endp L hf h
      obtain ⟨b1, he⟩ := decodevalue_fuel_inv load mem f buf endp L h
      exact ihe _ _ _ b1 (by omega) he
    · intro buf endp L hb hf h
      rcases decodeentries_fuel_inv load mem f buf endp L h with
        hk | ⟨bufk, Lk, hk, bk, hv | ⟨bufv, Lv, Ls, hv, bv, hr⟩⟩
      · exact ihv _ _ _ (by omega) hk
      · have pk := (decode_cursor load mem f).1 _ _ _ _ _ hk
        exact ihv _ _ _ (by omega) hv
      · have pk := (decode_cursor load mem f).1 _ _ _ _ _ hk
        have pv := (decode_cursor load mem f).1 _ _ _ _ _ hv
        exact ihe _ _ _ bv (by omega) hr

/-- The recursion budget of `luaser_decode` is never exhausted: on every
buffer the decoder returns a value or raises a Lua error. -/
theorem luaser_decode_fuel (load : List Nat → Option (List Nat)) (L : List LuaValue)
    (mem : List Nat) (len : Nat) : luaser_decode load L mem len ≠ .fuel := by
  intro h
  unfold luaser_decode at h
  cases hd : decodevalue load mem (2 * len + 1) 0 len L with
  | fuel => exact (decode_fuel load mem (2 * len + 1)).1 0 len L (by omega) hd
  | raise msg => rw [hd] at h; cases h
  | ok r =>
    obtain ⟨b, L1⟩ := r
    rw [hd] at h
    cases h

/-! ## The buffer when the encoder raises -/

mutual
theorem encodevalue_extends (v : LuaValue) (buf : List Nat) :
    (∀ out, encodevalue v buf = .ok out → ∃ t, out = buf ++ t)
      ∧ (∀ e, encodevalue v buf = .error e → ∃ t, e.buf = buf ++ t) := by
  cases v with
  | nil => simp [encodevalue]
  | boolean b => simp [encodevalue]
  | number n => simp [encodevalue]
  | string s =>
    by_cases h : s.length > UINT32_MAX
    · simp [encodevalue, h]
    · simp [encodevalue, h]
  | table metatable entries =>
    cases metatable with
    | true => simp [encodevalue]
    | false =>
      obtain ⟨h1, h2⟩ := encodeentries_extends entries (buf ++ [LUA_TTABLE])
      constructor
      · intro out h
        simp only [encodevalue, Bool.false_eq_true, if_false] at h
        cases he : encodeentries entries (buf ++ [LUA_TTABLE]) with
        | error e =>
          rw [he] at h
          cases h
        | ok out1 =>
          rw [he] at h
          obtain ⟨t, ht⟩ := h1 out1 he
          injection h with h
          subst h
          exact ⟨LUA_TTABLE :: (t ++ [LUA_TNIL]), by simp [ht]⟩
      · intro e1 h
        simp only [encodevalue, Bool.false_eq_true, if_false] at h
        cases he : encodeentries entries (buf ++ [LUA_TTABLE]) with
        | error e =>
          rw [he] at h
          obtain ⟨t, ht⟩ := h2 e he
          injection h with h
          subst h
          exact ⟨LUA_TTABLE :: t, by simp [ht]⟩
        | ok out1 =>
          rw [he] at h
          cases h
  | lfunction nups dump =>
    by_cases h : nups > 0
    · simp [encodevalue, h]
    · simp [encodevalue, h]
  | lightuserdata p => simp [encodevalue]
  | cfunction p => simp [encodevalue]
  | userdata p => simp [encodevalue]
  | thread p => simp [encodevalue]
theorem encodeentries_extends (es : Entries) (buf : List Nat) :
    (∀ out, encodeentries es buf = .ok out → ∃ t, out = buf ++ t)
      ∧ (∀ e, encodeentries es buf = .error e → ∃ t, e.buf = buf ++ t) := by
  cases es with
  | none => simp [encodeentries]
  | more key value rest =>
    obtain ⟨k1, k2⟩ := encodevalue_extends key buf
    cases hk : encodevalue key buf with
    | error e =>
      constructor
      · intro out h
        simp only [encodeentries, hk] at h
        cases h
      · intro e1 h
        simp only [encodeentries, hk] at h
        injection h with h
        subst h
        exact k2 e hk
    | ok buf1 =>
      obtain ⟨t1, ht1⟩ := k1 buf1 hk
      obtain ⟨v1, v2⟩ := encodevalue_extends value buf1
      cases hv : encodevalue value buf1 with
      | error e =>
        constructor
        · intro out h
          simp only [encodeentries, hk, hv] at h
          cases h
        · intro e1 h
          simp only [encodeentries, hk, hv] at h
          injection h with h
          subst h
          obtain ⟨t2, ht2⟩ := v2 e hv
          exact ⟨t1 ++ t2, by simp [ht2, ht1]⟩
      | ok buf2 =>
        obtain ⟨t2, ht2⟩ := v1 buf2 hv
        obtain ⟨r1, r2⟩ := encodeentries_extends rest buf2
        constructor
        · intro out h
          simp only [encodeentries, hk, hv] at h
          obtain ⟨t3, ht3⟩ := r1 out h
          exact ⟨t1 ++ t2 ++ t3, by simp [ht3, ht2, ht1]⟩
        · intro e1 h
          simp only [encodeentries, hk, hv] at h
          obtain ⟨t3, ht3⟩ := r2 e1 h
          exact ⟨t1 ++ t2 ++ t3, by simp [ht3, ht2, ht1]⟩
end

theorem leBytes_mod (k n : Nat) : leBytes k (n % 256 ^ k) = leBytes k n := by
  induction k generalizing n with
  | zero => rfl
  | succ k ih =>
    have h1 : n % 256 ^ (k + 1) % 256 = n % 256 :=
      Nat.mod_mod_of_dvd n (Dvd.intro_left (256 ^ k) rfl)
    have h2 : n % 256 ^ (k + 1) / 256 = n / 256 % 256 ^ k := by
      rw [pow_succ, Nat.mul_comm]
      exact Nat.mod_mul_right_div_self n 256 (256 ^ k)
    simp only [leBytes, h1, h2, ih]

theorem leBytes_uint32 (n : Nat) :
    leBytes sizeof_uint32_t (n % 2 ^ 32) = leBytes sizeof_uint32_t n :=
  leBytes_mod 4 n

/-! ## The destination stack of the decoder -/

theorem lua_settable_pops (v k x : LuaValue) (L Ls : List LuaValue)
    (h : lua_settable (v :: k :: x :: L) = .ok Ls) : ∃ x1, Ls = x1 :: L := by
  cases x with
  | table metatable entries =>
    simp only [lua_settable] at h
    split at h
    · cases h
    · split_ifs at h
      injection h with h
      exact ⟨_, h.symm⟩
    · injection h with h
      exact ⟨_, h.symm⟩
  | nil => simp [lua_settable] at h
  | boolean _ => simp [lua_settable] at h
  | lightuserdata _ => simp [lua_settable] at h
  | number _ => simp [lua_settable] at h
  | string _ => simp [lua_settable] at h
  | cfunction _ => simp [lua_settable] at h
  | lfunction _ _ => simp [lua_settable] at h
  | userdata _ => simp [lua_settable] at h
  | thread _ => simp [lua_settable] at h

theorem decode_stack (load : List Nat → Option (List Nat)) (mem : List Nat) :
    ∀ fuel : Nat,
      (∀ buf endp L buf1 L1, decodevalue load mem fuel buf endp L = .ok (buf1, L1) →
          ∃ v, L1 = v :: L)
        ∧ (∀ buf endp x L buf1 L1,
            decodeentries load mem fuel buf endp (x :: L) = .ok (buf1, L1) →
            ∃ x1, L1 = x1 :: L) := by
  intro fuel
  induction fuel with
  | zero =>
    constructor
    · intro buf endp L buf1 L1 h
      simp [decodevalue] at h
    · intro buf endp x L buf1 L1 h
      simp [decodeentries] at h
  | succ f ih =>
    obtain ⟨ihv, ihe⟩ := ih
    constructor
    · intro buf endp L buf1 L1 h
      obtain ⟨_, hc⟩ := decodevalue_ok load mem f buf endp L buf1 L1 h
      rcases hc with ⟨_, _, h1⟩ | ⟨_, _, _, h1⟩ | ⟨_, _, _, h1⟩
        | ⟨_, _, n, _, _, _, h1⟩ | ⟨_, _, he⟩ | ⟨_, _, n, d, _, _, _, _, h1⟩
      · exact ⟨_, h1⟩
      · exact ⟨_, h1⟩
      · exact ⟨_, h1⟩
      · exact ⟨_, h1⟩
      · exact ihe _ _ _ _ _ _ he
      · exact ⟨_, h1⟩
    · intro buf endp x L buf1 L1 h
      rcases decodeentries_ok load mem f buf endp (x :: L) buf1 L1 h with
        ⟨_, _, h1⟩ | ⟨_, bufk, Lk, bufv, Lv, Ls, hk, _, hv, _, hs, hr⟩
      · exact ⟨x, h1⟩
      · obtain ⟨k, rfl⟩ := ihv _ _ _ _ _ hk
        obtain ⟨v, rfl⟩ := ihv _ _ _ _ _ hv
        obtain ⟨x1, rfl⟩ := lua_settable_pops v k x L Ls hs
        exact ihe _ _ _ _ _ _ hr

/-- C16: whenever `luaser_decode` succeeds, whatever the destination stack
held before, the stack afterwards is the stack before with exactly one value
pushed on top: the keys and values of tables decoded on the way are gone into
their table, and nothing below the new top has changed. -/
theorem luaser_decode_pushes_one (load : List Nat → Option (List Nat))
    (L : List LuaValue) (mem : List Nat) (len : Nat) (L1 : List LuaValue)
    (h : luaser_decode load L mem len = .ok L1) : ∃ v, L1 = v :: L := by
  unfold luaser_decode at h
  cases hd : decodevalue load mem (2 * len + 1) 0 len L with
  | fuel => rw [hd] at h; cases h
  | raise msg => rw [hd] at h; cases h
  | ok r =>
    obtain ⟨b, L2⟩ := r
    rw [hd] at h
    simp only [Outcome.ok.injEq] at h
    subst h
    exact (decode_stack load mem (2 * len + 1)).1 _ _ _ _ _ hd

/-- Witness of `luaser_decode_pushes_one`: a buffer that holds a table with
one nested table, decoded onto a stack that holds two values. -/
theorem luaser_decode_pushes_one_witness :
    luaser_decode loadAny [.boolean false, .string [120]]
        [5, 4, 1, 0, 0, 0, 107, 5, 1, 1, 1, 1, 0, 0] 14
      = .ok [.table false (.more (.string [107])
          (.table false (.more (.boolean true) (.boolean true) .none)) .none),
          .boolean false, .string [120]]
      ∧ ∃ v, [LuaValue.table false (.more (.string [107])
          (.table false (.more (.boolean true) (.boolean true) .none)) .none),
          .boolean false, .string [120]] = v :: [.boolean false, .string [120]] :=
  ⟨by decide,
    luaser_decode_pushes_one loadAny [.boolean false, .string [120]]
      [5, 4, 1, 0, 0, 0, 107, 5, 1, 1, 1, 1, 0, 0] 14 _ (by decide)⟩

/-! ## Decoding and encoding as inverses -/

/-- C15 (counterexample): the buffer that holds the boolean tag and the byte 2
decodes to `true`, whose encoding is the boolean tag and the byte 1: encoding
the decoded value does not give the buffer back, and two distinct buffers
decode to the same value. -/
theorem decode_is_not_injective :
    luaser_decode loadAny [] [1, 2] 2 = .ok [.boolean true]
      ∧ encodevalue (.boolean true) [] = .ok [1, 1]
      ∧ luaser_decode loadAny [] [1, 1] 2 = .ok [.boolean true] :=
  ⟨by decide, rfl, by decide⟩

/-- C15 (amended): decoding inverts encoding on what the encoder writes.  For
every portable value the encoder succeeds, the decoder run on the bytes
written pushes the value back, whatever the stack holds, and two portable
values with the same encoding are equal. -/
theorem decode_inverts_encode (load : List Nat → Option (List Nat)) (v : LuaValue)
    (hp : portable load v) :
    encodevalue v [] = .ok (encoded v)
      ∧ (∀ L, luaser_decode load L (encoded v) (encoded v).length = .ok (v :: L))
      ∧ ∀ w, portable load w → encoded w = encoded v → w = v := by
  obtain ⟨hw, hs, hd, hl⟩ := hp
  refine ⟨(luaser_decode_encoded load v [] hw hs hd hl).1,
    fun L => (luaser_decode_encoded load v L hw hs hd hl).2, ?_⟩
  intro w ⟨ww, ws, wd, wl⟩ he
  have h1 := (luaser_decode_encoded load w [] ww ws wd wl).2
  have h2 := (luaser_decode_encoded load v [] hw hs hd hl).2
  rw [he, h2] at h1
  simp only [Outcome.ok.injEq, List.cons.injEq, and_true] at h1
  exact h1.symm

/-- Witness of `decode_inverts_encode`: the table that maps the string "k" to
the number 1. -/
theorem decode_inverts_encode_witness :
    portable loadAny (.table false (.more (.string [107])
        (.number 4607182418800017408) .none))
      ∧ luaser_decode loadAny []
          (encoded (.table false (.more (.string [107])
            (.number 4607182418800017408) .none)))
          (encoded (.table false (.more (.string [107])
            (.number 4607182418800017408) .none))).length
        = .ok [.table false (.more (.string [107]) (.number 4607182418800017408) .none)] :=
  ⟨⟨by decide, by decide, by decide, ⟨trivial, trivial, trivial⟩⟩,
    (decode_inverts_encode loadAny (.table false (.more (.string [107])
      (.number 4607182418800017408) .none))
      ⟨by decide, by decide, by decide, ⟨trivial, trivial, trivial⟩⟩).2.1 []⟩

/-! ## A completion event whose request is gone -/

/-- On a task that has its worker state: when the completion handler runs for
a request that has lost its Lua context, then for every status and every
result count it releases the worker state, sets the status to `DESTROYED`,
leaves the stack of the caller's coroutine as it was and runs nothing
again. -/
theorem orphaned_completion_of_state (load : List Nat → Option (List Nat)) (thread : ThreadState)
    (nres : Nat) (co : List LuaValue) (L0 : LuaState) (hL : thread.L = some L0) :
    ngx_http_resty_threadpool_thread_event_handler load false thread nres co
      = .ok ⟨{ thread with L := none, status := Status.DESTROYED }, co, none⟩ := by
  simp [ngx_http_resty_threadpool_thread_event_handler, hL]

theorem reachable_closedHandle :
    Reachable loadAny ⟨closedHandle, [⟨Stage.completed, 0, []⟩]⟩ := by
  have s1 : Reachable loadAny ⟨freshHandle, [queuedPosting]⟩ :=
    Reachable.step _ _ reachable_freshHandle
      (Step.resume ⟨freshHandle, []⟩ resumeAllowed [])
  have s2 : Reachable loadAny ⟨pickedHandle, [⟨Stage.running, 0, []⟩]⟩ :=
    Reachable.step _ _ s1
      (Step.pickup ⟨freshHandle, [queuedPosting]⟩ [] [] queuedPosting pickedHandle
        rfl rfl task_handler_pickup_freshHandle)
  have s3 : Reachable loadAny ⟨finishedHandle, [⟨Stage.completed, 0, []⟩]⟩ :=
    Reachable.step _ _ s2
      (Step.run ⟨pickedHandle, [⟨Stage.running, 0, []⟩]⟩ [] []
        ⟨Stage.running, 0, []⟩ (.finished []) finishedHandle 0 rfl rfl (by decide))
  exact Reachable.step _ _ s3 (Step.close ⟨finishedHandle, [⟨Stage.completed, 0, []⟩]⟩)

/-- C17 (broken by the code on a task closed before its completion event):
after `create`, `resume`, a run of the work that returns, and `close`, the
task is `DESTROYED` without worker state while the completion event of its
posting is still pending; `close` itself skips `lua_close` on such a handle,
but the completion handler, run for a request that has lost its Lua context,
calls `lua_close` on the missing state and does not return, whatever the
result count and the stack of the caller's coroutine.  On a task that has its
worker state the handler does as claimed, for every status. -/
theorem orphaned_completion_after_close :
    Reachable loadAny ⟨closedHandle, [⟨Stage.completed, 0, []⟩]⟩
      ∧ ngx_http_resty_threadpool_thread_close closedHandle = (closedHandle, false)
      ∧ (∀ nres co,
          ngx_http_resty_threadpool_thread_event_handler loadAny false closedHandle nres co
            = .raise "NULL lua_State")
      ∧ ∀ status nres co,
          ngx_http_resty_threadpool_thread_event_handler loadAny false
              { finishedHandle with status := status } nres co
            = .ok ⟨closedHandle, co, none⟩ :=
  ⟨reachable_closedHandle, rfl, fun _ _ => rfl, fun _ _ _ => rfl⟩

/-! ## Closing a task -/

/-- C18: on every handle `close` leaves the status `DESTROYED` and no worker
state, and a second `close` leaves exactly the handle the first one left;
`lua_close` is called by the first `close` when the handle has a worker state
and is not called by the second. -/
theorem close_idempotent (ud : ThreadState) :
    (ngx_http_resty_threadpool_thread_close ud).1.status = Status.DESTROYED
      ∧ (ngx_http_resty_threadpool_thread_close ud).1.L = none
      ∧ (ngx_http_resty_threadpool_thread_close
            (ngx_http_resty_threadpool_thread_close ud).1).1
          = (ngx_http_resty_threadpool_thread_close ud).1
      ∧ ((ngx_http_resty_threadpool_thread_close ud).2 = true ↔ ud.L ≠ none)
      ∧ (ngx_http_resty_threadpool_thread_close
            (ngx_http_resty_threadpool_thread_close ud).1).2 = false := by
  refine ⟨rfl, rfl, rfl, ?_, rfl⟩
  cases h : ud.L <;> simp [ngx_http_resty_threadpool_thread_close, h]

/-! ## Creating a task on a pool that does not exist -/

/-- C19 (counterexample): `create` on the pool "missing", which is not
configured, raises the error of a pool not found and returns no handle, but it
has allocated a task object: the userdata, in `CREATED`, without worker
state. -/
theorem create_unknown_pool_allocates :
    ngx_http_resty_threadpool_thread_create ⟨["default"], true⟩ "missing" workClosure
      = ⟨some ⟨none, none, Status.CREATED⟩, .raise "no pool 'missing' found"⟩ := by
  decide

/-- C19 (amended): for every pool name that is not configured and every work
function, `create` raises the error of a pool not found and returns no handle;
no worker state has been created; the one thing allocated is the userdata of
the handle, in `CREATED`, with no pool and no worker state, which is left to the
collector. -/
theorem create_unknown_pool (env : CreateEnv) (pool : String) (func : LuaValue)
    (hp : ¬ pool ∈ env.pools) (hf : lua_type func = LUA_TFUNCTION) :
    ngx_http_resty_threadpool_thread_create env pool func
      = ⟨some ⟨none, none, Status.CREATED⟩, .raise ("no pool '" ++ pool ++ "' found")⟩ := by
  simp [ngx_http_resty_threadpool_thread_create, hp, hf]

/-- Witness of `create_unknown_pool`: no pool is configured. -/
theorem create_unknown_pool_witness :
    ¬ "default" ∈ ([] : List String) ∧ lua_type workClosure = LUA_TFUNCTION
      ∧ ngx_http_resty_threadpool_thread_create ⟨[], true⟩ "default" workClosure
        = ⟨some ⟨none, none, Status.CREATED⟩,
            .raise ("no pool '" ++ "default" ++ "' found")⟩ :=
  ⟨by decide, rfl,
    create_unknown_pool ⟨[], true⟩ "default" workClosure (by decide) rfl⟩

/-! ## Resuming a suspended task -/

/-- C20: for a task whose run ended `YIELDED`, with the encodings of the
portable values it passed to the yield above the coroutine on the worker
stack, the completion handler, request alive, leaves the status `YIELDED` and
the worker state in place with the same coroutine, only the result strings
being popped; a following `resume` passes the state check and posts the task;
and the next pickup, whatever the loader, sets the status to `RUNNING` and
leaves the worker state as it is: nothing is decoded. -/
theorem suspended_task_keeps_context (load : List Nat → Option (List Nat))
    (thread : ThreadState) (values co : List LuaValue) (t : Nat)
    (hst : thread.status = Status.YIELDED)
    (hL : thread.L = some ⟨encodedResults values ++ [.thread t], []⟩)
    (hp : ∀ v ∈ values, portable load v) :
    ∃ res, ngx_http_resty_threadpool_thread_event_handler load true thread values.length co
          = .ok res
      ∧ res.thread.status = Status.YIELDED
      ∧ res.thread.tp = thread.tp
      ∧ res.thread.L = some ⟨[.thread t], []⟩
      ∧ (values = [] → res.thread = thread)
      ∧ ngx_http_resty_threadpool_thread_resume resumeAllowed res.thread
          = ⟨.ok (), res.thread, true⟩
      ∧ ∀ load1, ngx_http_resty_threadpool_task_handler_pickup load1 res.thread
          = .ok { res.thread with status := Status.RUNNING } := by
  have he := thread_event_handler_delivers load thread values t [] co hL hp
  simp only [hst, false_or, if_false, reduceCtorEq] at he
  refine ⟨_, he, rfl, rfl, rfl, ?_, ?_, ?_⟩
  · intro hv
    subst hv
    simp only [encodedResults, List.map_nil, List.reverse_nil, List.nil_append] at hL
    cases thread
    simp only at hL hst
    simp [hL, hst]
  · simp [ngx_http_resty_threadpool_thread_resume, resumeAllowed]
  · intro load1
    exact task_handler_pickup_suspended load1 _ t rfl rfl

/-- Witness of `suspended_task_keeps_context`: a task that suspended passing
the number 1. -/
theorem suspended_task_keeps_context_witness :
    ∃ res, ngx_http_resty_threadpool_thread_event_handler loadAny true
            ⟨some "default", some ⟨encodedResults [.number 4607182418800017408]
              ++ [.thread 0], []⟩, Status.YIELDED⟩
            [LuaValue.number 4607182418800017408].length []
          = .ok res
      ∧ res.thread.status = Status.YIELDED
      ∧ res.thread.tp = some "default"
      ∧ res.thread.L = some ⟨[.thread 0], []⟩
      ∧ ([LuaValue.number 4607182418800017408] = [] →
          res.thread = ⟨some "default", some ⟨encodedResults [.number 4607182418800017408]
              ++ [.thread 0], []⟩, Status.YIELDED⟩)
      ∧ ngx_http_resty_threadpool_thread_resume resumeAllowed res.thread
          = ⟨.ok (), res.thread, true⟩
      ∧ ∀ load1, ngx_http_resty_threadpool_task_handler_pickup load1 res.thread
          = .ok { res.thread with status := Status.RUNNING } :=
  suspended_task_keeps_context loadAny
    ⟨some "default", some ⟨encodedResults [.number 4607182418800017408]
      ++ [.thread 0], []⟩, Status.YIELDED⟩
    [.number 4607182418800017408] [] 0 rfl rfl
    (by
      intro v hv
      simp only [List.mem_singleton] at hv
      subst hv
      exact ⟨by decide, by decide, by decide, trivial⟩)

/-! ## The decoder stays within the declared length -/

theorem readByte_agree (mem mem1 : List Nat) (buf endp : Nat)
    (h : mem.take endp = mem1.take endp) (hb : buf + 1 ≤ endp) :
    readByte mem1 buf = readByte mem buf := by
  have hlt : buf < endp := by omega
  have h1 : (mem.take endp)[buf]? = mem[buf]? := by
    rw [List.getElem?_take, if_pos hlt]
  have h2 : (mem1.take endp)[buf]? = mem1[buf]? := by
    rw [List.getElem?_take, if_pos hlt]
  simp only [readByte, List.getD_eq_getElem?_getD, ← h1, ← h2, h]

theorem readBytes_agree (mem mem1 : List Nat) (buf n endp : Nat)
    (h : mem.take endp = mem1.take endp) (hb : buf + n ≤ endp) :
    readBytes mem1 buf n = readBytes mem buf n := by
  have key : ∀ l : List Nat, (l.drop buf).take n = ((l.take endp).drop buf).take n := by
    intro l
    rw [List.drop_take, List.take_take, Nat.min_eq_left (by omega)]
  simp only [readBytes]
  rw [key mem, key mem1, h]

theorem decode_agree (load : List Nat → Option (List Nat)) (mem mem1 : List Nat)
    (endp : Nat) (h : mem.take endp = mem1.take endp) :
    ∀ fuel : Nat,
      (∀ buf L, decodevalue load mem1 fuel buf endp L = decodevalue load mem fuel buf endp L)
        ∧ (∀ buf L, buf + 1 ≤ endp →
            decodeentries load mem1 fuel buf endp L
              = decodeentries load mem fuel buf endp L) := by
  intro fuel
  induction fuel with
  | zero =>
    constructor
    · intro buf L
      simp only [decodevalue]
    · intro buf L _
      simp only [decodeentries]
  | succ f ih =>
    obtain ⟨ihv, ihe⟩ := ih
    constructor
    · intro buf L
      simp only [decodevalue]
      by_cases c0 : checkbuffer buf endp 1 = true
      · simp only [c0, if_true]
      have hb := readByte_agree mem mem1 buf endp h (checkbuffer_false_le _ _ _ c0)
      simp only [c0, if_false, hb]
      by_cases t0 : readByte mem buf = LUA_TNIL
      · simp only [t0, if_true]
      simp only [t0, if_false]
      by_cases t1 : readByte mem buf = LUA_TBOOLEAN
      · simp only [if_pos t1]
        by_cases c1 : checkbuffer (buf + 1) endp 1 = true
        · simp only [c1, if_true]
        have hb1 := readByte_agree mem mem1 (buf + 1) endp h (checkbuffer_false_le _ _ _ c1)
        simp only [c1, if_false, hb1]
      simp only [if_neg t1]
      by_cases t3 : readByte mem buf = LUA_TNUMBER
      · simp only [if_pos t3]
        by_cases c1 : checkbuffer (buf + 1) endp sizeof_lua_Number = true
        · simp only [c1, if_true]
        have hr := readBytes_agree mem mem1 (buf + 1) sizeof_lua_Number endp h
          (checkbuffer_false_le _ _ _ c1)
        simp only [c1, if_false, hr]
      simp only [if_neg t3]
      by_cases t4 : readByte mem buf = LUA_TSTRING
      · simp only [if_pos t4]
        by_cases c1 : checkbuffer (buf + 1) endp sizeof_uint32_t = true
        · simp only [c1, if_true]
        have hr := readBytes_agree mem mem1 (buf + 1) sizeof_uint32_t endp h
          (checkbuffer_false_le _ _ _ c1)
        simp only [c1, if_false, hr]
        by_cases c2 : checkbuffer (buf + 1 + sizeof_uint32_t) endp
            (leVal (readBytes mem (buf + 1) sizeof_uint32_t)) = true
        · simp only [c2, if_true]
        have hr2 := readBytes_agree mem mem1 (buf + 1 + sizeof_uint32_t)
          (leVal (readBytes mem (buf + 1) sizeof_uint32_t)) endp h
          (checkbuffer_false_le _ _ _ c2)
        simp only [c2, if_false, hr2]
      simp only [if_neg t4]
      by_cases t5 : readByte mem buf = LUA_TTABLE
      · simp only [if_pos t5]
        by_cases c1 : checkbuffer (buf + 1) endp 1 = true
        · simp only [c1, if_true]
        simp only [c1, if_false]
        exact ihe _ _ (checkbuffer_false_le _ _ _ c1)
      simp only [if_neg t5]
      by_cases t6 : readByte mem buf = LUA_TFUNCTION
      · simp only [if_pos t6]
        by_cases c1 : checkbuffer (buf + 1) endp sizeof_uint32_t = true
        · simp only [c1, if_true]
        have hr := readBytes_agree mem mem1 (buf + 1) sizeof_uint32_t endp h
          (checkbuffer_false_le _ _ _ c1)
        simp only [c1, if_false, hr]
        by_cases c2 : checkbuffer (buf + 1 + sizeof_uint32_t) endp
            (leVal (readBytes mem (buf + 1) sizeof_uint32_t)) = true
        · simp only [c2, if_true]
        have hr2 := readBytes_agree mem mem1 (buf + 1 + sizeof_uint32_t)
          (leVal (readBytes mem (buf + 1) sizeof_uint32_t)) endp h
          (checkbuffer_false_le _ _ _ c2)
        simp only [c2, if_false, hr2]
      simp only [if_neg t6]
    · intro buf L hb
      simp only [decodeentries]
      rw [readByte_agree mem mem1 buf endp h hb, ihv buf L]
      by_cases t0 : readByte mem buf = LUA_TNIL
      · simp only [t0, ne_eq, not_true_eq_false, if_false]
      simp only [ne_eq, t0, not_false_eq_true, if_true]
      cases hk : decodevalue load mem f buf endp L with
      | fuel => rfl
      | raise msg => rfl
      | ok rk =>
        obtain ⟨bufk, Lk⟩ := rk
        simp only
        by_cases ck : checkbuffer bufk endp 1 = true
        · simp only [ck, if_true]
        simp only [ck, if_false]
        rw [ihv bufk Lk]
        cases hv : decodevalue load mem f bufk endp Lk with
        | fuel => rfl
        | raise msg => rfl
        | ok rv =>
          obtain ⟨bufv, Lv⟩ := rv
          simp only
          by_cases cv : checkbuffer bufv endp 1 = true
          · simp only [cv, if_true]
          simp only [cv, if_false]
          cases hs : lua_settable Lv with
          | fuel => rfl
          | raise msg => rfl
          | ok Ls => exact ihe _ _ (checkbuffer_false_le _ _ _ cv)

theorem checkbuffer_eq_true (cur endp n : Nat) (h : endp < cur + n) :
    checkbuffer cur endp n = true := by
  simp [checkbuffer, h]

theorem decodevalue_short (load : List Nat → Option (List Nat)) (mem : List Nat)
    (f buf endp : Nat) (L : List LuaValue) (h : endp < buf + 1 + fieldBytes mem buf) :
    decodevalue load mem (f + 1) buf endp L = .raise "wrong code" := by
  simp only [decodevalue]
  by_cases c0 : checkbuffer buf endp 1 = true
  · simp only [c0, if_true]
  have b0 := checkbuffer_false_le _ _ _ c0
  simp only [c0, if_false]
  unfold fieldBytes at h
  by_cases t1 : readByte mem buf = LUA_TBOOLEAN
  · rw [if_pos t1] at h
    simp [t1, LUA_TBOOLEAN, LUA_TNIL, checkbuffer_eq_true (buf + 1) endp 1 h]
  rw [if_neg t1] at h
  by_cases t3 : readByte mem buf = LUA_TNUMBER
  · rw [if_pos t3] at h
    simp [t3, LUA_TBOOLEAN, LUA_TNIL, LUA_TNUMBER,
      checkbuffer_eq_true (buf + 1) endp sizeof_lua_Number h]
  rw [if_neg t3] at h
  by_cases t4 : readByte mem buf = LUA_TSTRING
  · rw [if_pos (Or.inl t4)] at h
    by_cases c1 : checkbuffer (buf + 1) endp sizeof_uint32_t = true
    · simp [t4, LUA_TBOOLEAN, LUA_TNIL, LUA_TNUMBER, LUA_TSTRING, c1]
    have c2 := checkbuffer_eq_true (buf + 1 + sizeof_uint32_t) endp
      (leVal (readBytes mem (buf + 1) sizeof_uint32_t)) (by omega)
    simp [t4, LUA_TBOOLEAN, LUA_TNIL, LUA_TNUMBER, LUA_TSTRING, c1, c2]
  by_cases t6 : readByte mem buf = LUA_TFUNCTION
  · rw [if_pos (Or.inr t6)] at h
    by_cases c1 : checkbuffer (buf + 1) endp sizeof_uint32_t = true
    · simp [t6, LUA_TBOOLEAN, LUA_TNIL, LUA_TNUMBER, LUA_TSTRING, LUA_TTABLE,
        LUA_TFUNCTION, c1]
    have c2 := checkbuffer_eq_true (buf + 1 + sizeof_uint32_t) endp
      (leVal (readBytes mem (buf + 1) sizeof_uint32_t)) (by omega)
    simp [t6, LUA_TBOOLEAN, LUA_TNIL, LUA_TNUMBER, LUA_TSTRING, LUA_TTABLE,
      LUA_TFUNCTION, c1, c2]
  rw [if_neg (by
    intro hc
    rcases hc with hc | hc
    · exact t4 hc
    · exact t6 hc)] at h
  by_cases t5 : readByte mem buf = LUA_TTABLE
  · rw [if_pos t5] at h
    simp [t5, LUA_TBOOLEAN, LUA_TNIL, LUA_TNUMBER, LUA_TSTRING, LUA_TTABLE,
      checkbuffer_eq_true (buf + 1) endp 1 h]
  rw [if_neg t5] at h
  omega

theorem decodeentries_short (load : List Nat → Option (List Nat)) (mem : List Nat)
    (f buf endp : Nat) (L : List LuaValue) (bufk : Nat) (Lk : List LuaValue)
    (ht : readByte mem buf ≠ LUA_TNIL)
    (hk : decodevalue load mem f buf endp L = .ok (bufk, Lk)) :
    (endp < bufk + 1 → decodeentries load mem (f + 1) buf endp L = .raise "wrong code")
      ∧ ∀ bufv Lv, decodevalue load mem f bufk endp Lk = .ok (bufv, Lv) →
          endp < bufv + 1 →
          decodeentries load mem (f + 1) buf endp L = .raise "wrong code" := by
  constructor
  · intro h
    simp [decodeentries, ht, hk, checkbuffer_eq_true bufk endp 1 h]
  · intro bufv Lv hv h
    by_cases ck : checkbuffer bufk endp 1 = true
    · simp [decodeentries, ht, hk, ck]
    simp [decodeentries, ht, hk, ck, hv, checkbuffer_eq_true bufv endp 1 h]

/-- C13: the decoder reads no byte at an offset at or beyond the declared
length: whatever the memory holds from offset `len` on, `luaser_decode` on the
`len` bytes gives the same result, be the buffer valid, truncated or garbage,
and when it succeeds the cursor has stayed within the declared length.
Whenever fewer bytes remain than the tag and the field after it need, the
decoder raises "wrong code", and so does the loop of a table when no byte
remains after a key or after a value. -/
theorem decoder_stays_in_bounds (load : List Nat → Option (List Nat))
    (L : List LuaValue) (mem mem1 : List Nat) (len : Nat)
    (h : mem.take len = mem1.take len) :
    luaser_decode load L mem1 len = luaser_decode load L mem len
      ∧ (∀ buf1 L1, decodevalue load mem (2 * len + 1) 0 len L = .ok (buf1, L1) →
          0 < buf1 ∧ buf1 ≤ len)
      ∧ (∀ f buf endp L0, endp < buf + 1 + fieldBytes mem buf →
          decodevalue load mem (f + 1) buf endp L0 = .raise "wrong code")
      ∧ (∀ f buf endp L0 bufk Lk, readByte mem buf ≠ LUA_TNIL →
          decodevalue load mem f buf endp L0 = .ok (bufk, Lk) →
          (endp < bufk + 1 →
              decodeentries load mem (f + 1) buf endp L0 = .raise "wrong code")
            ∧ ∀ bufv Lv, decodevalue load mem f bufk endp Lk = .ok (bufv, Lv) →
                endp < bufv + 1 →
                decodeentries load mem (f + 1) buf endp L0 = .raise "wrong code") := by
  refine ⟨?_, fun buf1 L1 hd => (decode_cursor load mem (2 * len + 1)).1 _ _ _ _ _ hd,
    fun f buf endp L0 hs => decodevalue_short load mem f buf endp L0 hs,
    fun f buf endp L0 bufk Lk ht hk => decodeentries_short load mem f buf endp L0 bufk Lk ht hk⟩
  simp only [luaser_decode, (decode_agree load mem mem1 len h (2 * len + 1)).1 0 L]

/-- Witness of `decoder_stays_in_bounds`: a buffer of two bytes that holds the
boolean `true`, followed in memory by nothing or by two other bytes. -/
theorem decoder_stays_in_bounds_witness :
    List.take 2 [1, 1] = List.take 2 [1, 1, 7, 7]
      ∧ luaser_decode loadAny [] [1, 1, 7, 7] 2 = luaser_decode loadAny [] [1, 1] 2
      ∧ luaser_decode loadAny [] [1, 1] 2 = .ok [.boolean true] :=
  ⟨rfl, (decoder_stays_in_bounds loadAny [] [1, 1] [1, 1, 7, 7] 2 rfl).1, by decide⟩

/-! ## Truncated buffers -/

mutual
theorem decodevalue_truncated (load : List Nat → Option (List Nat)) (mem : List Nat)
    (v : LuaValue) (fuel buf endp : Nat) (L : List LuaValue) (post : List Nat)
    (hw : wellformed v = true) (hs : supported v = true) (hd : dumpsFit v = true)
    (hl : loadsBack load v)
    (hm : mem.drop buf = encoded v ++ post) (he : endp < buf + (encoded v).length)
    (hf : 2 * (endp - buf) + 1 ≤ fuel) :
    decodevalue load mem fuel buf endp L = .raise "wrong code" := by
  obtain ⟨f, rfl⟩ : ∃ f, fuel = f + 1 := ⟨fuel - 1, by omega⟩
  by_cases c0 : endp < buf + 1
  · simp [decodevalue, checkbuffer_eq_true _ _ _ c0]
  have c1 : checkbuffer buf endp 1 = false := checkbuffer_eq_false _ _ _ (by omega)
  cases v with
  | nil =>
    simp only [encoded, List.length_singleton] at he
    omega
  | boolean b =>
    simp only [encoded, List.length_cons, List.length_nil, List.cons_append,
      List.nil_append] at hm he
    have c2 : checkbuffer (buf + 1) endp 1 = true := checkbuffer_eq_true _ _ _ (by omega)
    simp [decodevalue, c1, c2, readByte_of_drop _ _ _ _ hm, LUA_TNIL, LUA_TBOOLEAN]
  | number n =>
    simp only [encoded, List.length_cons, length_leBytes, List.cons_append] at hm he
    have c2 : checkbuffer (buf + 1) endp sizeof_lua_Number = true :=
      checkbuffer_eq_true _ _ _ (by omega)
    simp [decodevalue, c1, c2, readByte_of_drop _ _ _ _ hm, LUA_TNIL, LUA_TBOOLEAN,
      LUA_TNUMBER]
  | string s =>
    simp only [encoded, List.length_cons, List.length_append, length_leBytes,
      List.cons_append, List.append_assoc] at hm he
    simp only [supported, decide_eq_true_eq, UINT32_MAX] at hs
    have hlen : s.length % 2 ^ 32 = s.length := Nat.mod_eq_of_lt (by omega)
    rw [hlen] at hm
    have h1 := drop_succ_of_drop _ _ _ _ hm
    by_cases c : endp < buf + 1 + sizeof_uint32_t
    · have c2 := checkbuffer_eq_true (buf + 1) endp sizeof_uint32_t c
      simp [decodevalue, c1, c2, readByte_of_drop _ _ _ _ hm, LUA_TNIL, LUA_TBOOLEAN,
        LUA_TNUMBER, LUA_TSTRING]
    have c2 : checkbuffer (buf + 1) endp sizeof_uint32_t = false :=
      checkbuffer_eq_false _ _ _ (by omega)
    have c3 : checkbuffer (buf + 1 + sizeof_uint32_t) endp s.length = true :=
      checkbuffer_eq_true _ _ _ (by omega)
    have r := readBytes_of_drop _ _ _ _ h1
    rw [length_leBytes] at r
    have hv : leVal (leBytes sizeof_uint32_t s.length) = s.length :=
      leVal_leBytes _ _ (by simp only [sizeof_uint32_t]; omega)
    simp [decodevalue, c1, c2, c3, readByte_of_drop _ _ _ _ hm, r, hv, LUA_TNIL,
      LUA_TBOOLEAN, LUA_TNUMBER, LUA_TSTRING]
  | lfunction nups dump =>
    simp only [encoded, List.length_cons, List.length_append, length_leBytes,
      List.cons_append, List.append_assoc] at hm he
    simp only [dumpsFit, decide_eq_true_eq, UINT32_MAX] at hd
    have hlen : dump.length % 2 ^ 32 = dump.length := Nat.mod_eq_of_lt (by omega)
    rw [hlen] at hm
    have h1 := drop_succ_of_drop _ _ _ _ hm
    by_cases c : endp < buf + 1 + sizeof_uint32_t
    · have c2 := checkbuffer_eq_true (buf + 1) endp sizeof_uint32_t c
      simp [decodevalue, c1, c2, readByte_of_drop _ _ _ _ hm, LUA_TNIL, LUA_TBOOLEAN,
        LUA_TNUMBER, LUA_TSTRING, LUA_TTABLE, LUA_TFUNCTION]
    have c2 : checkbuffer (buf + 1) endp sizeof_uint32_t = false :=
      checkbuffer_eq_false _ _ _ (by omega)
    have c3 : checkbuffer (buf + 1 + sizeof_uint32_t) endp dump.length = true :=
      checkbuffer_eq_true _ _ _ (by omega)
    have r := readBytes_of_drop _ _ _ _ h1
    rw [length_leBytes] at r
    have hv : leVal (leBytes sizeof_uint32_t dump.length) = dump.length :=
      leVal_leBytes _ _ (by simp only [sizeof_uint32_t]; omega)
    simp [decodevalue, c1, c2, c3, readByte_of_drop _ _ _ _ hm, r, hv, LUA_TNIL,
      LUA_TBOOLEAN, LUA_TNUMBER, LUA_TSTRING, LUA_TTABLE, LUA_TFUNCTION]
  | table metatable entries =>
    simp only [encoded, List.length_cons, List.length_append, List.length_singleton,
      List.length_nil, List.cons_append, List.append_assoc, List.singleton_append] at hm he
    simp only [supported, Bool.and_eq_true, Bool.not_eq_true'] at hs
    simp only [wellformed] at hw
    simp only [dumpsFit] at hd
    simp only [loadsBack] at hl
    obtain ⟨hmt, hs⟩ := hs
    subst hmt
    have h1 := drop_succ_of_drop _ _ _ _ hm
    by_cases c : endp < buf + 1 + 1
    · have c2 := checkbuffer_eq_true (buf + 1) endp 1 c
      simp [decodevalue, c1, c2, readByte_of_drop _ _ _ _ hm, LUA_TNIL, LUA_TBOOLEAN,
        LUA_TNUMBER, LUA_TSTRING, LUA_TTABLE]
    have c2 : checkbuffer (buf + 1) endp 1 = false := checkbuffer_eq_false _ _ _ (by omega)
    have ih := decodeentries_truncated load mem entries f (buf + 1) endp L post .none
      hw hs hd hl h1 (by omega) (by omega) (by omega)
    simp [decodevalue, c1, c2, readByte_of_drop _ _ _ _ hm, ih, LUA_TNIL, LUA_TBOOLEAN,
      LUA_TNUMBER, LUA_TSTRING, LUA_TTABLE]
  | lightuserdata p => simp [supported] at hs
  | cfunction p => simp [supported] at hs
  | userdata p => simp [supported] at hs
  | thread p => simp [supported] at hs
theorem decodeentries_truncated (load : List Nat → Option (List Nat)) (mem : List Nat)
    (es : Entries) (fuel buf endp : Nat) (L : List LuaValue) (post : List Nat)
    (acc : Entries)
    (hw : wellformedEntries es = true) (hs : supportedEntries es = true)
    (hd : dumpsFitEntries es = true) (hl : loadsBackEntries load es)
    (hm : mem.drop buf = encodedEntries es ++ (LUA_TNIL :: post))
    (he : endp < buf + (encodedEntries es).length + 1) (hb : buf + 1 ≤ endp)
    (hf : 2 * (endp - buf) + 2 ≤ fuel) :
    decodeentries load mem fuel buf endp (.table false acc :: L)
      = .raise "wrong code" := by
  obtain ⟨f, rfl⟩ : ∃ f, fuel = f + 1 := ⟨fuel - 1, by omega⟩
  cases es with
  | none =>
    simp only [encodedEntries, List.length_nil] at he
    omega
  | more key value rest =>
    simp only [encodedEntries, List.length_append, List.append_assoc] at hm he
    simp only [supportedEntries, Bool.and_eq_true] at hs
    simp only [wellformedEntries, Bool.and_eq_true, bne_iff_ne, ne_eq,
      Bool.not_eq_true'] at hw
    simp only [dumpsFitEntries, Bool.and_eq_true] at hd
    simp only [loadsBackEntries] at hl
    obtain ⟨⟨⟨⟨⟨⟨hwk, hwv⟩, hkn⟩, hvn⟩, hnan⟩, hfresh⟩, hwr⟩ := hw
    obtain ⟨⟨hsk, hsv⟩, hsr⟩ := hs
    obtain ⟨⟨hdk, hdv⟩, hdr⟩ := hd
    obtain ⟨hlk, hlv, hlr⟩ := hl
    have pk := encoded_length_pos key hsk
    have pv := encoded_length_pos value hsv
    obtain ⟨t, ht⟩ := encoded_head key hsk
    have hb0 : readByte mem buf = lua_type key := by
      rw [ht] at hm
      exact readByte_of_drop _ _ _ _ hm
    have hne : lua_type key ≠ LUA_TNIL := fun h => hkn ((lua_type_eq_nil key).mp h)
    by_cases ck : endp < buf + (encoded key).length
    · have dk := decodevalue_truncated load mem key f buf endp (.table false acc :: L) _
        hwk hsk hdk hlk hm ck (by omega)
      simp [decodeentries, hb0, hne, dk]
    have dk := decodevalue_encoded load mem key f buf endp (.table false acc :: L) _
      hwk hsk hdk hlk hm (by omega) (by omega)
    by_cases c1 : endp < buf + (encoded key).length + 1
    · simp [decodeentries, hb0, hne, dk, checkbuffer_eq_true _ _ _ c1]
    have c1f : checkbuffer (buf + (encoded key).length) endp 1 = false :=
      checkbuffer_eq_false _ _ _ (by omega)
    have hm2 := drop_add_of_drop _ _ _ _ hm
    by_cases cv : endp < buf + (encoded key).length + (encoded value).length
    · have dv := decodevalue_truncated load mem value f (buf + (encoded key).length) endp
        (key :: .table false acc :: L) _ hwv hsv hdv hlv hm2 cv (by omega)
      simp [decodeentries, hb0, hne, dk, c1f, dv]
    have dv := decodevalue_encoded load mem value f (buf + (encoded key).length) endp
      (key :: .table false acc :: L) _ hwv hsv hdv hlv hm2 (by omega) (by omega)
    by_cases c2 : endp < buf + (encoded key).length + (encoded value).length + 1
    · simp [decodeentries, hb0, hne, dk, c1f, dv, checkbuffer_eq_true _ _ _ c2]
    have c2f : checkbuffer (buf + (encoded key).length + (encoded value).length) endp 1
        = false := checkbuffer_eq_false _ _ _ (by omega)
    have hnan2 : ∀ bits, key = .number bits → isNaN bits = false := by
      intro bits hk
      subst hk
      simpa using hnan
    have hset := lua_settable_ok value key false acc L hkn hnan2
    have hm3 := drop_add_of_drop _ _ _ _ hm2
    have ih := decodeentries_truncated load mem rest f
      (buf + (encoded key).length + (encoded value).length) endp L post
      (lua_rawset acc key value) hwr hsr hdr hlr hm3 (by omega) (by omega) (by omega)
    simp [decodeentries, hb0, hne, dk, c1f, dv, c2f, hset, ih]
end

/-- Truncation of what the encoder wrote for a value the codec carries across:
on every proper prefix, the empty one included, the decoder raises
"wrong code". -/
theorem luaser_decode_truncated (load : List Nat → Option (List Nat)) (v : LuaValue)
    (L : List LuaValue) (p t : List Nat) (hp : portable load v)
    (hpre : encoded v = p ++ t) (ht : t ≠ []) :
    luaser_decode load L p p.length = .raise "wrong code" := by
  obtain ⟨hw, hs, hd, hl⟩ := hp
  have hlen : p.length < (encoded v).length := by
    rw [hpre, List.length_append]
    have : 0 < t.length := List.length_pos.mpr ht
    omega
  have hag : (encoded v).take p.length = p.take p.length := by
    rw [hpre, List.take_left, List.take_length]
  have h1 := (decode_agree load (encoded v) p p.length hag (2 * p.length + 1)).1 0 L
  have h2 := decodevalue_truncated load (encoded v) v (2 * p.length + 1) 0 p.length L []
    hw hs hd hl (by simp) (by omega) (by omega)
  simp only [luaser_decode, h1, h2]

theorem replicate_zero_ne_nil (n : Nat) (h : 0 < n) : List.replicate n 0 ≠ [] := by
  intro he
  have hl := congrArg List.length he
  rw [List.length_replicate] at hl
  simp only [List.length_nil] at hl
  omega

/-- C12 (broken by the code on closures whose dump is `2^32` bytes or more):
`hugeClosure` is a well-formed, supported closure without upvalues that the
loader loads back; the encoder writes `hugeClosureBytes` for it, of which the
first five bytes, the tag and a length field of 0, are a proper prefix; on
that prefix the decoder does not fail: it loads the empty chunk and pushes a
closure. -/
theorem truncated_huge_closure_decodes :
    wellformed hugeClosure = true ∧ supported hugeClosure = true
      ∧ loadsBack loadAny hugeClosure
      ∧ encodevalue hugeClosure [] = .ok hugeClosureBytes
      ∧ hugeClosureBytes = [LUA_TFUNCTION, 0, 0, 0, 0] ++ List.replicate (2 ^ 32) 0
      ∧ List.replicate (2 ^ 32) 0 ≠ []
      ∧ luaser_decode loadAny [] [LUA_TFUNCTION, 0, 0, 0, 0]
            [LUA_TFUNCTION, 0, 0, 0, 0].length
          = .ok [.lfunction 0 []] :=
  ⟨wellformed_replicate 0 (2 ^ 32), rfl, rfl,
    encodevalue_zero_length_field _ (length_replicate_mod (2 ^ 32)),
    rfl, replicate_zero_ne_nil (2 ^ 32) (Nat.pow_pos (by norm_num)),
    luaser_decode_zero_length_function loadAny [] 5 [] (by omega)⟩

/-! ## The result does not depend on the recursion budget -/

theorem decode_fuel_mono (load : List Nat → Option (List Nat)) (mem : List Nat) :
    ∀ f : Nat,
      (∀ g buf endp L, f ≤ g → decodevalue load mem f buf endp L ≠ .fuel →
          decodevalue load mem g buf endp L = decodevalue load mem f buf endp L)
        ∧ (∀ g buf endp L, f ≤ g → decodeentries load mem f buf endp L ≠ .fuel →
            decodeentries load mem g buf endp L
              = decodeentries load mem f buf endp L) := by
  intro f
  induction f with
  | zero =>
    constructor
    · intro g buf endp L _ h
      exact absurd (by simp [decodevalue]) h
    · intro g buf endp L _ h
      exact absurd (by simp [decodeentries]) h
  | succ f ih =>
    obtain ⟨ihv, ihe⟩ := ih
    constructor
    · intro g buf endp L hle h
      obtain ⟨g1, rfl⟩ : ∃ g1, g = g1 + 1 := ⟨g - 1, by omega⟩
      have hle1 : f ≤ g1 := by omega
      generalize hr : decodevalue load mem (f + 1) buf endp L = r at h ⊢
      simp only [decodevalue] at hr ⊢
      by_cases c0 : checkbuffer buf endp 1 = true
      · rw [if_pos c0] at hr ⊢
        exact hr
      rw [if_neg c0] at hr ⊢
      by_cases t0 : readByte mem buf = LUA_TNIL
      · rw [if_pos t0] at hr ⊢
        exact hr
      rw [if_neg t0] at hr ⊢
      by_cases t1 : readByte mem buf = LUA_TBOOLEAN
      · rw [if_pos t1] at hr ⊢
        exact hr
      rw [if_neg t1] at hr ⊢
      by_cases t3 : readByte mem buf = LUA_TNUMBER
      · rw [if_pos t3] at hr ⊢
        exact hr
      rw [if_neg t3] at hr ⊢
      by_cases t4 : readByte mem buf = LUA_TSTRING
      · rw [if_pos t4] at hr ⊢
        exact hr
      rw [if_neg t4] at hr ⊢
      by_cases t5 : readByte mem buf = LUA_TTABLE
      · rw [if_pos t5] at hr ⊢
        by_cases c1 : checkbuffer (buf + 1) endp 1 = true
        · rw [if_pos c1] at hr ⊢
          exact hr
        rw [if_neg c1] at hr ⊢
        rw [ihe g1 _ _ _ hle1 (by rw [hr]; exact h)]
        exact hr
      rw [if_neg t5] at hr ⊢
      exact hr
    · intro g buf endp L hle h
      obtain ⟨g1, rfl⟩ : ∃ g1, g = g1 + 1 := ⟨g - 1, by omega⟩
      have hle1 : f ≤ g1 := by omega
      generalize hr : decodeentries load mem (f + 1) buf endp L = r at h ⊢
      simp only [decodeentries] at hr ⊢
      by_cases t0 : readByte mem buf = LUA_TNIL
      · rw [if_neg (not_not.mpr t0)] at hr ⊢
        exact hr
      rw [if_pos t0] at hr ⊢
      cases hk : decodevalue load mem f buf endp L with
      | fuel =>
        rw [hk] at hr
        exact absurd hr.symm h
      | raise msg =>
        have hk1 := ihv g1 buf endp L hle1 (by rw [hk]; intro c; cases c)
        rw [hk] at hk1 hr
        rw [hk1]
        exact hr
      | ok rk =>
        obtain ⟨bufk, Lk⟩ := rk
        have hk1 := ihv g1 buf endp L hle1 (by rw [hk]; intro c; cases c)
        rw [hk] at hk1 hr
        rw [hk1]
        simp only at hr ⊢
        by_cases ck : checkbuffer bufk endp 1 = true
        · rw [if_pos ck] at hr ⊢
          exact hr
        rw [if_neg ck] at hr ⊢
        cases hv : decodevalue load mem f bufk endp Lk with
        | fuel =>
          rw [hv] at hr
          exact absurd hr.symm h
        | raise msg =>
          have hv1 := ihv g1 bufk endp Lk hle1 (by rw [hv]; intro c; cases c)
          rw [hv] at hv1 hr
          rw [hv1]
          exact hr
        | ok rv =>
          obtain ⟨bufv, Lv⟩ := rv
          have hv1 := ihv g1 bufk endp Lk hle1 (by rw [hv]; intro c; cases c)
          rw [hv] at hv1 hr
          rw [hv1]
          simp only at hr ⊢
          by_cases cv : checkbuffer bufv endp 1 = true
          · rw [if_pos cv] at hr ⊢
            exact hr
          rw [if_neg cv] at hr ⊢
          cases hs : lua_settable Lv with
          | fuel => exact absurd hs (lua_settable_ne_fuel Lv)
          | raise msg =>
            rw [hs] at hr
            exact hr
          | ok Ls =>
            rw [hs] at hr
            simp only at hr ⊢
            rw [ihe g1 bufv endp Ls hle1 (by rw [hr]; exact h)]
            exact hr

/-- A successful call of `decodevalue` gives the same result with every
recursion budget that covers the bytes left. -/
theorem decode_fuel_agree (load : List Nat → Option (List Nat)) (mem : List Nat)
    (f g buf endp : Nat) (L : List LuaValue) (r : Nat × List LuaValue)
    (h : decodevalue load mem f buf endp L = .ok r) (hg : 2 * (endp - buf) + 1 ≤ g) :
    decodevalue load mem g buf endp L = .ok r := by
  by_cases hle : f ≤ g
  · rw [(decode_fuel_mono load mem f).1 g buf endp L hle (by rw [h]; intro c; cases c), h]
  · have hne := (decode_fuel load mem g).1 buf endp L hg
    have hm := (decode_fuel_mono load mem g).1 f buf endp L (by omega) hne
    rw [← hm, h]

/-! ## Tags outside the format -/

theorem meetsUnknownTag_bound (load : List Nat → Option (List Nat)) (mem : List Nat)
    (endp buf : Nat) (L : List LuaValue)
    (h : MeetsUnknownTag load mem endp false buf L) : buf + 1 ≤ endp := by
  cases h with
  | here _ _ hb _ => exact hb
  | table _ _ hb _ _ => omega

theorem decodevalue_unknown_tag (load : List Nat → Option (List Nat)) (mem : List Nat)
    (f buf endp : Nat) (L : List LuaValue) (hb : buf + 1 ≤ endp)
    (ht : isCodecTag (readByte mem buf) = false) :
    decodevalue load mem (f + 1) buf endp L = .raise "wrong type identifier" := by
  simp only [isCodecTag, Bool.or_eq_false_iff, beq_eq_false_iff_ne, ne_eq] at ht
  obtain ⟨⟨⟨⟨⟨t0, t1⟩, t3⟩, t4⟩, t5⟩, t6⟩ := ht
  have c0 : checkbuffer buf endp 1 = false := checkbuffer_eq_false _ _ _ hb
  simp [decodevalue, c0, t0, t1, t3, t4, t5, t6]

theorem meetsUnknownTag_raises (load : List Nat → Option (List Nat)) (mem : List Nat)
    (endp : Nat) (flag : Bool) (buf : Nat) (L : List LuaValue)
    (h : MeetsUnknownTag load mem endp flag buf L) :
    ∀ fuel,
      (flag = false → 2 * (endp - buf) + 1 ≤ fuel →
          decodevalue load mem fuel buf endp L = .raise "wrong type identifier")
        ∧ (flag = true → 2 * (endp - buf) + 2 ≤ fuel →
            decodeentries load mem fuel buf endp L = .raise "wrong type identifier") := by
  induction h with
  | here buf L hb ht =>
    intro fuel
    refine ⟨fun _ hf => ?_, fun c => by cases c⟩
    obtain ⟨f, rfl⟩ : ∃ f, fuel = f + 1 := ⟨fuel - 1, by omega⟩
    exact decodevalue_unknown_tag load mem f buf endp L hb ht
  | table buf L hb ht _ ih =>
    intro fuel
    refine ⟨fun _ hf => ?_, fun c => by cases c⟩
    obtain ⟨f, rfl⟩ : ∃ f, fuel = f + 1 := ⟨fuel - 1, by omega⟩
    have he := (ih f).2 rfl (by omega)
    have c0 : checkbuffer buf endp 1 = false := checkbuffer_eq_false _ _ _ (by omega)
    have c1 : checkbuffer (buf + 1) endp 1 = false := checkbuffer_eq_false _ _ _ hb
    simp [decodevalue, c0, c1, ht, he, LUA_TNIL, LUA_TBOOLEAN, LUA_TNUMBER, LUA_TSTRING,
      LUA_TTABLE]
  | key buf L ht _ ih =>
    intro fuel
    refine ⟨fun c => (by cases c), fun _ hf => ?_⟩
    obtain ⟨f, rfl⟩ : ∃ f, fuel = f + 1 := ⟨fuel - 1, by omega⟩
    have hv := (ih f).1 rfl (by omega)
    simp [decodeentries, ht, hv]
  | value buf L fuel0 bufk Lk ht hk hm ih =>
    intro fuel
    refine ⟨fun c => (by cases c), fun _ hf => ?_⟩
    obtain ⟨f, rfl⟩ : ∃ f, fuel = f + 1 := ⟨fuel - 1, by omega⟩
    have hb := meetsUnknownTag_bound load mem endp bufk Lk hm
    have pk := (decode_cursor load mem fuel0).1 _ _ _ _ _ hk
    have hk1 := decode_fuel_agree load mem fuel0 f buf endp L _ hk (by omega)
    have hv := (ih f).1 rfl (by omega)
    have c1 : checkbuffer bufk endp 1 = false := checkbuffer_eq_false _ _ _ hb
    simp [decodeentries, ht, hk1, c1, hv]
  | later buf L fuel0 bufk Lk bufv Lv Ls ht hk hv hb hs _ ih =>
    intro fuel
    refine ⟨fun c => (by cases c), fun _ hf => ?_⟩
    obtain ⟨f, rfl⟩ : ∃ f, fuel = f + 1 := ⟨fuel - 1, by omega⟩
    have pk := (decode_cursor load mem fuel0).1 _ _ _ _ _ hk
    have pv := (decode_cursor load mem fuel0).1 _ _ _ _ _ hv
    have hk1 := decode_fuel_agree load mem fuel0 f buf endp L _ hk (by omega)
    have hv1 := decode_fuel_agree load mem fuel0 f bufk endp Lk _ hv (by omega)
    have he := (ih f).2 rfl (by omega)
    have c1 : checkbuffer bufk endp 1 = false := checkbuffer_eq_false _ _ _ (by omega)
    have c2 : checkbuffer bufv endp 1 = false := checkbuffer_eq_false _ _ _ hb
    simp [decodeentries, ht, hk1, c1, hv1, c2, hs, he]

/-- C21: when a value position of a buffer, at the top level or in a key or a
value position inside tables at any depth, holds a byte that is none of the
six tags of the format, what precedes it being decoded, `luaser_decode` raises
"wrong type identifier" and pushes no value. -/
theorem unknown_tag_rejected (load : List Nat → Option (List Nat)) (L : List LuaValue)
    (mem : List Nat) (len : Nat) (h : MeetsUnknownTag load mem len false 0 L) :
    luaser_decode load L mem len = .raise "wrong type identifier"
      ∧ ∀ L1, luaser_decode load L mem len ≠ .ok L1 := by
  have hd := (meetsUnknownTag_raises load mem len false 0 L h (2 * len + 1)).1 rfl
    (by omega)
  have hr : luaser_decode load L mem len = .raise "wrong type identifier" := by
    simp only [luaser_decode, hd]
  refine ⟨hr, ?_⟩
  intro L1 hc
  rw [hr] at hc
  cases hc

theorem meetsUnknownTag_unknownTagBuffer :
    MeetsUnknownTag loadAny unknownTagBuffer 11 false 0 [] := by
  refine MeetsUnknownTag.table 0 [] (by decide) rfl ?_
  refine MeetsUnknownTag.value 1 _ 1 7 [.string [107], .table false .none] (by decide)
    rfl ?_
  refine MeetsUnknownTag.table 7 _ (by decide) rfl ?_
  refine MeetsUnknownTag.value 8 _ 1 10
    [.boolean true, .table false .none, .string [107], .table false .none] (by decide)
    rfl ?_
  exact MeetsUnknownTag.here 10 _ (by decide) rfl

/-- Witness of `unknown_tag_rejected`: in `unknownTagBuffer` the byte 9 stands
where the value of the key `true` of the inner table is to start. -/
theorem unknown_tag_rejected_witness :
    MeetsUnknownTag loadAny unknownTagBuffer 11 false 0 []
      ∧ luaser_decode loadAny [] unknownTagBuffer 11 = .raise "wrong type identifier"
      ∧ ∀ L1, luaser_decode loadAny [] unknownTagBuffer 11 ≠ .ok L1 :=
  ⟨meetsUnknownTag_unknownTagBuffer,
    unknown_tag_rejected loadAny [] unknownTagBuffer 11 meetsUnknownTag_unknownTagBuffer⟩

/-! ## The cursor of the decoder -/

/-- C22: on every buffer and every start position where `decodevalue` returns,
the cursor it returns is beyond the start position and not beyond the end, so
the condition of its final `assert(buf <= end)` holds wherever the assert is
reached; the call returns the same with every recursion budget that covers the
bytes left; and on every input, whether it returns or raises, such a budget is
never exhausted and the outcome does not depend on it: the decoder
terminates. -/
theorem decodevalue_progress (load : List Nat → Option (List Nat)) (mem : List Nat)
    (fuel buf endp : Nat) (L : List LuaValue) (buf1 : Nat) (L1 : List LuaValue)
    (h : decodevalue load mem fuel buf endp L = .ok (buf1, L1)) :
    buf < buf1 ∧ buf1 ≤ endp
      ∧ (∀ g, 2 * (endp - buf) + 1 ≤ g →
          decodevalue load mem g buf endp L = .ok (buf1, L1))
      ∧ (∀ mem0 g buf0 endp0 L0, 2 * (endp0 - buf0) + 1 ≤ g →
          decodevalue load mem0 g buf0 endp0 L0 ≠ .fuel
            ∧ decodevalue load mem0 g buf0 endp0 L0
                = decodevalue load mem0 (2 * (endp0 - buf0) + 1) buf0 endp0 L0)
      ∧ ∀ mem0 len L0, luaser_decode load L0 mem0 len ≠ .fuel := by
  have hc := (decode_cursor load mem fuel).1 _ _ _ _ _ h
  refine ⟨hc.1, hc.2, fun g hg => decode_fuel_agree load mem fuel g buf endp L _ h hg,
    ?_, fun mem0 len L0 => luaser_decode_fuel load L0 mem0 len⟩
  intro mem0 g buf0 endp0 L0 hg
  exact ⟨(decode_fuel load mem0 g).1 buf0 endp0 L0 hg,
    (decode_fuel_mono load mem0 (2 * (endp0 - buf0) + 1)).1 g buf0 endp0 L0 hg
      ((decode_fuel load mem0 _).1 buf0 endp0 L0 (Nat.le_refl _))⟩

/-- Witness of `decodevalue_progress`: the nested table that starts at offset 7
of a buffer of 14 bytes ends at offset 13. -/
theorem decodevalue_progress_witness :
    decodevalue loadAny [5, 4, 1, 0, 0, 0, 107, 5, 1, 1, 1, 1, 0, 0] 9 7 14 []
        = .ok (13, [.table false (.more (.boolean true) (.boolean true) .none)])
      ∧ 7 < 13 ∧ 13 ≤ 14 :=
  ⟨rfl,
    (decodevalue_progress loadAny [5, 4, 1, 0, 0, 0, 107, 5, 1, 1, 1, 1, 0, 0] 9 7 14 []
      13 _ rfl).1,
    (decodevalue_progress loadAny [5, 4, 1, 0, 0, 0, 107, 5, 1, 1, 1, 1, 0, 0] 9 7 14 []
      13 _ rfl).2.1⟩

/-! ## The length field -/

theorem length_field_of_output (buf : List Nat) (tag n : Nat) (payload out : List Nat)
    (h : out = buf ++ [tag] ++ leBytes sizeof_uint32_t n ++ payload)
    (hn : n < 2 ^ 32) :
    leVal (readBytes out (buf.length + 1) sizeof_uint32_t) = n
      ∧ out.drop (buf.length + 1 + sizeof_uint32_t) = payload := by
  have hd : out.drop (buf.length + 1) = leBytes sizeof_uint32_t n ++ payload := by
    rw [h, List.append_assoc]
    exact List.drop_left' (by simp)
  have r := readBytes_of_drop _ _ _ _ hd
  have d := drop_add_of_drop _ _ _ _ hd
  rw [length_leBytes] at r d
  refine ⟨?_, d⟩
  rw [r]
  exact leVal_leBytes _ _ (by simpa [sizeof_uint32_t] using hn)

/-- The length field of a string: whenever the encoder returns, the field
holds the length of the string and the bytes of the string follow. -/
theorem length_field_string (s buf out : List Nat)
    (h : encodevalue (.string s) buf = .ok out) :
    leVal (readBytes out (buf.length + 1) sizeof_uint32_t) = s.length
      ∧ out.drop (buf.length + 1 + sizeof_uint32_t) = s := by
  simp only [encodevalue] at h
  by_cases hl : s.length > UINT32_MAX
  · rw [if_pos hl] at h
    cases h
  rw [if_neg hl] at h
  injection h with h
  simp only [UINT32_MAX] at hl
  have hlt : s.length < 2 ^ 32 := by omega
  rw [Nat.mod_eq_of_lt hlt] at h
  exact length_field_of_output buf LUA_TSTRING s.length s out h.symm hlt

/-- The length field of a closure: whenever the encoder returns, the field
holds the length of the dump modulo `2^32` and the whole dump follows. -/
theorem length_field_closure (nups : Nat) (dump buf out : List Nat)
    (h : encodevalue (.lfunction nups dump) buf = .ok out) :
    leVal (readBytes out (buf.length + 1) sizeof_uint32_t) = dump.length % 2 ^ 32
      ∧ out.drop (buf.length + 1 + sizeof_uint32_t) = dump := by
  simp only [encodevalue] at h
  by_cases hu : nups > 0
  · rw [if_pos hu] at h
    cases h
  rw [if_neg hu] at h
  injection h with h
  exact length_field_of_output buf LUA_TFUNCTION (dump.length % 2 ^ 32) dump out h.symm
    (Nat.mod_lt _ (Nat.pow_pos (by norm_num)))

/-- C23 (broken by the code on closures whose dump is `2^32` bytes or more):
the encoder succeeds on `hugeClosure`; the length field it writes after the
tag holds 0, and the payload that follows is the whole dump, of `2^32`
bytes. -/
theorem closure_length_field_truncated :
    supported hugeClosure = true
      ∧ encodevalue hugeClosure [] = .ok hugeClosureBytes
      ∧ leVal (readBytes hugeClosureBytes 1 sizeof_uint32_t) = 0
      ∧ hugeClosureBytes.drop (1 + sizeof_uint32_t) = List.replicate (2 ^ 32) 0
      ∧ (List.replicate (2 ^ 32) 0).length = 2 ^ 32 :=
  ⟨rfl, encodevalue_zero_length_field _ (length_replicate_mod (2 ^ 32)), rfl, rfl,
    List.length_replicate _ _⟩

/-! ## The encoder and the reference layout -/

mutual
theorem layout_of_fit (v : LuaValue) (hs : supported v = true) (hd : dumpsFit v = true) :
    layout v = some (encoded v) := by
  cases v with
  | nil => rfl
  | boolean b => cases b <;> rfl
  | number n => rfl
  | string s =>
    simp only [supported, decide_eq_true_eq, UINT32_MAX] at hs
    have hlt : s.length < 2 ^ 32 := by omega
    rw [layout, if_pos hlt, encoded, Nat.mod_eq_of_lt hlt]
    rfl
  | lfunction nups dump =>
    simp only [dumpsFit, decide_eq_true_eq, UINT32_MAX] at hd
    have hlt : dump.length < 2 ^ 32 := by omega
    rw [layout, if_pos hlt, encoded, Nat.mod_eq_of_lt hlt]
    rfl
  | table metatable entries =>
    simp only [supported, Bool.and_eq_true, Bool.not_eq_true'] at hs
    simp only [dumpsFit] at hd
    rw [layout, layoutEntries_of_fit entries hs.2 hd, encoded]
    rfl
  | lightuserdata p => simp [supported] at hs
  | cfunction p => simp [supported] at hs
  | userdata p => simp [supported] at hs
  | thread p => simp [supported] at hs
theorem layoutEntries_of_fit (es : Entries) (hs : supportedEntries es = true)
    (hd : dumpsFitEntries es = true) : layoutEntries es = some (encodedEntries es) := by
  cases es with
  | none => rfl
  | more key value rest =>
    simp only [supportedEntries, Bool.and_eq_true] at hs
    simp only [dumpsFitEntries, Bool.and_eq_true] at hd
    rw [layoutEntries, layout_of_fit key hs.1.1 hd.1.1, layout_of_fit value hs.1.2 hd.1.2,
      layoutEntries_of_fit rest hs.2 hd.2, encodedEntries]
    simp only [List.append_assoc]
end

mutual
theorem layout_none_of_unfit (v : LuaValue) (hd : dumpsFit v = false) :
    layout v = none := by
  cases v with
  | lfunction nups dump =>
    simp only [dumpsFit, decide_eq_false_iff_not, UINT32_MAX] at hd
    have hge : ¬ dump.length < 2 ^ 32 := by omega
    rw [layout, if_neg hge]
  | table metatable entries =>
    simp only [dumpsFit] at hd
    rw [layout, layoutEntries_none_of_unfit entries hd]
  | nil => simp [dumpsFit] at hd
  | boolean b => simp [dumpsFit] at hd
  | number n => simp [dumpsFit] at hd
  | string s => simp [dumpsFit] at hd
  | lightuserdata p => simp [dumpsFit] at hd
  | cfunction p => simp [dumpsFit] at hd
  | userdata p => simp [dumpsFit] at hd
  | thread p => simp [dumpsFit] at hd
theorem layoutEntries_none_of_unfit (es : Entries) (hd : dumpsFitEntries es = false) :
    layoutEntries es = none := by
  cases es with
  | none => simp [dumpsFitEntries] at hd
  | more key value rest =>
    simp only [dumpsFitEntries, Bool.and_eq_false_iff] at hd
    rw [layoutEntries]
    rcases hd with (hk | hv) | hr
    · rw [layout_none_of_unfit key hk]
    · rw [layout_none_of_unfit value hv]
      cases layout key <;> rfl
    · rw [layoutEntries_none_of_unfit rest hr]
      cases layout key <;> cases layout value <;> rfl
end

/-- On every supported value whose closures have dumps of at most `2^32 - 1`
bytes, the value has a reference layout, the encoder appends exactly that
layout and `luaser_encode` pushes it as a string. -/
theorem encoder_layout_of_fit (v : LuaValue) (h : supported v = true)
    (hd : dumpsFit v = true) :
    ∃ bytes, layout v = some bytes
      ∧ (∀ buf, encodevalue v buf = .ok (buf ++ bytes))
      ∧ ∀ L idx, stackAt L idx = some v →
          luaser_encode L idx = .ok (.string bytes :: L) := by
  refine ⟨encoded v, layout_of_fit v h hd, fun buf => encodevalue_supported v buf h,
    fun L idx hi => ?_⟩
  simp only [luaser_encode, hi, encodevalue_supported v [] h, List.nil_append]

/-- On a supported value that holds a closure whose dump is `2^32` bytes or
more, the encoder succeeds although the value has no reference layout. -/
theorem encoder_without_layout (v : LuaValue) (h : supported v = true)
    (hd : dumpsFit v = false) :
    layout v = none ∧ ∀ buf, encodevalue v buf = .ok (buf ++ encoded v) :=
  ⟨layout_none_of_unfit v hd, fun buf => encodevalue_supported v buf h⟩

/-- The length field of a reference layout: after the tag of a string or of a
closure come four bytes that read as the number of bytes of the payload, and
the payload. -/
theorem layout_length_field (v : LuaValue) (payload bytes : List Nat)
    (hv : (∃ nups, v = .lfunction nups payload) ∨ v = .string payload)
    (h : layout v = some bytes) :
    leVal (readBytes bytes 1 sizeof_uint32_t) = payload.length
      ∧ bytes.drop (1 + sizeof_uint32_t) = payload := by
  rcases hv with ⟨nups, rfl⟩ | rfl
  · rw [layout] at h
    by_cases hlt : payload.length < 2 ^ 32
    · rw [if_pos hlt] at h
      injection h with h
      have r := length_field_of_output [] LUA_TFUNCTION payload.length payload bytes
        (by rw [← h]; rfl) hlt
      simpa using r
    · rw [if_neg hlt] at h
      cases h
  · rw [layout] at h
    by_cases hlt : payload.length < 2 ^ 32
    · rw [if_pos hlt] at h
      injection h with h
      have r := length_field_of_output [] LUA_TSTRING payload.length payload bytes
        (by rw [← h]; rfl) hlt
      simpa using r
    · rw [if_neg hlt] at h
      cases h

theorem layout_closure_none (nups : Nat) (dump : List Nat) (h : 2 ^ 32 ≤ dump.length) :
    layout (.lfunction nups dump) = none := by
  have hge : ¬ dump.length < 2 ^ 32 := by omega
  rw [layout, if_neg hge]

/-- Example of `encoder_layout_of_fit`: a table that maps the string "k" to
true and the number 1 to a closure. -/
theorem encoder_layout_of_fit_example :
    layout (.table false (.more (.string [107]) (.boolean true)
        (.more (.number 4607182418800017408) workClosure .none)))
      = some [5, 4, 1, 0, 0, 0, 107, 1, 1, 3, 0, 0, 0, 0, 0, 0, 240, 63,
          6, 4, 0, 0, 0, 27, 76, 117, 97, 0]
      ∧ encodevalue (.table false (.more (.string [107]) (.boolean true)
          (.more (.number 4607182418800017408) workClosure .none))) []
        = .ok [5, 4, 1, 0, 0, 0, 107, 1, 1, 3, 0, 0, 0, 0, 0, 0, 240, 63,
            6, 4, 0, 0, 0, 27, 76, 117, 97, 0] :=
  ⟨by decide, rfl⟩

/-- C14 (broken by the code on closures whose dump is `2^32` bytes or more):
`hugeClosure` is a supported value and the encoder succeeds on it, but what it
writes is not the reference layout: a closure with a dump of `2^32` bytes has
no layout, since no four bytes hold that length, and the four bytes the
encoder writes after the function tag read as 0 while `2^32` bytes of dump
follow them. -/
theorem encoder_leaves_layout_on_huge_closure :
    supported hugeClosure = true
      ∧ encodevalue hugeClosure [] = .ok hugeClosureBytes
      ∧ layout hugeClosure = none
      ∧ layout hugeClosure ≠ some hugeClosureBytes
      ∧ leVal (readBytes hugeClosureBytes 1 sizeof_uint32_t) = 0
      ∧ hugeClosureBytes.drop (1 + sizeof_uint32_t) = List.replicate (2 ^ 32) 0
      ∧ (List.replicate (2 ^ 32) 0).length = 2 ^ 32 :=
  ⟨rfl, encodevalue_zero_length_field _ (length_replicate_mod (2 ^ 32)),
    layout_closure_none 0 _ (Nat.le_of_eq (List.length_replicate _ _).symm),
    fun h => Option.noConfusion
      ((layout_closure_none 0 _ (Nat.le_of_eq (List.length_replicate _ _).symm)).symm.trans h),
    rfl, rfl, List.length_replicate _ _⟩

end ThreadPool
